import Mathlib

/-!
Verification of the kiro-gateway specification against the source.

Each Python function named by a claim is shallow-embedded below as an
executable Lean definition translated from the source in `src/kiro/`:

* `calculate_tokens_from_context_usage` (`streaming_core.py`) — token accounting;
* `GlobalRateLimiter._acquire_slot` / `release` (`rate_limiter.py`) — FIFO slots;
* `APIKeyManager.validate_key` (`api_key_manager.py`);
* `KiroAuthManager.get_access_token` / `is_token_expired` (`auth.py`);
* `KiroHttpClient.request_with_retry` (`http_client.py`) — as an action trace;
* `AwsEventStreamParser` (`parsers.py`) — incremental event-stream parser,
  truncation diagnostic, finalization, deduplication;
* `normalize_model_name` / `ModelResolver.resolve` (`model_resolver.py`).

Python `int`s are modelled as `ℤ` (or `ℕ` where the source value is a count),
floats as `ℚ`, strings as `String`/`List Char`, `None`-able values as `Option`,
exceptions as explicit result variants.  External libraries (`bcrypt`, the
HTTP stack) are parameters of the embedding; the Python `json` module is
modelled by an executable JSON parser/serializer defined below.
-/

set_option maxRecDepth 10000

namespace KiroGateway

/-! ### Python numeric helpers -/

/-- Python `int(q)` on a rational: truncation toward zero. -/
def pyInt (q : ℚ) : ℤ := if 0 ≤ q then ⌊q⌋ else ⌈q⌉

/-- Whether `p` begins the list `s`. -/
def listBegins : List Char → List Char → Bool
  | _, [] => true
  | [], _ :: _ => false
  | c :: cs, p :: ps => c = p && listBegins cs ps

/-- Python `s.startswith(p)` (kernel-computable, unlike `String.startsWith`). -/
def pyStartsWith (s p : String) : Bool := listBegins s.toList p.toList

/-! ### Token accounting (`streaming_core.calculate_tokens_from_context_usage`)

The model cache argument of the Python function is represented by the value
`maxInputTokens` it returns for the requested model. -/

structure TokenCalc where
  promptTokens : ℤ
  totalTokens : ℤ
  promptSource : String
  totalSource : String
  deriving Repr, DecidableEq

/-- Embedding of `calculate_tokens_from_context_usage`
(`src/kiro/streaming_core.py`, lines 339-372). -/
def calculateTokensFromContextUsage (contextUsagePercentage : Option ℚ)
    (completionTokens : ℤ) (maxInputTokens : ℤ) : TokenCalc :=
  match contextUsagePercentage with
  | some p =>
    if 0 < p then
      let total : ℤ := pyInt (p / 100 * (maxInputTokens : ℚ))
      { promptTokens := max 0 (total - completionTokens)
        totalTokens := total
        promptSource := "subtraction"
        totalSource := "API Kiro" }
    else
      { promptTokens := 0, totalTokens := completionTokens
        promptSource := "unknown", totalSource := "tiktoken" }
  | none =>
      { promptTokens := 0, totalTokens := completionTokens
        promptSource := "unknown", totalSource := "tiktoken" }

/-! ### Global rate limiter (`rate_limiter.py`)

`_acquire_slot` and `release` mutate `_current_count` and the FIFO deque
`_waiters`; the surrounding `acquire()` only calls `_acquire_slot` when
`max_concurrent > 0`, and `release()` returns immediately in that case.
A signalled waiter is reported as the second component of `rlStep`. -/

structure RLState where
  maxConcurrent : ℤ
  currentCount : ℤ
  waiters : List Nat
  deriving Repr, DecidableEq

inductive RLOp where
  | acquire (id : Nat)
  | release
  deriving Repr, DecidableEq

/-- One rate-limiter operation: `acquire` embeds `acquire()`/`_acquire_slot`
(`src/kiro/rate_limiter.py`, lines 83-84 and 113-137), `release` embeds
`release()` (lines 139-152).  The returned `Option Nat` is the waiter
signalled by `release`, if any. -/
def rlStep (s : RLState) (op : RLOp) : RLState × Option Nat :=
  match op with
  | .acquire i =>
    if 0 < s.maxConcurrent then
      if s.currentCount < s.maxConcurrent then
        ({ s with currentCount := s.currentCount + 1 }, none)
      else
        ({ s with waiters := s.waiters ++ [i] }, none)
    else (s, none)
  | .release =>
    if s.maxConcurrent ≤ 0 then (s, none)
    else
      match s.waiters with
      | [] => ({ s with currentCount := s.currentCount - 1 }, none)
      | w :: rest => ({ s with waiters := rest }, some w)

/-- Run a sequence of rate-limiter operations. -/
def rlRun (s : RLState) (ops : List RLOp) : RLState :=
  ops.foldl (fun t op => (rlStep t op).1) s

/-- Initial limiter state for a given `max_concurrent`. -/
def rlInit (m : ℤ) : RLState := { maxConcurrent := m, currentCount := 0, waiters := [] }

/-- Number of `acquire` operations in a list. -/
def rlAcquires (ops : List RLOp) : ℕ :=
  ops.countP (fun op => match op with | .acquire _ => true | .release => false)

/-- Number of `release` operations in a list. -/
def rlReleases (ops : List RLOp) : ℕ :=
  ops.countP (fun op => match op with | .acquire _ => false | .release => true)

/-- Inductive invariant of the limiter state. -/
def RLInv (s : RLState) : Prop :=
  0 ≤ s.currentCount ∧ s.currentCount ≤ s.maxConcurrent ∧
    (s.waiters ≠ [] → s.currentCount = s.maxConcurrent)

/-- Decidable check that every prefix of `ops` has at least as many acquires
as releases ("each release is preceded by a matching acquire"). -/
def rlPrefixOk (ops : List RLOp) : Bool :=
  (List.range (ops.length + 1)).all
    (fun n => rlReleases (ops.take n) ≤ rlAcquires (ops.take n))



/-! ### A model of Python `json` values

`json.loads` produces Python values; `J` models them.  A parsed object is a
Python `dict`: keys are unique, a duplicate key in the source text keeps the
first key's position with the last value (`objInsert`).  Numbers keep their
source lexeme (Python re-formats floats on `dumps`; integers round-trip
exactly, which is all the concrete inputs below use). -/

inductive J where
  | null
  | bool (b : Bool)
  | num (lex : String)
  | str (s : String)
  | arr (elems : List J)
  | obj (fields : List (String × J))
  deriving Repr

mutual

/-- Structural equality on decoded values: Python `==`.  (`DecidableEq`
cannot be derived for the nested inductive; the embedding compares values
with `jBeq`, as Python compares with `==`; `jBeq_iff` below shows it
coincides with propositional equality.) -/
def jBeq (a b : J) : Bool :=
  match a, b with
  | .null, .null => true
  | .bool x, .bool y => x == y
  | .num x, .num y => x == y
  | .str x, .str y => x == y
  | .arr xs, .arr ys => jBeqList xs ys
  | .obj kvs, .obj lvs => jBeqFields kvs lvs
  | _, _ => false

/-- Elementwise equality of value lists. -/
def jBeqList (xs ys : List J) : Bool :=
  match xs, ys with
  | [], [] => true
  | x :: xs, y :: ys => jBeq x y && jBeqList xs ys
  | _, _ => false

/-- Elementwise equality of object field lists. -/
def jBeqFields (kvs lvs : List (String × J)) : Bool :=
  match kvs, lvs with
  | [], [] => true
  | (k, v) :: kvs, (l, w) :: lvs => k == l && jBeq v w && jBeqFields kvs lvs
  | _, _ => false

end

/-- Whether a number lexeme denotes zero (all mantissa digits are `0`). -/
def numIsZero (lex : String) : Bool :=
  (lex.toList.takeWhile (fun c => c ≠ 'e' ∧ c ≠ 'E')).all
    (fun c => c = '0' ∨ c = '.' ∨ c = '-' ∨ c = '+')

/-- Python truthiness of a `json`-decoded value. -/
def jTruthy : J → Bool
  | .null => false
  | .bool b => b
  | .num lex => ¬ numIsZero lex
  | .str s => ¬ s.toList.isEmpty
  | .arr xs => ¬ xs.isEmpty
  | .obj kvs => ¬ kvs.isEmpty

/-- `dict.get(k, dflt)` on a decoded value (non-dicts yield the default). -/
def jGet (j : J) (k : String) (dflt : J) : J :=
  match j with
  | .obj kvs =>
    match kvs.find? (fun kv => kv.1 == k) with
    | some kv => kv.2
    | none => dflt
  | _ => dflt

/-- `k in d` lookup returning the value when the key is present. -/
def jFind (j : J) (k : String) : Option J :=
  match j with
  | .obj kvs =>
    match kvs.find? (fun kv => kv.1 == k) with
    | some kv => some kv.2
    | none => none
  | _ => none

/-- Lower-case hexadecimal digit. -/
def hexDigit (n : ℕ) : Char :=
  if n < 10 then Char.ofNat ('0'.toNat + n) else Char.ofNat ('a'.toNat + n - 10)

/-- One `\uXXXX` escape. -/
def u4Escape (n : ℕ) : List Char :=
  ['\\', 'u', hexDigit (n / 4096 % 16), hexDigit (n / 256 % 16),
    hexDigit (n / 16 % 16), hexDigit (n % 16)]

/-- `ensure_ascii` escape of one character, as Python `json.dumps` writes it
(astral characters become a surrogate pair of `\uXXXX` escapes). -/
def escapeChar (c : Char) : List Char :=
  if c = '"' then ['\\', '"']
  else if c = '\\' then ['\\', '\\']
  else if c = '\n' then ['\\', 'n']
  else if c = '\t' then ['\\', 't']
  else if c = '\r' then ['\\', 'r']
  else if c.toNat = 8 then ['\\', 'b']
  else if c.toNat = 12 then ['\\', 'f']
  else if c.toNat < 0x20 ∨ 0x7f ≤ c.toNat then
    if 0x10000 ≤ c.toNat then
      u4Escape (0xD800 + (c.toNat - 0x10000) / 0x400) ++
        u4Escape (0xDC00 + (c.toNat - 0x10000) % 0x400)
    else u4Escape c.toNat
  else [c]

/-- A JSON string literal as `json.dumps` writes it. -/
def quoteStr (s : String) : String :=
  "\"" ++ String.mk (s.toList.map escapeChar).flatten ++ "\""

/-- Join strings with a separator (`sep.join(parts)`). -/
def joinSep (sep : String) : List String → String
  | [] => ""
  | [x] => x
  | x :: y :: rest => x ++ sep ++ joinSep sep (y :: rest)

mutual

/-- Python `json.dumps` with its default separators `", "` and `": "`. -/
def jsonDump : J → String
  | .null => "null"
  | .bool true => "true"
  | .bool false => "false"
  | .num lex => lex
  | .str s => quoteStr s
  | .arr xs => "[" ++ joinSep ", " (jsonDumpList xs) ++ "]"
  | .obj kvs => "\x7b" ++ joinSep ", " (jsonDumpFields kvs) ++ "\x7d"

/-- Serializations of the elements of an array. -/
def jsonDumpList : List J → List String
  | [] => []
  | x :: xs => jsonDump x :: jsonDumpList xs

/-- Serializations of the members of an object. -/
def jsonDumpFields : List (String × J) → List String
  | [] => []
  | (k, v) :: kvs => (quoteStr k ++ ": " ++ jsonDump v) :: jsonDumpFields kvs

end

/-- Python `str()` of a decoded value.  Containers are approximated by their
JSON serialization (Python uses `repr`, which differs in quoting; no claim
below depends on that case). -/
def pyStr : J → String
  | .null => "None"
  | .bool true => "True"
  | .bool false => "False"
  | .num lex => lex
  | .str s => s
  | .arr xs => jsonDump (.arr xs)
  | .obj kvs => jsonDump (.obj kvs)

/-- Insert into a parsed object, Python-`dict` style: an existing key keeps
its position and takes the new value. -/
def objInsert (kvs : List (String × J)) (k : String) (v : J) : List (String × J) :=
  if kvs.any (fun kv => kv.1 == k) then
    kvs.map (fun kv => if kv.1 == k then (k, v) else kv)
  else kvs ++ [(k, v)]

/-! ### A model of `json.loads`

Recursive-descent parser over characters, faithful to the strict JSON
grammar Python's `json` module accepts (the module's `NaN`/`Infinity`
extensions and lone-surrogate escapes are not modelled; no input below
uses them). -/

/-- JSON whitespace. -/
def jsonWs (c : Char) : Bool := c = ' ' ∨ c = '\t' ∨ c = '\n' ∨ c = '\r'

/-- Skip JSON whitespace. -/
def skipWs (cs : List Char) : List Char := cs.dropWhile jsonWs

/-- Hexadecimal digit value. -/
def hexVal (c : Char) : Option ℕ :=
  if '0' ≤ c ∧ c ≤ '9' then some (c.toNat - '0'.toNat)
  else if 'a' ≤ c ∧ c ≤ 'f' then some (c.toNat - 'a'.toNat + 10)
  else if 'A' ≤ c ∧ c ≤ 'F' then some (c.toNat - 'A'.toNat + 10)
  else none

/-- Decimal digit test. -/
def isDigitC (c : Char) : Bool := '0' ≤ c ∧ c ≤ '9'

/-- Body of a JSON string literal, after the opening quote.  Returns the
decoded characters and the remainder after the closing quote. -/
def parseStrChars : List Char → Option (List Char × List Char)
  | [] => none
  | '"' :: rest => some ([], rest)
  | '\\' :: 'u' :: a :: b :: c :: d :: rest =>
    match hexVal a, hexVal b, hexVal c, hexVal d with
    | some ha, some hb, some hc, some hd =>
      let n := ha * 4096 + hb * 256 + hc * 16 + hd
      if 0xD800 ≤ n ∧ n ≤ 0xDBFF then
        match rest with
        | '\\' :: 'u' :: a2 :: b2 :: c2 :: d2 :: rest2 =>
          match hexVal a2, hexVal b2, hexVal c2, hexVal d2 with
          | some ha2, some hb2, some hc2, some hd2 =>
            let m := ha2 * 4096 + hb2 * 256 + hc2 * 16 + hd2
            if 0xDC00 ≤ m ∧ m ≤ 0xDFFF then
              match parseStrChars rest2 with
              | some (cs, r) =>
                some (Char.ofNat (0x10000 + (n - 0xD800) * 0x400 + (m - 0xDC00)) :: cs, r)
              | none => none
            else none
          | _, _, _, _ => none
        | _ => none
      else if 0xDC00 ≤ n ∧ n ≤ 0xDFFF then none
      else
        match parseStrChars rest with
        | some (cs, r) => some (Char.ofNat n :: cs, r)
        | none => none
    | _, _, _, _ => none
  | '\\' :: e :: rest =>
    let dec : Option Char :=
      if e = '"' then some '"'
      else if e = '\\' then some '\\'
      else if e = '/' then some '/'
      else if e = 'b' then some (Char.ofNat 8)
      else if e = 'f' then some (Char.ofNat 12)
      else if e = 'n' then some '\n'
      else if e = 'r' then some '\r'
      else if e = 't' then some '\t'
      else none
    match dec with
    | some ch =>
      match parseStrChars rest with
      | some (cs, r) => some (ch :: cs, r)
      | none => none
    | none => none
  | c :: rest =>
    if c.toNat < 0x20 then none
    else
      match parseStrChars rest with
      | some (cs, r) => some (c :: cs, r)
      | none => none

/-- Exponent part of a JSON number lexeme. -/
def parseNumExp (lexSoFar : List Char) (cs : List Char) : Option (List Char × List Char) :=
  match cs with
  | e :: rest =>
    if e = 'e' ∨ e = 'E' then
      let (esign, rest1) :=
        match rest with
        | '+' :: r => (['+'], r)
        | '-' :: r => (['-'], r)
        | _ => (([] : List Char), rest)
      let ds := rest1.takeWhile isDigitC
      if ds.isEmpty then none
      else some (lexSoFar ++ e :: (esign ++ ds), rest1.dropWhile isDigitC)
    else some (lexSoFar, cs)
  | [] => some (lexSoFar, cs)

/-- A JSON number lexeme: `-?(0|[1-9]\d*)(\.\d+)?([eE][+-]?\d+)?`. -/
def parseNum (cs : List Char) : Option (List Char × List Char) :=
  let (sign, cs1) :=
    match cs with
    | '-' :: rest => (['-'], rest)
    | _ => (([] : List Char), cs)
  let intPart := cs1.takeWhile isDigitC
  let cs2 := cs1.dropWhile isDigitC
  if intPart.isEmpty then none
  else if intPart.length > 1 ∧ intPart.headD '0' = '0' then none
  else
    match cs2 with
    | '.' :: rest =>
      let ds := rest.takeWhile isDigitC
      if ds.isEmpty then none
      else parseNumExp (sign ++ intPart ++ '.' :: ds) (rest.dropWhile isDigitC)
    | _ => parseNumExp (sign ++ intPart) cs2


mutual

/-- A JSON value, with `fuel` bounding the recursion (callers pass the input
length plus one, which any well-formed input respects since every nested
value and every member consumes at least one character). -/
def parseVal (fuel : ℕ) (cs : List Char) : Option (J × List Char) :=
  match fuel with
  | 0 => none
  | fuel + 1 =>
    match skipWs cs with
    | [] => none
    | c :: rest =>
      if c = '\x7b' then parseObjBody fuel rest
      else if c = '[' then parseArrBody fuel rest
      else if c = '"' then
        match parseStrChars rest with
        | some (chars, r) => some (.str (String.mk chars), r)
        | none => none
      else if listBegins (c :: rest) "true".toList then some (.bool true, rest.drop 3)
      else if listBegins (c :: rest) "false".toList then some (.bool false, rest.drop 4)
      else if listBegins (c :: rest) "null".toList then some (.null, rest.drop 3)
      else
        match parseNum (c :: rest) with
        | some (lex, r) => some (.num (String.mk lex), r)
        | none => none

/-- Members of a JSON object, after the opening brace. -/
def parseObjBody (fuel : ℕ) (cs : List Char) : Option (J × List Char) :=
  match fuel with
  | 0 => none
  | fuel + 1 =>
    match skipWs cs with
    | '\x7d' :: rest => some (.obj [], rest)
    | _ => parseObjMembers fuel cs []

/-- One `"key": value` member and the members after it. -/
def parseObjMembers (fuel : ℕ) (cs : List Char) (acc : List (String × J)) :
    Option (J × List Char) :=
  match fuel with
  | 0 => none
  | fuel + 1 =>
    match skipWs cs with
    | '"' :: rest =>
      match parseStrChars rest with
      | some (keyChars, r1) =>
        match skipWs r1 with
        | ':' :: r2 =>
          match parseVal fuel r2 with
          | some (v, r3) =>
            let acc1 := objInsert acc (String.mk keyChars) v
            match skipWs r3 with
            | ',' :: r4 => parseObjMembers fuel r4 acc1
            | '\x7d' :: r4 => some (.obj acc1, r4)
            | _ => none
          | none => none
        | _ => none
      | none => none
    | _ => none

/-- Elements of a JSON array, after the opening bracket. -/
def parseArrBody (fuel : ℕ) (cs : List Char) : Option (J × List Char) :=
  match fuel with
  | 0 => none
  | fuel + 1 =>
    match skipWs cs with
    | ']' :: rest => some (.arr [], rest)
    | _ => parseArrElems fuel cs []

/-- One array element and the elements after it. -/
def parseArrElems (fuel : ℕ) (cs : List Char) (acc : List J) :
    Option (J × List Char) :=
  match fuel with
  | 0 => none
  | fuel + 1 =>
    match parseVal fuel cs with
    | some (v, r1) =>
      match skipWs r1 with
      | ',' :: r2 => parseArrElems fuel r2 (acc ++ [v])
      | ']' :: r2 => some (.arr (acc ++ [v]), r2)
      | _ => none
    | none => none

end

/-- Embedding of `json.loads`: parse one value and require only whitespace
after it; `none` models a raised `json.JSONDecodeError`. -/
def jsonLoads (s : String) : Option J :=
  match parseVal (s.toList.length + 1) s.toList with
  | some (v, rest) => if (skipWs rest).isEmpty then some v else none
  | none => none



/-! ### Truncation diagnostic and tool-call finalization (`parsers.py`) -/

/-- Python `str.strip()` whitespace (ASCII part). -/
def pyIsSpace (c : Char) : Bool :=
  c = ' ' ∨ c = '\t' ∨ c = '\n' ∨ c = '\r' ∨ c.toNat = 11 ∨ c.toNat = 12

/-- Python `s.strip()`. -/
def pyStrip (s : String) : String :=
  String.mk (((s.toList.dropWhile pyIsSpace).reverse.dropWhile pyIsSpace).reverse)

/-- UTF-8 length of one character. -/
def charUtf8Len (c : Char) : ℕ :=
  if c.toNat < 0x80 then 1
  else if c.toNat < 0x800 then 2
  else if c.toNat < 0x10000 then 3
  else 4

/-- `len(s.encode('utf-8'))`. -/
def utf8Len (s : String) : ℕ := (s.toList.map charUtf8Len).sum

/-- The quote-counting loop of `_diagnose_json_truncation`
(`src/kiro/parsers.py`, lines 523-531): a backslash followed by another
character skips both; unescaped `"` characters are counted. -/
def countUnescapedQuotes : List Char → ℕ
  | [] => 0
  | '\\' :: _ :: rest => countUnescapedQuotes rest
  | c :: rest => (if c = '"' then 1 else 0) + countUnescapedQuotes rest

/-- The `_truncation_info` diagnostic record. -/
structure TruncInfo where
  isTruncated : Bool
  reason : String
  sizeBytes : ℕ
  deriving Repr, DecidableEq

/-- Embedding of `AwsEventStreamParser._diagnose_json_truncation`
(`src/kiro/parsers.py`, lines 457-541). -/
def diagnoseJsonTruncation (jsonStr : String) : TruncInfo :=
  let sizeBytes := utf8Len jsonStr
  let stripped := pyStrip jsonStr
  let cs := stripped.toList
  if cs.isEmpty then ⟨false, "empty string", sizeBytes⟩
  else
    let openBraces := cs.count '\x7b'
    let closeBraces := cs.count '\x7d'
    let openBrackets := cs.count '['
    let closeBrackets := cs.count ']'
    if cs.headD ' ' = '\x7b' ∧ cs.getLastD ' ' ≠ '\x7d' then
      ⟨true, "missing " ++ toString ((openBraces : ℤ) - closeBraces) ++
        " closing brace(s)", sizeBytes⟩
    else if cs.headD ' ' = '[' ∧ cs.getLastD ' ' ≠ ']' then
      ⟨true, "missing " ++ toString ((openBrackets : ℤ) - closeBrackets) ++
        " closing bracket(s)", sizeBytes⟩
    else if openBraces ≠ closeBraces then
      ⟨true, "unbalanced braces (" ++ toString openBraces ++ " open, " ++
        toString closeBraces ++ " close)", sizeBytes⟩
    else if openBrackets ≠ closeBrackets then
      ⟨true, "unbalanced brackets (" ++ toString openBrackets ++ " open, " ++
        toString closeBrackets ++ " close)", sizeBytes⟩
    else if countUnescapedQuotes cs % 2 ≠ 0 then
      ⟨true, "unclosed string literal", sizeBytes⟩
    else ⟨false, "malformed JSON", sizeBytes⟩

/-- A parsed tool call.  `id` and `name` hold the raw decoded JSON values
(the source stores `data.get(...)` results as-is); `arguments` is always a
string by construction of the parser; `truncation` models the
`_truncation_detected` / `_truncation_info` tag. -/
structure ToolCall where
  id : J
  name : J
  arguments : String
  truncation : Option TruncInfo := none
  deriving Repr

/-- Embedding of `AwsEventStreamParser._finalize_tool_call`'s argument
normalization (`src/kiro/parsers.py`, lines 397-455).  The parser only ever
stores strings in `arguments`, so the source's `dict`/unknown-type branches
are unreachable and not modelled. -/
def finalizeToolCall (tc : ToolCall) : ToolCall :=
  let args := tc.arguments
  if ¬ (pyStrip args).toList.isEmpty then
    match jsonLoads args with
    | some v => { tc with arguments := jsonDump v, truncation := none }
    | none =>
      let info := diagnoseJsonTruncation args
      if info.isTruncated then
        { tc with arguments := "\x7b\x7d", truncation := some info }
      else
        { tc with arguments := "\x7b\x7d", truncation := none }
  else
    { tc with arguments := "\x7b\x7d", truncation := none }

/-! ### Tool-call deduplication (`parsers.deduplicate_tool_calls`) -/

/-- Lookup in the insertion-ordered `by_id` dict (keys compared with
Python `==`, i.e. `jBeq`). -/
def byIdFind (m : List (J × ToolCall)) (k : J) : Option ToolCall :=
  match m.find? (fun kv => jBeq kv.1 k) with
  | some kv => some kv.2
  | none => none

/-- In-place value replacement in the `by_id` dict. -/
def byIdReplace (m : List (J × ToolCall)) (k : J) (tc : ToolCall) :
    List (J × ToolCall) :=
  m.map (fun kv => if jBeq kv.1 k then (kv.1, tc) else kv)

/-- One iteration of the first pass of `deduplicate_tool_calls`
(`src/kiro/parsers.py`, lines 168-185): skip falsy ids; insert unseen ids;
replace a held entry when the newcomer's arguments are non-`"{}"` and either
the held arguments are `"{}"` or strictly shorter. -/
def dedupByIdStep (m : List (J × ToolCall)) (tc : ToolCall) :
    List (J × ToolCall) :=
  if ¬ jTruthy tc.id then m
  else
    match byIdFind m tc.id with
    | none => m ++ [(tc.id, tc)]
    | some existing =>
      if tc.arguments ≠ "\x7b\x7d" ∧
          (existing.arguments = "\x7b\x7d" ∨
            existing.arguments.length < tc.arguments.length) then
        byIdReplace m tc.id tc
      else m

/-- The first pass's fold from an arbitrary dict state. -/
def dedupByIdFrom (m : List (J × ToolCall)) (l : List ToolCall) :
    List (J × ToolCall) :=
  l.foldl dedupByIdStep m

/-- First pass of `deduplicate_tool_calls` (`src/kiro/parsers.py`,
lines 166-185): group by id, preferring non-`{}` arguments and, among
those, the longest (the first among equals). -/
def dedupById (tcs : List ToolCall) : List (J × ToolCall) :=
  dedupByIdFrom [] tcs

/-- The first-pass invariant: stored values come from the processed input
and carry their key as id; keys are distinct and truthy; an absent key
means no processed entry had that id; the held entry for a key is
non-`"{}"`-longest whenever a processed entry with that id had
non-`"{}"` arguments. -/
def DedupInv (done : List ToolCall) (m : List (J × ToolCall)) : Prop :=
  (∀ kv ∈ m, kv.2.id = kv.1 ∧ jTruthy kv.1 = true ∧ kv.2 ∈ done) ∧
  m.Pairwise (fun a b => a.1 ≠ b.1) ∧
  (∀ id, jTruthy id = true → byIdFind m id = none → ∀ u ∈ done, u.id ≠ id) ∧
  (∀ id tc', byIdFind m id = some tc' →
    (∃ u ∈ done, u.id = id ∧ u.arguments ≠ "\x7b\x7d") →
      tc'.arguments ≠ "\x7b\x7d" ∧
      ∀ u ∈ done, u.id = id → u.arguments ≠ "\x7b\x7d" →
        u.arguments.length ≤ tc'.arguments.length)

/-- The `f"{func_name}-{func_args}"` dedup key of the second pass. -/
def dedupKey (tc : ToolCall) : String :=
  pyStr (if jTruthy tc.name then tc.name else .str "") ++ "-" ++
    (if tc.arguments.toList.isEmpty then "\x7b\x7d" else tc.arguments)

/-- Second pass: drop entries whose `name-arguments` key was already seen. -/
def dedupByKey : List ToolCall → List String → List ToolCall
  | [], _ => []
  | tc :: rest, seen =>
    if seen.contains (dedupKey tc) then dedupByKey rest seen
    else tc :: dedupByKey rest (seen ++ [dedupKey tc])

/-- Embedding of `deduplicate_tool_calls` (`src/kiro/parsers.py`,
lines 151-208). -/
def deduplicateToolCalls (tcs : List ToolCall) : List ToolCall :=
  let resultWithId := (dedupById tcs).map (fun kv => kv.2)
  let resultWithoutId := tcs.filter (fun tc => ¬ jTruthy tc.id)
  dedupByKey (resultWithId ++ resultWithoutId) []

/-! ### API-key validation (`api_key_manager.APIKeyManager.validate_key`)

The database table is a list of rows; `bcrypt.checkpw` is a parameter.
`scalar_one_or_none` is modelled as first match (`key_id` is the table's
unique index).  The returned metadata is modelled by the matched row. -/

structure APIKeyRow where
  id : ℕ
  keyId : String
  keyHash : String
  userId : ℕ
  isActive : Bool
  lastUsedAt : Option ℕ
  deriving Repr, DecidableEq

/-- Embedding of `validate_key` (`src/kiro/api_key_manager.py`, lines 92-144).
Returns the validation result and the table after the call. -/
def validateKey (bcryptCheck : String → String → Bool) (now : ℕ)
    (db : List APIKeyRow) (key : String) : Option APIKeyRow × List APIKeyRow :=
  if ¬ pyStartsWith key "sk-" then (none, db)
  else
    match db.find? (fun r => r.keyId == key.take 15) with
    | none => (none, db)
    | some row =>
      if ¬ bcryptCheck key row.keyHash then (none, db)
      else if ¬ row.isActive then (none, db)
      else (some row,
        db.map (fun r => if r.id == row.id then { r with lastUsedAt := some now } else r))

/-! ### Auth manager (`auth.KiroAuthManager`)

State relevant to `get_access_token`: the access token, its expiry (a UTC
timestamp in seconds, `Option` for "unknown"), and whether the credentials
originate from a kiro-cli SQLite store (`self._sqlite_db`).  The SQLite
reload is a parameter returning the reloaded token and expiry; the refresh
request is a parameter returning its outcome on the post-reload state.
Python truthiness of the token (`None` and `""` are falsy) is `tokTruthy`. -/

structure AuthSt where
  accessToken : Option String
  expiresAt : Option ℤ
  sqliteDb : Bool
  deriving Repr, DecidableEq

/-- Python truthiness of `self._access_token`. -/
def tokTruthy : Option String → Bool
  | none => false
  | some t => t ≠ ""

/-- Embedding of `is_token_expiring_soon` (`src/kiro/auth.py`, lines 563-577). -/
def isTokenExpiringSoon (now threshold : ℤ) (s : AuthSt) : Bool :=
  match s.expiresAt with
  | none => true
  | some e => e ≤ now + threshold

/-- Embedding of `is_token_expired` (`src/kiro/auth.py`, lines 579-594). -/
def isTokenExpired (now : ℤ) (s : AuthSt) : Bool :=
  match s.expiresAt with
  | none => true
  | some e => e ≤ now

/-- Outcome of `_refresh_token_request` (success carries the updated state;
an `httpx.HTTPStatusError` carries its status code; anything else is
`otherError`). -/
inductive RefreshOutcome where
  | success (st : AuthSt)
  | httpStatusError (code : ℕ)
  | otherError
  deriving Repr, DecidableEq

/-- Result of `get_access_token`: a token, a raised `ValueError` with a
message, or a propagated refresh exception. -/
inductive AuthResult where
  | token (t : String)
  | valueError (msg : String)
  | httpPropagated (code : ℕ)
  | otherPropagated
  deriving Repr, DecidableEq

/-- Embedding of `get_access_token` (`src/kiro/auth.py`, lines 805-869). -/
def getAccessToken (now threshold : ℤ) (s : AuthSt)
    (reload : AuthSt → Option String × Option ℤ)
    (refresh : AuthSt → RefreshOutcome) : AuthResult :=
  let expSoon := isTokenExpiringSoon now threshold s
  if tokTruthy s.accessToken ∧ ¬ expSoon then .token (s.accessToken.getD "")
  else
    -- SQLite mode: reload credentials first, kiro-cli might have updated them
    let s1 := if s.sqliteDb ∧ expSoon then
        let r := reload s
        { s with accessToken := r.1, expiresAt := r.2 }
      else s
    if s.sqliteDb ∧ expSoon ∧ tokTruthy s1.accessToken ∧
        ¬ isTokenExpiringSoon now threshold s1 then
      .token (s1.accessToken.getD "")
    else
      match refresh s1 with
      | .success s2 =>
        if ¬ tokTruthy s2.accessToken then .valueError "Failed to obtain access token"
        else .token (s2.accessToken.getD "")
      | .httpStatusError code =>
        if code = 400 ∧ s1.sqliteDb then
          if tokTruthy s1.accessToken ∧ ¬ isTokenExpired now s1 then
            .token (s1.accessToken.getD "")
          else
            .valueError "Token expired and refresh failed. Please run kiro-cli login to refresh your credentials."
        else .httpPropagated code
      | .otherError => .otherPropagated

/-! ### HTTP client retry loop (`http_client.KiroHttpClient.request_with_retry`)

The loop is embedded as an action-trace semantics: `outcomes attempt` is
what the attempt-th upstream call produces, and the run returns the final
result together with the list of externally visible actions it performed.
`HAction.notifyRateLimiter429` corresponds to calling
`GlobalRateLimiter.on_429_received`; the constructor exists so that the
spec's claimed notification is expressible. -/

inductive HOutcome where
  | status (code : ℕ)
  | timeoutExc (retryable : Bool) (suggested : ℕ)
  | requestExc (retryable : Bool) (suggested : ℕ)
  deriving Repr, DecidableEq

inductive HAction where
  | getToken
  | send
  | forceRefresh
  | sleep (d : ℚ)
  | notifyRateLimiter429
  deriving Repr, DecidableEq

inductive HResult where
  | response (code : ℕ)
  | httpException (code : ℕ)
  deriving Repr, DecidableEq

/-- Error raised after the retry loop exits (`src/kiro/http_client.py`,
lines 289-318): the classified suggested code if one was captured, else
504 (streaming) or 502. -/
def rwrExhausted (stream : Bool) (lastInfo : Option ℕ) : HResult :=
  match lastInfo with
  | some sc => .httpException sc
  | none => .httpException (if stream then 504 else 502)

/-- One pass of the retry `for` loop of `request_with_retry`
(`src/kiro/http_client.py`, lines 208-287), with `fuel = maxRetries - attempt`. -/
def rwrLoop (base : ℚ) (stream : Bool) (maxRetries : ℕ) (outcomes : ℕ → HOutcome) :
    ℕ → ℕ → Option ℕ → HResult × List HAction
  | 0, _, lastInfo => (rwrExhausted stream lastInfo, [])
  | fuel + 1, attempt, lastInfo =>
    match outcomes attempt with
    | .status code =>
      if code = 200 then (.response 200, [.getToken, .send])
      else if code = 403 then
        let r := rwrLoop base stream maxRetries outcomes fuel (attempt + 1) lastInfo
        (r.1, [.getToken, .send, .forceRefresh] ++ r.2)
      else if code = 429 then
        let r := rwrLoop base stream maxRetries outcomes fuel (attempt + 1) lastInfo
        (r.1, [.getToken, .send, .sleep (base * 2 ^ attempt)] ++ r.2)
      else if 500 ≤ code ∧ code < 600 then
        let r := rwrLoop base stream maxRetries outcomes fuel (attempt + 1) lastInfo
        (r.1, [.getToken, .send, .sleep (base * 2 ^ attempt)] ++ r.2)
      else (.response code, [.getToken, .send])
    | .timeoutExc retryable sc =>
      if retryable ∧ attempt < maxRetries - 1 then
        let r := rwrLoop base stream maxRetries outcomes fuel (attempt + 1) (some sc)
        (r.1, [.getToken, .send, .sleep (base * 2 ^ attempt)] ++ r.2)
      else if ¬ retryable then (rwrExhausted stream (some sc), [.getToken, .send])
      else
        let r := rwrLoop base stream maxRetries outcomes fuel (attempt + 1) (some sc)
        (r.1, [.getToken, .send] ++ r.2)
    | .requestExc retryable sc =>
      if retryable ∧ attempt < maxRetries - 1 then
        let r := rwrLoop base stream maxRetries outcomes fuel (attempt + 1) (some sc)
        (r.1, [.getToken, .send, .sleep (base * 2 ^ attempt)] ++ r.2)
      else if ¬ retryable then (rwrExhausted stream (some sc), [.getToken, .send])
      else
        let r := rwrLoop base stream maxRetries outcomes fuel (attempt + 1) (some sc)
        (r.1, [.getToken, .send] ++ r.2)

/-- Embedding of `request_with_retry` (`src/kiro/http_client.py`, lines 169-318). -/
def requestWithRetry (base : ℚ) (stream : Bool) (maxRetries : ℕ)
    (outcomes : ℕ → HOutcome) : HResult × List HAction :=
  rwrLoop base stream maxRetries outcomes maxRetries 0 none


/-! ### The incremental AWS event-stream parser (`parsers.AwsEventStreamParser`)

`feed` appends the chunk (decoded as UTF-8 with `errors='ignore'`) to the
buffer, then repeatedly finds the earliest known JSON prefix pattern,
extracts the object up to its matching brace, and dispatches it.  The parser
state that `_process_event` mutates is split out as `ToolSt` (the buffer is
threaded separately so the extraction loop recurses on its length).
`generate_tool_call_id()` is random in the source
(`kiro/utils.py`, which is not part of the sources provided); it is
modelled from the spec as a fresh-id generator driven by a counter, and is
called eagerly on every `tool_start` exactly as Python evaluates the
`data.get('toolUseId', generate_tool_call_id())` default argument. -/

inductive EvType where
  | content
  | toolStart
  | toolInput
  | toolStop
  | followup
  | usage
  | contextUsage
  deriving Repr, DecidableEq

/-- `EVENT_PATTERNS` (`src/kiro/parsers.py`, lines 241-249), in source order. -/
def eventPatterns : List (List Char × EvType) :=
  [("\x7b\"content\":".toList, .content),
   ("\x7b\"name\":".toList, .toolStart),
   ("\x7b\"input\":".toList, .toolInput),
   ("\x7b\"stop\":".toList, .toolStop),
   ("\x7b\"followupPrompt\":".toList, .followup),
   ("\x7b\"usage\":".toList, .usage),
   ("\x7b\"contextUsagePercentage\":".toList, .contextUsage)]

/-- First occurrence of `p` in a list (Python `str.find`). -/
def firstOccAux (p : List Char) : List Char → ℕ → Option ℕ
  | [], i => if p.isEmpty then some i else none
  | c :: rest, i =>
    if listBegins (c :: rest) p then some i else firstOccAux p rest (i + 1)

/-- `buf.find(p)` as an optional index. -/
def firstOcc (p buf : List Char) : Option ℕ := firstOccAux p buf 0

/-- The earliest pattern scan of `feed` (`src/kiro/parsers.py`,
lines 276-287): iterate the patterns in order, keeping a strictly earlier
position. -/
def fpStep (buf : List Char) (acc : Option (ℕ × EvType))
    (pt : List Char × EvType) : Option (ℕ × EvType) :=
  match firstOcc pt.1 buf with
  | none => acc
  | some pos =>
    match acc with
    | none => some (pos, pt.2)
    | some (best, _) => if pos < best then some (pos, pt.2) else acc

def findPattern (buf : List Char) : Option (ℕ × EvType) :=
  eventPatterns.foldl (fpStep buf) none

/-- The scanning loop of `find_matching_brace` (`src/kiro/parsers.py`,
lines 62-89), carrying the index, brace depth, in-string flag and
escape flag. -/
def fmbAux : List Char → ℕ → ℤ → Bool → Bool → Option ℕ
  | [], _, _, _, _ => none
  | c :: rest, i, depth, inString, escapeNext =>
    if escapeNext then fmbAux rest (i + 1) depth inString false
    else if c = '\\' ∧ inString then fmbAux rest (i + 1) depth inString true
    else if c = '"' then fmbAux rest (i + 1) depth (¬ inString) false
    else if ¬ inString ∧ c = '\x7b' then fmbAux rest (i + 1) (depth + 1) inString false
    else if ¬ inString ∧ c = '\x7d' then
      if depth - 1 = 0 then some i else fmbAux rest (i + 1) (depth - 1) inString false
    else fmbAux rest (i + 1) depth inString false

/-- Embedding of `find_matching_brace` (`src/kiro/parsers.py`,
lines 39-89); `none` is the source's `-1`. -/
def findMatchingBrace (text : List Char) (startPos : ℕ) : Option ℕ :=
  match text.drop startPos with
  | [] => none
  | c :: rest =>
    if c ≠ '\x7b' then none
    else fmbAux (c :: rest) startPos 0 false false

/-- The mutable parser fields other than the buffer: `last_content` (Python
`None` and JSON `null` are the same value, so the initial `None` is
`J.null`), `current_tool_call`, `tool_calls`, and the fresh-id counter. -/
structure ToolSt where
  lastContent : J
  currentToolCall : Option ToolCall
  toolCalls : List ToolCall
  genCounter : ℕ
  deriving Repr

/-- Initial parser state (`AwsEventStreamParser.__init__` / `reset`). -/
def initToolSt : ToolSt := ⟨.null, none, [], 0⟩

/-- Events `feed` yields (`{"type": ..., "data": ...}` dictionaries). -/
inductive PEvent where
  | content (data : J)
  | usage (data : J)
  | contextUsage (data : J)
  deriving Repr

/-- Modelled from the spec: `generate_tool_call_id` (in `kiro/utils.py`,
not among the provided sources) returns a fresh random id; determinized
here by a counter. -/
def genToolCallId (n : ℕ) : String := "call_model_" ++ toString n

/-- The string form of a `tool_start`/`tool_input` `input` field: a dict is
re-serialized with `json.dumps`; any other truthy value is passed through
`str()`; falsy values yield the empty string. -/
def inputToStr (v : J) : String :=
  match v with
  | .obj kvs => jsonDump (.obj kvs)
  | _ => if jTruthy v then pyStr v else ""

/-- `_finalize_tool_call`'s effect on the state: finalize the current tool
call, append it and clear the slot (`src/kiro/parsers.py`, lines 397-455). -/
def finalizePush (ts : ToolSt) : ToolSt :=
  match ts.currentToolCall with
  | none => ts
  | some tc =>
    { ts with
      toolCalls := (ts.toolCalls ++ [finalizeToolCall tc]),
      currentToolCall := none }

/-- Embedding of `_process_event` and the per-type handlers
(`src/kiro/parsers.py`, lines 308-395). -/
def processEvent (ts : ToolSt) (data : J) (ty : EvType) : Option PEvent × ToolSt :=
  match ty with
  | .content =>
    let content := jGet data "content" (.str "")
    if jTruthy (jGet data "followupPrompt" .null) then (none, ts)
    else if jBeq content ts.lastContent then (none, ts)
    else (some (.content content), { ts with lastContent := content })
  | .toolStart =>
    let ts1 := finalizePush ts
    let freshId := J.str (genToolCallId ts1.genCounter)
    let ts2 := { ts1 with genCounter := ts1.genCounter + 1 }
    let idVal := (jFind data "toolUseId").getD freshId
    let tc : ToolCall :=
      { id := idVal, name := jGet data "name" (.str ""),
        arguments := inputToStr (jGet data "input" (.str "")), truncation := none }
    let ts3 := { ts2 with currentToolCall := some tc }
    if jTruthy (jGet data "stop" .null) then (none, finalizePush ts3) else (none, ts3)
  | .toolInput =>
    match ts.currentToolCall with
    | some tc =>
      let tc1 : ToolCall :=
        { tc with arguments := tc.arguments ++ inputToStr (jGet data "input" (.str "")) }
      (none, { ts with currentToolCall := some tc1 })
    | none => (none, ts)
  | .toolStop =>
    if ts.currentToolCall.isSome ∧ jTruthy (jGet data "stop" .null) then
      (none, finalizePush ts)
    else (none, ts)
  | .followup => (none, ts)
  | .usage => (some (.usage (jGet data "usage" (.num "0"))), ts)
  | .contextUsage =>
    (some (.contextUsage (jGet data "contextUsagePercentage" (.num "0"))), ts)

/-- The extraction loop of `feed` (`src/kiro/parsers.py`, lines 275-305):
find the earliest pattern, extract up to the matching brace, parse and
dispatch, repeat; stop when no pattern or no complete object is in the
buffer.  Returns the events, the remaining buffer and the updated state.
Structured with explicit fuel so that it computes; each extraction consumes
at least one character, so `buf.length + 1` fuel always suffices
(`processBufferF_irrel` below). -/
def processBufferF : ℕ → List Char → ToolSt → List PEvent × List Char × ToolSt
  | 0, buf, ts => ([], buf, ts)
  | fuel + 1, buf, ts =>
    match findPattern buf with
    | none => ([], buf, ts)
    | some (pos, ty) =>
      match findMatchingBrace buf pos with
      | none => ([], buf, ts)
      | some jsonEnd =>
        let jsonStr := (buf.drop pos).take (jsonEnd + 1 - pos)
        let buf1 := buf.drop (jsonEnd + 1)
        let step : Option PEvent × ToolSt :=
          match jsonLoads (String.mk jsonStr) with
          | none => (none, ts)
          | some data => processEvent ts data ty
        let rest := processBufferF fuel buf1 step.2
        (step.1.toList ++ rest.1, rest.2.1, rest.2.2)

/-- The extraction loop with its canonical fuel. -/
def processBuffer (buf : List Char) (ts : ToolSt) :
    List PEvent × List Char × ToolSt :=
  processBufferF (buf.length + 1) buf ts

/-- Embedding of `feed` (`src/kiro/parsers.py`, lines 258-306) at the level
of already-decoded text. -/
def feedStr (buf : List Char) (ts : ToolSt) (chunk : List Char) :
    List PEvent × List Char × ToolSt :=
  processBuffer (buf ++ chunk) ts

/-- Feed a list of text chunks from a given state, concatenating events. -/
def feedStrAll (buf : List Char) (ts : ToolSt) :
    List (List Char) → List PEvent × List Char × ToolSt
  | [] => ([], buf, ts)
  | c :: cs =>
    let r := feedStr buf ts c
    let rest := feedStrAll r.2.1 r.2.2 cs
    (r.1 ++ rest.1, rest.2.1, rest.2.2)

/-- Embedding of `get_tool_calls` (`src/kiro/parsers.py`, lines 543-555). -/
def getToolCalls (ts : ToolSt) : List ToolCall :=
  deduplicateToolCalls (finalizePush ts).toolCalls

/-! ### Model-name normalization and resolution (`model_resolver.py`)

`normalize_model_name` lowercases the name and tries five anchored
regexes in order; every regex is a rigid dash-separated shape, so it is
embedded as a matcher over the dash-split segments of the lowercased
name.  Python `$` also matches just before one trailing newline, and
`.` never matches a newline, so matching strips at most one final
newline first.  `ModelResolver.resolve` takes the alias and
hidden-model tables and the cache membership test as parameters. -/

def splitC (sep : Char) : List Char → List (List Char)
  | [] => [[]]
  | c :: rest =>
    if c = sep then [] :: splitC sep rest
    else
      match splitC sep rest with
      | s :: ss => (c :: s) :: ss
      | [] => [[c]]

def joinC (sep : Char) : List (List Char) → List Char
  | [] => []
  | s :: ss =>
    match ss with
    | [] => s
    | _ :: _ => s ++ sep :: joinC sep ss

/-- `\d+`: a non-empty all-digit segment. -/
def digits1 (s : List Char) : Bool := !s.isEmpty && s.all isDigitC

/-- `\d{8}`: an eight-digit segment. -/
def isDate8 (s : List Char) : Bool := s.length == 8 && s.all isDigitC

/-- `haiku|sonnet|opus`. -/
def isFam (s : List Char) : Bool :=
  s == "haiku".data || s == "sonnet".data || s == "opus".data

/-- `\d{8}|latest|\d+` (the date alternative is subsumed by `\d+`). -/
def isDateish (s : List Char) : Bool := s == "latest".data || digits1 s

/-- `\d+\.\d+`: a whole segment of the form digits, dot, digits. -/
def isDD (s : List Char) : Bool :=
  match splitC '.' s with
  | [a, b] => digits1 a && digits1 b
  | _ => false

/-- Pattern 1: `^(claude-(?:haiku|sonnet|opus)-\d+)-(\d{1,2})(?:-(1m))?
(?:-(?:\d{8}|latest|\d+))?$`, returning `base.minor` plus a kept `-1m`. -/
def nmP1 : List (List Char) → Option (List Char)
  | [c, f, d1, d2] =>
    if c == "claude".data && isFam f && digits1 d1 && digits1 d2 &&
        decide (d2.length ≤ 2) then
      some ("claude".data ++ '-' :: (f ++ '-' :: (d1 ++ '.' :: d2)))
    else none
  | [c, f, d1, d2, x] =>
    if c == "claude".data && isFam f && digits1 d1 && digits1 d2 &&
        decide (d2.length ≤ 2) then
      if x == "1m".data then
        some ("claude".data ++
          '-' :: (f ++ '-' :: ((d1 ++ '.' :: d2) ++ '-' :: '1' :: 'm' :: [])))
      else if isDateish x then
        some ("claude".data ++ '-' :: (f ++ '-' :: (d1 ++ '.' :: d2)))
      else none
    else none
  | [c, f, d1, d2, x, y] =>
    if c == "claude".data && isFam f && digits1 d1 && digits1 d2 &&
        decide (d2.length ≤ 2) && x == "1m".data && isDateish y then
      some ("claude".data ++
        '-' :: (f ++ '-' :: ((d1 ++ '.' :: d2) ++ '-' :: '1' :: 'm' :: [])))
    else none
  | _ => none

/-- Pattern 2: `^(claude-(?:haiku|sonnet|opus)-\d+)(?:-\d{8})?$`. -/
def nmP2 : List (List Char) → Option (List Char)
  | [c, f, d1] =>
    if c == "claude".data && isFam f && digits1 d1 then
      some ("claude".data ++ '-' :: (f ++ '-' :: d1))
    else none
  | [c, f, d1, dt] =>
    if c == "claude".data && isFam f && digits1 d1 && isDate8 dt then
      some ("claude".data ++ '-' :: (f ++ '-' :: d1))
    else none
  | _ => none

/-- Pattern 3: `^(claude)-(\d+)-(\d+)-(haiku|sonnet|opus)
(?:-(?:\d{8}|latest|\d+))?$`, returning `claude-major.minor-family`. -/
def nmP3 : List (List Char) → Option (List Char)
  | [c, ma, mi, f] =>
    if c == "claude".data && digits1 ma && digits1 mi && isFam f then
      some ("claude".data ++ '-' :: ((ma ++ '.' :: mi) ++ '-' :: f))
    else none
  | [c, ma, mi, f, x] =>
    if c == "claude".data && digits1 ma && digits1 mi && isFam f &&
        isDateish x then
      some ("claude".data ++ '-' :: ((ma ++ '.' :: mi) ++ '-' :: f))
    else none
  | _ => none

/-- Pattern 4: `^(claude-(?:\d+\.\d+-)?(?:haiku|sonnet|opus)(?:-\d+\.\d+)?)
-\d{8}$`, returning everything before the date. -/
def nmP4 : List (List Char) → Option (List Char)
  | [c, f, dt] =>
    if c == "claude".data && isFam f && isDate8 dt then
      some ("claude".data ++ '-' :: f)
    else none
  | [c, a, b, dt] =>
    if c == "claude".data && isDate8 dt &&
        (isDD a && isFam b || isFam a && isDD b) then
      some ("claude".data ++ '-' :: (a ++ '-' :: b))
    else none
  | [c, a, f, b, dt] =>
    if c == "claude".data && isDD a && isFam f && isDD b && isDate8 dt then
      some ("claude".data ++ '-' :: (a ++ '-' :: (f ++ '-' :: b)))
    else none
  | _ => none

/-- Pattern 5: `^claude-(\d+)\.(\d+)-(haiku|sonnet|opus)-(.+)$`, returning
`claude-family-major.minor`; `.` does not match a newline. -/
def nmP5 : List (List Char) → Option (List Char)
  | c :: dd :: f :: rest =>
    if c == "claude".data && isDD dd && isFam f &&
        !(joinC '-' rest).isEmpty && !(joinC '-' rest).contains '\n' then
      some ("claude".data ++ '-' :: (f ++ '-' :: dd))
    else none
  | _ => none

/-- The dash segments of the lowercased name with at most one trailing
newline removed (`re` `$` semantics). -/
def nmSegs (name : List Char) : List (List Char) :=
  let lower := name.map Char.toLower
  let body := if lower.getLast? = some '\n' then lower.dropLast else lower
  splitC '-' body

/-- Embedding of `normalize_model_name` (`model_resolver.py`, lines
63-163): try the five patterns in order on the lowercased name, falling
back to the unchanged input. -/
def normalizeModelName (name : List Char) : List Char :=
  if name.isEmpty then name
  else
    match nmP1 (nmSegs name) with
    | some r => r
    | none =>
      match nmP2 (nmSegs name) with
      | some r => r
      | none =>
        match nmP3 (nmSegs name) with
        | some r => r
        | none =>
          match nmP4 (nmSegs name) with
          | some r => r
          | none =>
            match nmP5 (nmSegs name) with
            | some r => r
            | none => name

structure ModelResolution where
  internalId : List Char
  source : List Char
  originalRequest : List Char
  normalized : List Char
  isVerified : Bool
  deriving Repr

/-- Python `dict.get` on an association list. -/
def dictGet (d : List (List Char × List Char)) (k : List Char) :
    Option (List Char) :=
  match d.find? (fun kv => kv.1 == k) with
  | some kv => some kv.2
  | none => none

/-- Embedding of `ModelResolver.resolve` (`model_resolver.py`, lines
274-339): alias lookup, normalization, then hidden models, the dynamic
cache, and pass-through. -/
def resolve (aliases hidden : List (List Char × List Char))
    (cacheValid : List Char → Bool) (external : List Char) : ModelResolution :=
  let resolvedModel :=
    match dictGet aliases external with
    | some v => v
    | none => external
  let normalized := normalizeModelName resolvedModel
  match dictGet hidden normalized with
  | some internalId =>
    ⟨internalId, "hidden".data, external, normalized, true⟩
  | none =>
    if cacheValid normalized then
      ⟨normalized, "cache".data, external, normalized, true⟩
    else
      ⟨normalized, "passthrough".data, external, normalized, false⟩

/-! ### Byte-level feeding (`feed` decodes each chunk with
`bytes.decode("utf-8", errors="ignore")`)

The decoder consumes one UTF-8 sequence at a time; an invalid or
truncated sequence drops one byte and goes on, which produces the same
text as CPython's maximal-subpart skipping because stray continuation
bytes can never start a sequence. -/

def utf8Cont (b : ℕ) : Bool := 128 ≤ b ∧ b ≤ 191

def utf8DecodeIgnoreF : ℕ → List ℕ → List Char
  | 0, _ => []
  | _, [] => []
  | fuel + 1, b :: rest =>
    if b ≤ 127 then Char.ofNat b :: utf8DecodeIgnoreF fuel rest
    else if 194 ≤ b ∧ b ≤ 223 then
      match rest with
      | [] => []
      | b2 :: rest2 =>
        if utf8Cont b2 then
          Char.ofNat ((b - 192) * 64 + (b2 - 128)) :: utf8DecodeIgnoreF fuel rest2
        else utf8DecodeIgnoreF fuel rest
    else if 224 ≤ b ∧ b ≤ 239 then
      match rest with
      | [] => []
      | b2 :: rest2 =>
        if (b = 224 ∧ 160 ≤ b2 ∧ b2 ≤ 191) ∨
            ((225 ≤ b ∧ b ≤ 236) ∧ utf8Cont b2 = true) ∨
            (b = 237 ∧ 128 ≤ b2 ∧ b2 ≤ 159) ∨
            ((238 ≤ b ∧ b ≤ 239) ∧ utf8Cont b2 = true) then
          match rest2 with
          | [] => []
          | b3 :: rest3 =>
            if utf8Cont b3 then
              Char.ofNat ((b - 224) * 4096 + (b2 - 128) * 64 + (b3 - 128)) ::
                utf8DecodeIgnoreF fuel rest3
            else utf8DecodeIgnoreF fuel rest
        else utf8DecodeIgnoreF fuel rest
    else if 240 ≤ b ∧ b ≤ 244 then
      match rest with
      | [] => []
      | b2 :: rest2 =>
        if (b = 240 ∧ 144 ≤ b2 ∧ b2 ≤ 191) ∨
            ((241 ≤ b ∧ b ≤ 243) ∧ utf8Cont b2 = true) ∨
            (b = 244 ∧ 128 ≤ b2 ∧ b2 ≤ 143) then
          match rest2 with
          | [] => []
          | b3 :: rest3 =>
            if utf8Cont b3 then
              match rest3 with
              | [] => []
              | b4 :: rest4 =>
                if utf8Cont b4 then
                  Char.ofNat ((b - 240) * 262144 + (b2 - 128) * 4096 +
                    (b3 - 128) * 64 + (b4 - 128)) :: utf8DecodeIgnoreF fuel rest4
                else utf8DecodeIgnoreF fuel rest
            else utf8DecodeIgnoreF fuel rest
        else utf8DecodeIgnoreF fuel rest
    else utf8DecodeIgnoreF fuel rest

/-- The decoder with its canonical fuel (each step consumes at least one
byte). -/
def utf8DecodeIgnore (bs : List ℕ) : List Char :=
  utf8DecodeIgnoreF (bs.length + 1) bs

/-- Chunked byte feeding: `feed` appends `chunk.decode("utf-8",
errors="ignore")` to the buffer before extracting events, one call per
chunk. -/
def feedBytesAll (buf : List Char) (ts : ToolSt) (chunks : List (List ℕ)) :
    List PEvent × List Char × ToolSt :=
  feedStrAll buf ts (chunks.map utf8DecodeIgnore)

/-! ## Theorems -/

/-- Step lemma: acquire with a free slot increments the counter. -/
theorem rlStep_acquire_slot (s : RLState) (i : Nat) (h1 : 0 < s.maxConcurrent)
    (h2 : s.currentCount < s.maxConcurrent) :
    rlStep s (.acquire i) = ({ s with currentCount := s.currentCount + 1 }, none) := by
  simp [rlStep, h1, h2]

/-- Step lemma: acquire with a full counter appends the waiter. -/
theorem rlStep_acquire_queue (s : RLState) (i : Nat) (h1 : 0 < s.maxConcurrent)
    (h2 : ¬ s.currentCount < s.maxConcurrent) :
    rlStep s (.acquire i) = ({ s with waiters := s.waiters ++ [i] }, none) := by
  simp [rlStep, h1, h2]

/-- Step lemma: release with an empty waiter queue decrements the counter. -/
theorem rlStep_release_empty (s : RLState) (h1 : 0 < s.maxConcurrent)
    (h2 : s.waiters = []) :
    rlStep s .release = ({ s with currentCount := s.currentCount - 1 }, none) := by
  simp [rlStep, h2]
  omega

/-- Step lemma: release with a non-empty waiter queue passes the slot to the
first (oldest) waiter and leaves the counter unchanged. -/
theorem rlStep_release_pass (s : RLState) (w : Nat) (ws : List Nat)
    (h1 : 0 < s.maxConcurrent) (h2 : s.waiters = w :: ws) :
    rlStep s .release = ({ s with waiters := ws }, some w) := by
  simp [rlStep, h2]
  omega

/-- Helper: the limiter invariant is preserved along any run whose prefixes
release at most `currentCount + waiters + acquires` slots. -/
theorem rlRun_inv (ops : List RLOp) : ∀ (s : RLState), 0 < s.maxConcurrent →
    RLInv s →
    (∀ p q, ops = p ++ q →
      (rlReleases p : ℤ) ≤ rlAcquires p + s.currentCount + s.waiters.length) →
    ∀ p q, ops = p ++ q → RLInv (rlRun s p) := by
  induction ops with
  | nil =>
    intro s _ hinv _ p q hpq
    have hp : p = [] := by
      cases p with
      | nil => rfl
      | cons a t => simp at hpq
    subst hp
    simpa [rlRun] using hinv
  | cons op rest ih =>
    intro s hmax hinv hpre p q hpq
    obtain ⟨h0, hle, hw⟩ := hinv
    -- case analysis on the first operation, computing the successor state
    have key : ∀ s1 : RLState, (rlStep s op).1 = s1 →
        RLInv s1 → 0 < s1.maxConcurrent →
        ((rlReleases [op] : ℤ) + s1.currentCount + s1.waiters.length =
          (rlAcquires [op] : ℤ) + s.currentCount + s.waiters.length) →
        RLInv (rlRun s p) := by
      intro s1 hstep hinv1 hmax1 hbal
      cases p with
      | nil => exact ⟨h0, hle, hw⟩
      | cons op' p' =>
        have hinj : op = op' ∧ rest = p' ++ q := by
          have h' : op :: rest = op' :: (p' ++ q) := by simpa using hpq
          exact ⟨(List.cons.inj h').1, (List.cons.inj h').2⟩
        obtain ⟨rfl, hrest⟩ := hinj
        have hpre1 : ∀ a b, rest = a ++ b →
            (rlReleases a : ℤ) ≤ rlAcquires a + s1.currentCount + s1.waiters.length := by
          intro a b hab
          have h2 := hpre (op :: a) b (by simp [hab])
          have hA : rlAcquires (op :: a) = rlAcquires [op] + rlAcquires a := by
            simp [rlAcquires, List.countP_cons]
            omega
          have hR : rlReleases (op :: a) = rlReleases [op] + rlReleases a := by
            simp [rlReleases, List.countP_cons]
            omega
          rw [hA, hR] at h2
          push_cast at h2 ⊢
          omega
        have h := ih s1 hmax1 hinv1 hpre1 p' q hrest
        have hrun : rlRun s (op :: p') = rlRun s1 p' := by
          simp [rlRun, List.foldl_cons, hstep]
        rw [hrun]
        exact h
    cases op with
    | acquire i =>
      by_cases hc : s.currentCount < s.maxConcurrent
      · refine key { s with currentCount := s.currentCount + 1 }
          (by rw [rlStep_acquire_slot s i hmax hc]) ?_ hmax ?_
        · refine ⟨?_, ?_, ?_⟩
          · show (0 : ℤ) ≤ s.currentCount + 1
            omega
          · show s.currentCount + 1 ≤ s.maxConcurrent
            omega
          · intro hne
            exact absurd (hw hne) (by omega)
        · show (rlReleases [RLOp.acquire i] : ℤ) + (s.currentCount + 1) + s.waiters.length =
            (rlAcquires [RLOp.acquire i] : ℤ) + s.currentCount + s.waiters.length
          simp [rlReleases, rlAcquires, List.countP_cons]
          omega
      · refine key { s with waiters := s.waiters ++ [i] }
          (by rw [rlStep_acquire_queue s i hmax hc]) ?_ hmax ?_
        · refine ⟨h0, hle, ?_⟩
          intro _
          show s.currentCount = s.maxConcurrent
          omega
        · show (rlReleases [RLOp.acquire i] : ℤ) + s.currentCount + (s.waiters ++ [i]).length =
            (rlAcquires [RLOp.acquire i] : ℤ) + s.currentCount + s.waiters.length
          simp [rlReleases, rlAcquires, List.countP_cons]
          omega
    | release =>
      cases hws : s.waiters with
      | nil =>
        have h1 : (1 : ℤ) ≤ s.currentCount := by
          have := hpre [RLOp.release] rest rfl
          simp [rlReleases, rlAcquires, hws] at this
          omega
        refine key { s with currentCount := s.currentCount - 1 }
          (by rw [rlStep_release_empty s hmax hws]) ?_ hmax ?_
        · refine ⟨?_, ?_, ?_⟩
          · show (0 : ℤ) ≤ s.currentCount - 1
            omega
          · show s.currentCount - 1 ≤ s.maxConcurrent
            omega
          · intro hne
            exact absurd hws hne
        · show (rlReleases [RLOp.release] : ℤ) + (s.currentCount - 1) + s.waiters.length =
            (rlAcquires [RLOp.release] : ℤ) + s.currentCount + s.waiters.length
          simp [rlReleases, rlAcquires, List.countP_cons]
      | cons w ws =>
        have hcm := hw (by simp [hws])
        refine key { s with waiters := ws }
          (by rw [rlStep_release_pass s w ws hmax hws]) ?_ hmax ?_
        · refine ⟨h0, hle, ?_⟩
          intro _
          exact hcm
        · show (rlReleases [RLOp.release] : ℤ) + s.currentCount + ws.length =
            (rlAcquires [RLOp.release] : ℤ) + s.currentCount + s.waiters.length
          simp [rlReleases, rlAcquires, List.countP_cons, hws]
          omega

/-- The rate-limiter updates never change `maxConcurrent`. -/
theorem rlRun_maxConcurrent (ops : List RLOp) : ∀ s : RLState,
    (rlRun s ops).maxConcurrent = s.maxConcurrent := by
  induction ops with
  | nil => intro s; rfl
  | cons op rest ih =>
    intro s
    have hstep : ((rlStep s op).1).maxConcurrent = s.maxConcurrent := by
      cases op with
      | acquire i =>
        by_cases h1 : 0 < s.maxConcurrent
        · by_cases h2 : s.currentCount < s.maxConcurrent
          · rw [rlStep_acquire_slot s i h1 h2]
          · rw [rlStep_acquire_queue s i h1 h2]
        · simp [rlStep, h1]
      | release =>
        by_cases h1 : s.maxConcurrent ≤ 0
        · simp [rlStep, h1]
        · cases hws : s.waiters with
          | nil => rw [rlStep_release_empty s (by omega) hws]
          | cons w ws => rw [rlStep_release_pass s w ws (by omega) hws]
    calc (rlRun s (op :: rest)).maxConcurrent
        = (rlRun (rlStep s op).1 rest).maxConcurrent := by simp [rlRun, List.foldl_cons]
      _ = ((rlStep s op).1).maxConcurrent := ih _
      _ = s.maxConcurrent := hstep

/-- A true `rlPrefixOk` gives the prefix condition for arbitrary splits. -/
theorem rlPrefixOk_spec (ops : List RLOp) (h : rlPrefixOk ops = true) :
    ∀ p q, ops = p ++ q → rlReleases p ≤ rlAcquires p := by
  intro p q hpq
  have hp : p = ops.take p.length := by
    rw [hpq]
    exact (List.take_left p q).symm
  have hmem : p.length ∈ List.range (ops.length + 1) := by
    rw [List.mem_range]
    have : p.length ≤ ops.length := by
      rw [hpq, List.length_append]
      omega
    omega
  have := List.all_eq_true.mp h _ hmem
  rw [hp]
  exact of_decide_eq_true this

/-- C6: starting from an idle limiter with `max_concurrent = m > 0`, if each
release in the operation sequence is preceded by a matching acquire, the
active-slot counter stays within `[0, m]` at every point of the run; a
release finding a non-empty waiter queue signals the first (oldest) waiter
and leaves the counter unchanged, and a release finding an empty queue
decrements the counter. -/
theorem rateLimiter_slot_invariant (m : ℤ) (ops : List RLOp) (hm : 0 < m)
    (hpre : ∀ p q, ops = p ++ q → rlReleases p ≤ rlAcquires p) :
    (∀ p q, ops = p ++ q →
      0 ≤ (rlRun (rlInit m) p).currentCount ∧ (rlRun (rlInit m) p).currentCount ≤ m) ∧
    (∀ s : RLState, 0 < s.maxConcurrent → ∀ w ws, s.waiters = w :: ws →
      rlStep s .release = ({ s with waiters := ws }, some w)) ∧
    (∀ s : RLState, 0 < s.maxConcurrent → s.waiters = [] →
      rlStep s .release = ({ s with currentCount := s.currentCount - 1 }, none)) := by
  refine ⟨?_, fun s hs w ws hw => rlStep_release_pass s w ws hs hw,
    fun s hs hw => rlStep_release_empty s hs hw⟩
  intro p q hpq
  have hinv0 : RLInv (rlInit m) := by
    refine ⟨le_refl 0, le_of_lt hm, ?_⟩
    intro h
    exact absurd rfl h
  have hpre' : ∀ p q, ops = p ++ q →
      (rlReleases p : ℤ) ≤ rlAcquires p +
        (rlInit m).currentCount + (rlInit m).waiters.length := by
    intro a b hab
    have := hpre a b hab
    show (rlReleases a : ℤ) ≤ rlAcquires a + 0 + (List.length [] : ℤ)
    simp
    omega
  have h := rlRun_inv ops (rlInit m) hm hinv0 hpre' p q hpq
  obtain ⟨h0, hle, _⟩ := h
  refine ⟨h0, ?_⟩
  have hmx : (rlRun (rlInit m) p).maxConcurrent = m := rlRun_maxConcurrent p (rlInit m)
  omega

/-- Witness for `rateLimiter_slot_invariant` at `m = 2`,
`ops = [acquire 0, acquire 1, release, release]`, prefix `[acquire 0, acquire 1, release]`. -/
theorem rateLimiter_slot_invariant_witness :
    0 ≤ (rlRun (rlInit 2) [RLOp.acquire 0, RLOp.acquire 1, RLOp.release]).currentCount ∧
    (rlRun (rlInit 2) [RLOp.acquire 0, RLOp.acquire 1, RLOp.release]).currentCount ≤ 2 :=
  (rateLimiter_slot_invariant 2 [RLOp.acquire 0, RLOp.acquire 1, RLOp.release, RLOp.release]
    (by norm_num)
    (rlPrefixOk_spec _ (by decide))).1
    [RLOp.acquire 0, RLOp.acquire 1, RLOp.release] [RLOp.release] rfl

/-- C1 counterexample: with `context_usage_percentage = 1`, zero completion
tokens and `max_input_tokens = 150`, the source computes
`total_tokens = int(1.5) = 1`, whereas the claimed formula
`round(p/100 * max_input_tokens)` gives `2`. -/
theorem tokenAccounting_not_round :
    (calculateTokensFromContextUsage (some 1) 0 150).totalTokens = 1 ∧
    round ((1 : ℚ) / 100 * (150 : ℚ)) = 2 ∧
    (calculateTokensFromContextUsage (some 1) 0 150).totalTokens ≠
      round ((1 : ℚ) / 100 * (150 : ℚ)) := by
  have h1 : (0 : ℚ) < 1 := by norm_num
  have h2 : (0 : ℚ) ≤ (1 : ℚ) / 100 * ((150 : ℤ) : ℚ) := by norm_num
  have htot : (calculateTokensFromContextUsage (some 1) 0 150).totalTokens = 1 := by
    simp [calculateTokensFromContextUsage, pyInt, h1, h2]
    norm_num [Int.floor_eq_iff]
  have hrd : round ((1 : ℚ) / 100 * (150 : ℚ)) = 2 := by
    rw [show (1 : ℚ) / 100 * (150 : ℚ) = 3 / 2 by norm_num, round_eq]
    norm_num [Int.floor_eq_iff]
  refine ⟨htot, hrd, ?_⟩
  rw [htot, hrd]
  omega

/-- C1 amended: for every percentage `p > 0` and `max_input_tokens ≥ 0`, the
token-accounting step computes `total_tokens = ⌊p/100 · max_input_tokens⌋`
(Python `int()` truncation, which is the floor for these non-negative
values) and `prompt_tokens = max(0, total_tokens − completion_tokens)`. -/
theorem tokenAccounting_floor (p : ℚ) (c m : ℤ) (hp : 0 < p) (hm : 0 ≤ m) :
    (calculateTokensFromContextUsage (some p) c m).totalTokens =
      ⌊p / 100 * (m : ℚ)⌋ ∧
    (calculateTokensFromContextUsage (some p) c m).promptTokens =
      max 0 (⌊p / 100 * (m : ℚ)⌋ - c) := by
  have hm' : (0 : ℚ) ≤ (m : ℚ) := by exact_mod_cast hm
  have hpos : (0 : ℚ) ≤ p / 100 * (m : ℚ) :=
    mul_nonneg (div_nonneg hp.le (by norm_num)) hm'
  constructor
  · simp [calculateTokensFromContextUsage, hp, pyInt, hpos]
  · simp [calculateTokensFromContextUsage, hp, pyInt, hpos]

/-- Witness for `tokenAccounting_floor` at `p = 1`, `c = 0`, `m = 150`. -/
theorem tokenAccounting_floor_witness :
    (calculateTokensFromContextUsage (some 1) 0 150).totalTokens =
      ⌊(1 : ℚ) / 100 * (150 : ℚ)⌋ ∧
    (calculateTokensFromContextUsage (some 1) 0 150).promptTokens =
      max 0 (⌊(1 : ℚ) / 100 * (150 : ℚ)⌋ - 0) :=
  tokenAccounting_floor 1 0 150 (by norm_num) (by norm_num)

mutual

/-- `jBeq` coincides with propositional equality. -/
theorem jBeq_iff (a b : J) : jBeq a b = true ↔ a = b :=
  match a, b with
  | .null, .null => by simp [jBeq]
  | .null, .bool _ => by simp [jBeq]
  | .null, .num _ => by simp [jBeq]
  | .null, .str _ => by simp [jBeq]
  | .null, .arr _ => by simp [jBeq]
  | .null, .obj _ => by simp [jBeq]
  | .bool _, .null => by simp [jBeq]
  | .bool x, .bool y => by simp [jBeq]
  | .bool _, .num _ => by simp [jBeq]
  | .bool _, .str _ => by simp [jBeq]
  | .bool _, .arr _ => by simp [jBeq]
  | .bool _, .obj _ => by simp [jBeq]
  | .num _, .null => by simp [jBeq]
  | .num _, .bool _ => by simp [jBeq]
  | .num x, .num y => by simp [jBeq]
  | .num _, .str _ => by simp [jBeq]
  | .num _, .arr _ => by simp [jBeq]
  | .num _, .obj _ => by simp [jBeq]
  | .str _, .null => by simp [jBeq]
  | .str _, .bool _ => by simp [jBeq]
  | .str _, .num _ => by simp [jBeq]
  | .str x, .str y => by simp [jBeq]
  | .str _, .arr _ => by simp [jBeq]
  | .str _, .obj _ => by simp [jBeq]
  | .arr _, .null => by simp [jBeq]
  | .arr _, .bool _ => by simp [jBeq]
  | .arr _, .num _ => by simp [jBeq]
  | .arr _, .str _ => by simp [jBeq]
  | .arr xs, .arr ys => by
    rw [show jBeq (.arr xs) (.arr ys) = jBeqList xs ys from by simp [jBeq]]
    rw [jBeqList_iff xs ys]
    simp
  | .arr _, .obj _ => by simp [jBeq]
  | .obj _, .null => by simp [jBeq]
  | .obj _, .bool _ => by simp [jBeq]
  | .obj _, .num _ => by simp [jBeq]
  | .obj _, .str _ => by simp [jBeq]
  | .obj _, .arr _ => by simp [jBeq]
  | .obj kvs, .obj lvs => by
    rw [show jBeq (.obj kvs) (.obj lvs) = jBeqFields kvs lvs from by simp [jBeq]]
    rw [jBeqFields_iff kvs lvs]
    simp

/-- `jBeqList` coincides with propositional equality. -/
theorem jBeqList_iff (xs ys : List J) : jBeqList xs ys = true ↔ xs = ys :=
  match xs, ys with
  | [], [] => by simp [jBeqList]
  | [], _ :: _ => by simp [jBeqList]
  | _ :: _, [] => by simp [jBeqList]
  | x :: xs, y :: ys => by
    rw [show jBeqList (x :: xs) (y :: ys) = (jBeq x y && jBeqList xs ys) from
      by simp [jBeqList]]
    rw [Bool.and_eq_true, jBeq_iff x y, jBeqList_iff xs ys]
    simp

/-- `jBeqFields` coincides with propositional equality. -/
theorem jBeqFields_iff (kvs lvs : List (String × J)) :
    jBeqFields kvs lvs = true ↔ kvs = lvs :=
  match kvs, lvs with
  | [], [] => by simp [jBeqFields]
  | [], _ :: _ => by simp [jBeqFields]
  | _ :: _, [] => by simp [jBeqFields]
  | (k, v) :: kvs, (l, w) :: lvs => by
    rw [show jBeqFields ((k, v) :: kvs) ((l, w) :: lvs) =
      (k == l && jBeq v w && jBeqFields kvs lvs) from by simp [jBeqFields]]
    rw [Bool.and_eq_true, Bool.and_eq_true, jBeq_iff v w, jBeqFields_iff kvs lvs]
    simp [beq_iff_eq]

end

/-- `jBeq` is reflexive. -/
theorem jBeq_refl (a : J) : jBeq a a = true := (jBeq_iff a a).mpr rfl

/-- C10: `validate_key` leaves the `api_keys` table unchanged and returns
`None` on every rejected key — missing `sk-` prefix, no row matching the
first-15-character key id, bcrypt mismatch, inactive key — and in general
whenever it does not fully succeed. -/
theorem validateKey_rejects_without_mutation
    (bc : String → String → Bool) (now : ℕ) (db : List APIKeyRow) (key : String) :
    ((validateKey bc now db key).1 = none → (validateKey bc now db key).2 = db) ∧
    (¬ pyStartsWith key "sk-" → validateKey bc now db key = (none, db)) ∧
    (db.find? (fun r => r.keyId == key.take 15) = none →
      validateKey bc now db key = (none, db)) ∧
    (∀ row, db.find? (fun r => r.keyId == key.take 15) = some row →
      (bc key row.keyHash = false ∨ row.isActive = false) →
      validateKey bc now db key = (none, db)) := by
  by_cases hsk : pyStartsWith key "sk-"
  · cases hfind : db.find? (fun r => r.keyId == key.take 15) with
    | none =>
      refine ⟨?_, fun h => absurd hsk h, fun _ => ?_, fun row hrow => ?_⟩
      · intro _
        simp [validateKey, hsk, hfind]
      · simp [validateKey, hsk, hfind]
      · exact absurd hrow (by simp)
    | some row =>
      by_cases hbc : bc key row.keyHash
      · by_cases hact : row.isActive
        · refine ⟨?_, fun h => absurd hsk h, fun h => ?_, fun row' hrow' hbad => ?_⟩
          · intro h
            simp [validateKey, hsk, hfind, hbc, hact] at h
          · exact absurd h (by simp)
          · have : row' = row := by
              simpa using hrow'.symm
            subst this
            rcases hbad with hb | hb
            · rw [hbc] at hb
              exact absurd hb (by simp)
            · rw [hact] at hb
              exact absurd hb (by simp)
        · refine ⟨?_, fun h => absurd hsk h, fun h => ?_, fun _ _ _ => ?_⟩
          · intro _
            simp [validateKey, hsk, hfind, hbc, hact]
          · exact absurd h (by simp)
          · simp [validateKey, hsk, hfind, hbc, hact]
      · refine ⟨?_, fun h => absurd hsk h, fun h => ?_, fun _ _ _ => ?_⟩
        · intro _
          simp [validateKey, hsk, hfind, hbc]
        · exact absurd h (by simp)
        · simp [validateKey, hsk, hfind, hbc]
  · refine ⟨?_, fun _ => ?_, fun _ => ?_, fun _ _ _ => ?_⟩ <;>
      simp [validateKey, hsk]

/-- Witness for `validateKey_rejects_without_mutation`: a key without the
`sk-` prefix is rejected and the table is untouched. -/
theorem validateKey_rejects_without_mutation_witness :
    validateKey (fun _ _ => true) 7
      [⟨1, "sk-abcdefghijkl", "h", 1, true, none⟩] "bad-key" =
      (none, [⟨1, "sk-abcdefghijkl", "h", 1, true, none⟩]) :=
  (validateKey_rejects_without_mutation (fun _ _ => true) 7
      [⟨1, "sk-abcdefghijkl", "h", 1, true, none⟩] "bad-key").2.1 (by decide)

/-- C4 counterexample: the refresh attempt fails with HTTP 500 while the
held access token is not yet expired (`expires_at = 500 > now = 0`), yet
`get_access_token` propagates the error instead of returning the token:
graceful degradation is not applied outside the SQLite/HTTP-400 path. -/
theorem authRefreshFailure_propagates_despite_valid_token :
    getAccessToken 0 600 ⟨some "tok", some 500, false⟩ (fun _ => (none, none))
      (fun _ => .httpStatusError 500) = .httpPropagated 500 ∧
    isTokenExpired 0 ⟨some "tok", some 500, false⟩ = false := by
  constructor
  · rfl
  · rfl

/-- C4 amended: graceful degradation applies exactly when the refresh fails
with an `HTTPStatusError` of code 400 and the manager is in SQLite mode:
then a present, not-yet-expired access token is returned, and otherwise a
`ValueError` instructing re-login is raised; every other refresh failure
propagates regardless of the token's validity.  `s1` is the state after the
SQLite reload step. -/
theorem authGracefulDegradation (now threshold : ℤ) (s : AuthSt)
    (reload : AuthSt → Option String × Option ℤ) (refresh : AuthSt → RefreshOutcome)
    (h1 : ¬ (tokTruthy s.accessToken ∧ ¬ isTokenExpiringSoon now threshold s)) :
    ∀ s1, s1 = (if s.sqliteDb ∧ isTokenExpiringSoon now threshold s then
        { s with accessToken := (reload s).1, expiresAt := (reload s).2 }
      else s) →
    ¬ (s.sqliteDb ∧ isTokenExpiringSoon now threshold s ∧ tokTruthy s1.accessToken ∧
        ¬ isTokenExpiringSoon now threshold s1) →
    ((refresh s1 = .httpStatusError 400 → s1.sqliteDb = true →
        tokTruthy s1.accessToken = true → isTokenExpired now s1 = false →
        getAccessToken now threshold s reload refresh = .token (s1.accessToken.getD "")) ∧
     (refresh s1 = .httpStatusError 400 → s1.sqliteDb = true →
        (tokTruthy s1.accessToken = false ∨ isTokenExpired now s1 = true) →
        getAccessToken now threshold s reload refresh =
          .valueError "Token expired and refresh failed. Please run kiro-cli login to refresh your credentials.") ∧
     (∀ code, refresh s1 = .httpStatusError code → (code ≠ 400 ∨ s1.sqliteDb = false) →
        getAccessToken now threshold s reload refresh = .httpPropagated code) ∧
     (refresh s1 = .otherError →
        getAccessToken now threshold s reload refresh = .otherPropagated)) := by
  intro s1 hs1 h2
  subst hs1
  refine ⟨?_, ?_, ?_, ?_⟩
  · intro hr hsql htok hexp
    simp only [getAccessToken]
    rw [if_neg h1, if_neg h2, hr]
    simp [hsql, htok, hexp]
  · intro hr hsql hbad
    simp only [getAccessToken]
    rw [if_neg h1, if_neg h2, hr]
    rcases hbad with hb | hb
    · simp [hsql, hb]
    · simp [hsql, hb]
  · intro code hr hbad
    simp only [getAccessToken]
    rw [if_neg h1, if_neg h2, hr]
    rcases hbad with hb | hb
    · simp [hb]
    · simp [hb]
  · intro hr
    simp only [getAccessToken]
    rw [if_neg h1, if_neg h2, hr]

/-- Witness for `authGracefulDegradation`: SQLite mode, refresh fails with
400, token expires at 500 with `now = 0` (expiring soon for threshold 600
but not expired), so the still-usable token is returned. -/
theorem authGracefulDegradation_witness :
    getAccessToken 0 600 ⟨some "tok", some 500, true⟩
      (fun _ => (some "tok", some 500)) (fun _ => .httpStatusError 400) =
      .token "tok" := by
  have h := authGracefulDegradation 0 600 ⟨some "tok", some 500, true⟩
    (fun _ => (some "tok", some 500)) (fun _ => .httpStatusError 400)
    (by decide) ⟨some "tok", some 500, true⟩ (by decide) (by decide)
  exact h.1 (by decide) (by decide) (by decide) (by decide)

/-- C5: no run of the retry loop ever notifies the global rate limiter —
`GlobalRateLimiter.on_429_received` has no caller in the source — although a
429 response does trigger the exponential-backoff sleep `base · 2^attempt`
and a retry, as the concrete run in the second conjunct shows. -/
theorem retry429_never_notifies_rate_limiter :
    (∀ (base : ℚ) (stream : Bool) (maxRetries : ℕ) (outcomes : ℕ → HOutcome),
      HAction.notifyRateLimiter429 ∉ (requestWithRetry base stream maxRetries outcomes).2) ∧
    (requestWithRetry 1 false 3 (fun n => if n = 0 then .status 429 else .status 200) =
      (.response 200, [.getToken, .send, .sleep (1 * 2 ^ 0), .getToken, .send])) := by
  constructor
  · have key : ∀ (base : ℚ) (stream : Bool) (maxRetries : ℕ) (outcomes : ℕ → HOutcome)
        (fuel attempt : ℕ) (lastInfo : Option ℕ),
        HAction.notifyRateLimiter429 ∉
          (rwrLoop base stream maxRetries outcomes fuel attempt lastInfo).2 := by
      intro base stream maxRetries outcomes fuel
      induction fuel with
      | zero => intro attempt lastInfo; simp [rwrLoop]
      | succ n ih =>
        intro attempt lastInfo
        simp only [rwrLoop]
        cases outcomes attempt with
        | status code =>
          by_cases h200 : code = 200
          · simp [h200]
          · by_cases h403 : code = 403
            · simp [h200, h403, ih]
            · by_cases h429 : code = 429
              · simp [h200, h403, h429, ih]
              · by_cases h5xx : 500 ≤ code ∧ code < 600
                · simp [h200, h403, h429, h5xx, ih]
                · simp [h200, h403, h429, h5xx]
        | timeoutExc retryable sc =>
          by_cases hr : retryable = true ∧ attempt < maxRetries - 1
          · simp [hr, ih]
          · by_cases hnr : retryable = true
            · have hlt : ¬ attempt < maxRetries - 1 := fun hl => hr ⟨hnr, hl⟩
              simp [hr, hnr, hlt, ih]
            · simp [hr, hnr]
        | requestExc retryable sc =>
          by_cases hr : retryable = true ∧ attempt < maxRetries - 1
          · simp [hr, ih]
          · by_cases hnr : retryable = true
            · have hlt : ¬ attempt < maxRetries - 1 := fun hl => hr ⟨hnr, hl⟩
              simp [hr, hnr, hlt, ih]
            · simp [hr, hnr]
    intro base stream maxRetries outcomes
    exact key base stream maxRetries outcomes maxRetries 0 none
  · rfl

/-- C2 counterexample: finalizing a tool call whose accumulated arguments
are `{"q": "very long` does yield `arguments = "{}"` with a truncation tag,
but the tag's reason is `"missing 1 closing brace(s)"` — the
starts-with-brace/doesn't-end-with-brace check fires before the
unescaped-quote count — not the claimed unclosed-string reason. -/
theorem finalizeTruncation_reason_counterexample :
    (finalizeToolCall
        ⟨.str "t1", .str "search", "\x7b\"q\": \"very long", none⟩).arguments =
      "\x7b\x7d" ∧
    (finalizeToolCall
        ⟨.str "t1", .str "search", "\x7b\"q\": \"very long", none⟩).truncation =
      some ⟨true, "missing 1 closing brace(s)", 16⟩ ∧
    "missing 1 closing brace(s)" ≠ "unclosed string literal" := by
  refine ⟨rfl, rfl, by decide⟩

/-- C2 amended: whenever the accumulated argument string fails to parse as
JSON, finalization replaces the arguments with `"{}"`; the tool call is
tagged truncated exactly when the truncation diagnostic reports truncation
(its reasons: missing closing brace(s) or bracket(s) for a non-terminal
prefix, unbalanced brace or bracket counts, or an odd count of unescaped
quotes), and is left untagged otherwise.  For the concrete arguments
`{"q": "very long` the tag's reason is `"missing 1 closing brace(s)"`. -/
theorem finalizeToolCall_parse_failure (tc : ToolCall)
    (h : jsonLoads tc.arguments = none) :
    (finalizeToolCall tc).arguments = "\x7b\x7d" ∧
    ((diagnoseJsonTruncation tc.arguments).isTruncated = true →
      (finalizeToolCall tc).truncation = some (diagnoseJsonTruncation tc.arguments)) ∧
    ((diagnoseJsonTruncation tc.arguments).isTruncated = false →
      (finalizeToolCall tc).truncation = none) ∧
    (finalizeToolCall
        ⟨.str "t1", .str "search", "\x7b\"q\": \"very long", none⟩).truncation =
      some ⟨true, "missing 1 closing brace(s)", 16⟩ := by
  refine ⟨?_, ?_, ?_, rfl⟩
  · by_cases hs : (pyStrip tc.arguments).data = []
    · simp [finalizeToolCall, List.isEmpty_iff, hs]
    · simp only [finalizeToolCall, List.isEmpty_iff, hs, h]
      simp [hs]
      split <;> rfl
  · intro ht
    by_cases hs : (pyStrip tc.arguments).data = []
    · exfalso
      have hf : (diagnoseJsonTruncation tc.arguments).isTruncated = false := by
        simp only [diagnoseJsonTruncation]
        rw [show (pyStrip tc.arguments).toList = [] from hs]
        simp
      rw [hf] at ht
      exact absurd ht (by simp)
    · simp [finalizeToolCall, List.isEmpty_iff, hs, h, ht]
  · intro ht
    by_cases hs : (pyStrip tc.arguments).data = []
    · simp [finalizeToolCall, List.isEmpty_iff, hs]
    · simp [finalizeToolCall, List.isEmpty_iff, hs, h, ht]

/-- Witness for `finalizeToolCall_parse_failure` at the arguments `"not json"`. -/
theorem finalizeToolCall_parse_failure_witness :
    (finalizeToolCall ⟨.str "t9", .str "f", "not json", none⟩).arguments =
      "\x7b\x7d" :=
  (finalizeToolCall_parse_failure ⟨.str "t9", .str "f", "not json", none⟩ rfl).1

/-- Finalization always leaves `arguments` either the literal `"{}"` or the
`json.dumps` serialization of the parsed value. -/
theorem finalizeToolCall_args_shape (tc : ToolCall) :
    (finalizeToolCall tc).arguments = "\x7b\x7d" ∨
      ∃ v, (finalizeToolCall tc).arguments = jsonDump v := by
  by_cases hs : (pyStrip tc.arguments).data = []
  · left
    simp [finalizeToolCall, List.isEmpty_iff, hs]
  · cases hp : jsonLoads tc.arguments with
    | none =>
      left
      simp only [finalizeToolCall, List.isEmpty_iff, hs, hp]
      simp [hs]
      split <;> rfl
    | some v =>
      right
      exact ⟨v, by simp [finalizeToolCall, List.isEmpty_iff, hs, hp]⟩

/-- `finalizePush` preserves the arguments-shape property of the collected
tool calls. -/
theorem finalizePush_args_shape (ts : ToolSt)
    (h : ∀ tc ∈ ts.toolCalls,
      tc.arguments = "\x7b\x7d" ∨ ∃ v, tc.arguments = jsonDump v) :
    ∀ tc ∈ (finalizePush ts).toolCalls,
      tc.arguments = "\x7b\x7d" ∨ ∃ v, tc.arguments = jsonDump v := by
  intro tc htc
  cases hc : ts.currentToolCall with
  | none =>
    rw [finalizePush, hc] at htc
    exact h tc htc
  | some cur =>
    rw [finalizePush, hc] at htc
    simp only [List.mem_append, List.mem_singleton] at htc
    rcases htc with htc | rfl
    · exact h tc htc
    · exact finalizeToolCall_args_shape cur

/-- `processEvent` preserves the arguments-shape property. -/
theorem processEvent_args_shape (ts : ToolSt) (data : J) (ty : EvType)
    (h : ∀ tc ∈ ts.toolCalls,
      tc.arguments = "\x7b\x7d" ∨ ∃ v, tc.arguments = jsonDump v) :
    ∀ tc ∈ (processEvent ts data ty).2.toolCalls,
      tc.arguments = "\x7b\x7d" ∨ ∃ v, tc.arguments = jsonDump v := by
  cases ty with
  | content =>
    intro tc htc
    simp only [processEvent] at htc
    split at htc
    · exact h tc htc
    · split at htc
      · exact h tc htc
      · exact h tc htc
  | toolStart =>
    intro tc htc
    simp only [processEvent] at htc
    split at htc
    · refine finalizePush_args_shape _ ?_ tc htc
      intro u hu
      exact finalizePush_args_shape ts h u hu
    · exact finalizePush_args_shape ts h tc htc
  | toolInput =>
    intro tc htc
    simp only [processEvent] at htc
    cases hc : ts.currentToolCall with
    | some cur =>
      rw [hc] at htc
      exact h tc htc
    | none =>
      rw [hc] at htc
      exact h tc htc
  | toolStop =>
    intro tc htc
    simp only [processEvent] at htc
    split at htc
    · exact finalizePush_args_shape ts h tc htc
    · exact h tc htc
  | followup => exact h
  | usage => exact h
  | contextUsage => exact h

/-- The extraction loop preserves the arguments-shape property. -/
theorem processBufferF_args_shape : ∀ (fuel : ℕ) (buf : List Char) (ts : ToolSt),
    (∀ tc ∈ ts.toolCalls,
      tc.arguments = "\x7b\x7d" ∨ ∃ v, tc.arguments = jsonDump v) →
    ∀ tc ∈ (processBufferF fuel buf ts).2.2.toolCalls,
      tc.arguments = "\x7b\x7d" ∨ ∃ v, tc.arguments = jsonDump v := by
  intro fuel
  induction fuel with
  | zero => intro buf ts h; simpa [processBufferF] using h
  | succ n ih =>
    intro buf ts h tc htc
    simp only [processBufferF] at htc
    split at htc
    · exact h tc htc
    · split at htc
      · exact h tc htc
      · refine ih _ _ ?_ tc htc
        split
        · exact h
        · exact processEvent_args_shape ts _ _ h
  
/-- Feeding chunks preserves the arguments-shape property. -/
theorem feedStrAll_args_shape : ∀ (chunks : List (List Char)) (buf : List Char)
    (ts : ToolSt),
    (∀ tc ∈ ts.toolCalls,
      tc.arguments = "\x7b\x7d" ∨ ∃ v, tc.arguments = jsonDump v) →
    ∀ tc ∈ (feedStrAll buf ts chunks).2.2.toolCalls,
      tc.arguments = "\x7b\x7d" ∨ ∃ v, tc.arguments = jsonDump v := by
  intro chunks
  induction chunks with
  | nil => intro buf ts h; simpa [feedStrAll] using h
  | cons c cs ih =>
    intro buf ts h
    simp only [feedStrAll]
    exact ih _ _ (processBufferF_args_shape _ _ _ h)

/-- The second dedup pass only selects elements of its input. -/
theorem dedupByKey_mem : ∀ (xs : List ToolCall) (seen : List String)
    (tc : ToolCall), tc ∈ dedupByKey xs seen → tc ∈ xs := by
  intro xs
  induction xs with
  | nil => intro seen tc h; simpa [dedupByKey] using h
  | cons x rest ih =>
    intro seen tc h
    simp only [dedupByKey] at h
    by_cases hc : seen.contains (dedupKey x)
    · rw [if_pos hc] at h
      exact List.mem_cons_of_mem x (ih _ tc h)
    · rw [if_neg hc] at h
      rcases List.mem_cons.mp h with rfl | h
      · exact List.mem_cons_self _ _
      · exact List.mem_cons_of_mem x (ih _ tc h)

/-- Every value in the `by_id` dict of the first pass is an input element. -/
theorem dedupById_values_mem (tcs : List ToolCall) :
    ∀ kv ∈ dedupById tcs, kv.2 ∈ tcs := by
  have key : ∀ (l : List ToolCall) (m : List (J × ToolCall)) (P : ToolCall → Prop),
      (∀ kv ∈ m, P kv.2) → (∀ tc ∈ l, P tc) →
      ∀ kv ∈ dedupByIdFrom m l, P kv.2 := by
    intro l
    induction l with
    | nil => intro m P hm _ kv hkv; exact hm kv hkv
    | cons tc rest ih =>
      intro m P hm hl kv hkv
      rw [show dedupByIdFrom m (tc :: rest) =
        dedupByIdFrom (dedupByIdStep m tc) rest from rfl] at hkv
      refine ih _ P ?_ (fun u hu => hl u (List.mem_cons_of_mem tc hu)) kv hkv
      intro kv' hkv'
      unfold dedupByIdStep at hkv'
      by_cases htr : ¬ jTruthy tc.id
      · rw [if_pos htr] at hkv'
        exact hm kv' hkv'
      · rw [if_neg htr] at hkv'
        cases hfind : byIdFind m tc.id with
        | none =>
          simp only [hfind] at hkv'
          rcases List.mem_append.mp hkv' with h | h
          · exact hm kv' h
          · have heq : kv' = (tc.id, tc) := by simpa using h
            rw [heq]
            exact hl tc (List.mem_cons_self tc rest)
        | some existing =>
          simp only [hfind] at hkv'
          by_cases hrep : tc.arguments ≠ "\x7b\x7d" ∧
              (existing.arguments = "\x7b\x7d" ∨
                existing.arguments.length < tc.arguments.length)
          · rw [if_pos hrep] at hkv'
            rcases List.mem_map.mp hkv' with ⟨kv0, hkv0, heq⟩
            by_cases hb : jBeq kv0.1 tc.id
            · rw [if_pos hb] at heq
              rw [← heq]
              exact hl tc (List.mem_cons_self tc rest)
            · rw [if_neg hb] at heq
              rw [← heq]
              exact hm kv0 hkv0
          · rw [if_neg hrep] at hkv'
            exact hm kv' hkv'
  intro kv hkv
  exact key tcs [] (· ∈ tcs) (by simp) (fun tc h => h) kv hkv

/-- Every output of `deduplicate_tool_calls` is an input element. -/
theorem deduplicateToolCalls_mem (tcs : List ToolCall) :
    ∀ tc ∈ deduplicateToolCalls tcs, tc ∈ tcs := by
  intro tc h
  have h1 := dedupByKey_mem _ _ _ h
  rcases List.mem_append.mp h1 with h2 | h2
  · rcases List.mem_map.mp h2 with ⟨kv, hkv, heq⟩
    exact heq ▸ dedupById_values_mem tcs kv hkv
  · exact (List.mem_filter.mp h2).1

/-- C9: every tool call returned by `get_tool_calls` after any sequence of
feeds has `arguments` equal to the literal `"{}"` or to the `json.dumps`
serialization of a parsed value — raw unparseable argument text never
reaches the caller. -/
theorem getToolCalls_args_normalized (chunks : List (List Char)) (tc : ToolCall)
    (h : tc ∈ getToolCalls (feedStrAll [] initToolSt chunks).2.2) :
    tc.arguments = "\x7b\x7d" ∨ ∃ v, tc.arguments = jsonDump v := by
  have h1 := deduplicateToolCalls_mem _ tc h
  refine finalizePush_args_shape _ ?_ tc h1
  exact feedStrAll_args_shape chunks [] initToolSt (by simp [initToolSt])

/-- Witness for `getToolCalls_args_normalized`: a complete `tool_start`
event with inline arguments `{"q": 1}` and `stop: true`. -/
theorem getToolCalls_args_normalized_witness :
    ToolCall.mk (J.str "t1") (J.str "search") "\x7b\"q\": 1\x7d" none ∈
      getToolCalls (feedStrAll [] initToolSt
        ["\x7b\"name\":\"search\",\"toolUseId\":\"t1\",\"input\":\"\x7b\\\"q\\\": 1\x7d\",\"stop\":true\x7d".toList]).2.2 ∧
    ((ToolCall.mk (J.str "t1") (J.str "search") "\x7b\"q\": 1\x7d" none).arguments =
        "\x7b\x7d" ∨
      ∃ v, (ToolCall.mk (J.str "t1") (J.str "search")
        "\x7b\"q\": 1\x7d" none).arguments = jsonDump v) := by
  have hm : ToolCall.mk (J.str "t1") (J.str "search") "\x7b\"q\": 1\x7d" none ∈
      getToolCalls (feedStrAll [] initToolSt
        ["\x7b\"name\":\"search\",\"toolUseId\":\"t1\",\"input\":\"\x7b\\\"q\\\": 1\x7d\",\"stop\":true\x7d".toList]).2.2 := by
    rw [show getToolCalls (feedStrAll [] initToolSt
        ["\x7b\"name\":\"search\",\"toolUseId\":\"t1\",\"input\":\"\x7b\\\"q\\\": 1\x7d\",\"stop\":true\x7d".toList]).2.2 =
      [ToolCall.mk (J.str "t1") (J.str "search") "\x7b\"q\": 1\x7d" none] from rfl]
    exact List.mem_singleton.mpr rfl
  exact ⟨hm, getToolCalls_args_normalized _ _ hm⟩

/-- A successful `by_id` lookup returns a stored value whose key is the
looked-up id. -/
theorem byIdFind_some_mem (m : List (J × ToolCall)) (id : J) (tc' : ToolCall)
    (h : byIdFind m id = some tc') : ∃ kv ∈ m, kv.2 = tc' ∧ kv.1 = id := by
  unfold byIdFind at h
  cases hf : m.find? (fun kv => jBeq kv.1 id) with
  | none => rw [hf] at h; exact absurd h (by simp)
  | some kv =>
    rw [hf] at h
    refine ⟨kv, List.mem_of_find?_eq_some hf, by simpa using h, ?_⟩
    have := List.find?_some hf
    exact (jBeq_iff kv.1 id).mp this

/-- `by_id` lookup on a cons cell. -/
theorem byIdFind_cons (kv : J × ToolCall) (rest : List (J × ToolCall)) (id : J) :
    byIdFind (kv :: rest) id =
      if jBeq kv.1 id then some kv.2 else byIdFind rest id := by
  by_cases hb : jBeq kv.1 id
  · simp [byIdFind, List.find?, hb]
  · simp [byIdFind, List.find?, hb]

/-- An unsuccessful `by_id` lookup means no stored key equals the id. -/
theorem byIdFind_none_iff (m : List (J × ToolCall)) (id : J) :
    byIdFind m id = none ↔ ∀ kv ∈ m, kv.1 ≠ id := by
  induction m with
  | nil => simp [byIdFind]
  | cons kv rest ih =>
    rw [byIdFind_cons]
    by_cases hb : jBeq kv.1 id
    · simp only [if_pos hb]
      constructor
      · intro h
        exact absurd h (by simp)
      · intro h
        exact absurd ((jBeq_iff kv.1 id).mp hb) (h kv (List.mem_cons_self _ _))
    · simp only [if_neg hb, ih]
      constructor
      · intro h kv' hkv'
        rcases List.mem_cons.mp hkv' with rfl | hkv'
        · intro heq
          exact hb ((jBeq_iff _ _).mpr heq)
        · exact h kv' hkv'
      · intro h kv' hkv'
        exact h kv' (List.mem_cons_of_mem kv hkv')

/-- `byIdReplace` on a cons cell. -/
theorem byIdReplace_cons (kv : J × ToolCall) (rest : List (J × ToolCall))
    (k : J) (tc : ToolCall) :
    byIdReplace (kv :: rest) k tc =
      (if jBeq kv.1 k then (kv.1, tc) else kv) :: byIdReplace rest k tc := by
  simp [byIdReplace]

/-- `by_id` lookup distributes over an appended singleton. -/
theorem byIdFind_append (m : List (J × ToolCall)) (kv : J × ToolCall) (id : J) :
    byIdFind (m ++ [kv]) id =
      match byIdFind m id with
      | some tc' => some tc'
      | none => if jBeq kv.1 id then some kv.2 else none := by
  induction m with
  | nil =>
    rw [List.nil_append, byIdFind_cons]
    by_cases hb : jBeq kv.1 id
    · simp [hb, byIdFind]
    · simp [hb, byIdFind]
  | cons kv0 rest ih =>
    rw [List.cons_append, byIdFind_cons, byIdFind_cons]
    by_cases hb : jBeq kv0.1 id
    · simp [hb]
    · simp [hb, ih]

/-- `by_id` in-place replacement keeps keys and rewrites exactly the value
stored at the given key. -/
theorem byIdFind_replace (m : List (J × ToolCall)) (k : J) (tc : ToolCall)
    (id : J) :
    byIdFind (byIdReplace m k tc) id =
      match byIdFind m id with
      | some old => if jBeq id k then some tc else some old
      | none => none := by
  induction m with
  | nil => simp [byIdFind, byIdReplace]
  | cons kv rest ih =>
    rw [byIdReplace_cons, byIdFind_cons, byIdFind_cons]
    by_cases hbk : jBeq kv.1 k
    · by_cases hb : jBeq kv.1 id
      · have h1 : kv.1 = id := (jBeq_iff _ _).mp hb
        have h2 : kv.1 = k := (jBeq_iff _ _).mp hbk
        have h3 : jBeq id k = true := (jBeq_iff _ _).mpr (h1 ▸ h2)
        simp [hbk, hb, h3]
      · simp [hbk, hb, ih]
    · by_cases hb : jBeq kv.1 id
      · have h1 : kv.1 = id := (jBeq_iff _ _).mp hb
        have h3 : jBeq id k = false := by
          by_cases h : jBeq id k
          · exact absurd ((jBeq_iff _ _).mpr (h1 ▸ (jBeq_iff _ _).mp h)) hbk
          · simpa using h
        simp [hbk, hb, h3]
      · simp [hbk, hb, ih]

/-- One first-pass iteration preserves the dedup invariant, with the
processed list extended by the consumed entry. -/
theorem dedupByIdStep_inv (done : List ToolCall) (m : List (J × ToolCall))
    (tc : ToolCall) (h : DedupInv done m) :
    DedupInv (done ++ [tc]) (dedupByIdStep m tc) := by
  obtain ⟨h1, h2, h3, h4⟩ := h
  by_cases htr : jTruthy tc.id = true
  case neg =>
    have hstep : dedupByIdStep m tc = m := by
      unfold dedupByIdStep
      rw [if_pos (by simpa using htr)]
    rw [DedupInv, hstep]
    refine ⟨?_, h2, ?_, ?_⟩
    · intro kv hkv
      obtain ⟨ha, hb, hc⟩ := h1 kv hkv
      exact ⟨ha, hb, List.mem_append_left _ hc⟩
    · intro id hid hnone u hu
      rcases List.mem_append.mp hu with hu | hu
      · exact h3 id hid hnone u hu
      · have hut : u = tc := by simpa using hu
        rw [hut]
        intro heq
        rw [heq] at htr
        exact htr hid
    · intro id tc' hfind hex
      obtain ⟨kv, hkvm, hkv2, hkv1⟩ := byIdFind_some_mem _ _ _ hfind
      have htruthy : jTruthy id = true := hkv1 ▸ (h1 kv hkvm).2.1
      have hmem : ∀ u, u ∈ done ++ [tc] → u.id = id → u ∈ done := by
        intro u hu heq
        rcases List.mem_append.mp hu with hu | hu
        · exact hu
        · have hut : u = tc := by simpa using hu
          rw [hut] at heq
          rw [heq] at htr
          exact absurd htruthy htr
      obtain ⟨u0, hu0, hu0id, hu0args⟩ := hex
      have h5 := h4 id tc' hfind ⟨u0, hmem u0 hu0 hu0id, hu0id, hu0args⟩
      exact ⟨h5.1, fun u hu heq hargs => h5.2 u (hmem u hu heq) heq hargs⟩
  case pos =>
    cases hfind : byIdFind m tc.id with
    | none =>
      have hstep : dedupByIdStep m tc = m ++ [(tc.id, tc)] := by
        unfold dedupByIdStep
        rw [if_neg (by simpa using htr)]
        simp only [hfind]
      rw [DedupInv, hstep]
      have hnew : ∀ u ∈ done, u.id ≠ tc.id := h3 tc.id htr hfind
      refine ⟨?_, ?_, ?_, ?_⟩
      · intro kv hkv
        rcases List.mem_append.mp hkv with hkv | hkv
        · obtain ⟨ha, hb, hc⟩ := h1 kv hkv
          exact ⟨ha, hb, List.mem_append_left _ hc⟩
        · have hk : kv = (tc.id, tc) := by simpa using hkv
          rw [hk]
          exact ⟨rfl, htr, List.mem_append_right _ (by simp)⟩
      · rw [List.pairwise_append]
        refine ⟨h2, by simp, ?_⟩
        intro a ha b hb
        have hbk : b = (tc.id, tc) := by simpa using hb
        rw [hbk]
        obtain ⟨ha1, _, ha3⟩ := h1 a ha
        exact fun heq => hnew a.2 ha3 (ha1.trans heq)
      · intro id hid hnone u hu
        rw [byIdFind_append] at hnone
        cases hfm : byIdFind m id with
        | some old =>
          simp only [hfm] at hnone
          exact absurd hnone (by simp)
        | none =>
          simp only [hfm] at hnone
          by_cases hb : jBeq tc.id id
          · rw [if_pos hb] at hnone
            exact absurd hnone (by simp)
          · rw [if_neg hb] at hnone
            have hneq : tc.id ≠ id := fun heq => hb ((jBeq_iff _ _).mpr heq)
            rcases List.mem_append.mp hu with hu | hu
            · exact h3 id hid hfm u hu
            · have hut : u = tc := by simpa using hu
              rw [hut]
              exact hneq
      · intro id tc' hfindapp hex
        rw [byIdFind_append] at hfindapp
        cases hfm : byIdFind m id with
        | some old =>
          simp only [hfm] at hfindapp
          have hold : tc' = old := by simpa using hfindapp.symm
          -- the key id was already present, and tc.id is not that key
          have hneq : tc.id ≠ id := by
            intro heq
            rw [heq] at hfind
            rw [hfind] at hfm
            exact absurd hfm (by simp)
          have hmem : ∀ u, u ∈ done ++ [tc] → u.id = id → u ∈ done := by
            intro u hu heq
            rcases List.mem_append.mp hu with hu | hu
            · exact hu
            · have hut : u = tc := by simpa using hu
              rw [hut] at heq
              exact absurd heq hneq
          obtain ⟨u0, hu0, hu0id, hu0args⟩ := hex
          have h5 := h4 id tc' (hold ▸ hfm) ⟨u0, hmem u0 hu0 hu0id, hu0id, hu0args⟩
          exact ⟨h5.1, fun u hu heq hargs => h5.2 u (hmem u hu heq) heq hargs⟩
        | none =>
          simp only [hfm] at hfindapp
          by_cases hb : jBeq tc.id id
          · rw [if_pos hb] at hfindapp
            have heq : tc.id = id := (jBeq_iff _ _).mp hb
            have htc : tc' = tc := by simpa using hfindapp.symm
            rw [htc]
            have hnone : ∀ u ∈ done, u.id ≠ id := heq ▸ hnew
            obtain ⟨u0, hu0, hu0id, hu0args⟩ := hex
            rcases List.mem_append.mp hu0 with hu0 | hu0
            · exact absurd hu0id (hnone u0 hu0)
            · have hut : u0 = tc := by simpa using hu0
              rw [hut] at hu0args
              refine ⟨hu0args, ?_⟩
              intro u hu hid hargs
              rcases List.mem_append.mp hu with hu | hu
              · exact absurd hid (hnone u hu)
              · have hut2 : u = tc := by simpa using hu
                rw [hut2]
          · rw [if_neg hb] at hfindapp
            exact absurd hfindapp (by simp)
    | some existing =>
      by_cases hrep : tc.arguments ≠ "\x7b\x7d" ∧
          (existing.arguments = "\x7b\x7d" ∨
            existing.arguments.length < tc.arguments.length)
      · -- replacement
        have hstep : dedupByIdStep m tc = byIdReplace m tc.id tc := by
          unfold dedupByIdStep
          rw [if_neg (by simpa using htr)]
          simp only [hfind]
          rw [if_pos hrep]
        rw [DedupInv, hstep]
        refine ⟨?_, ?_, ?_, ?_⟩
        · intro kv hkv
          unfold byIdReplace at hkv
          rcases List.mem_map.mp hkv with ⟨kv0, hkv0, heq⟩
          obtain ⟨ha, hb, hc⟩ := h1 kv0 hkv0
          by_cases hbk : jBeq kv0.1 tc.id
          · rw [if_pos hbk] at heq
            have hk : kv0.1 = tc.id := (jBeq_iff _ _).mp hbk
            rw [← heq]
            exact ⟨by rw [hk], by rw [hk]; exact htr,
              List.mem_append_right _ (by simp)⟩
          · rw [if_neg hbk] at heq
            rw [← heq]
            exact ⟨ha, hb, List.mem_append_left _ hc⟩
        · unfold byIdReplace
          rw [List.pairwise_map]
          refine h2.imp ?_
          intro a b hab
          by_cases ha : jBeq a.1 tc.id <;> by_cases hb : jBeq b.1 tc.id <;>
            simp [ha, hb] <;> exact hab
        · intro id hid hnone u hu
          rw [byIdFind_replace] at hnone
          cases hfm : byIdFind m id with
          | some old =>
            simp only [hfm] at hnone
            by_cases hbid : jBeq id tc.id
            · rw [if_pos hbid] at hnone
              exact absurd hnone (by simp)
            · rw [if_neg hbid] at hnone
              exact absurd hnone (by simp)
          | none =>
            simp only [hfm] at hnone
            have hneq : tc.id ≠ id := by
              intro heq
              rw [heq] at hfind
              rw [hfind] at hfm
              exact absurd hfm (by simp)
            rcases List.mem_append.mp hu with hu | hu
            · exact h3 id hid hfm u hu
            · have hut : u = tc := by simpa using hu
              rw [hut]
              exact hneq
        · intro id tc' hfindrep hex
          rw [byIdFind_replace] at hfindrep
          cases hfm : byIdFind m id with
          | none =>
            simp only [hfm] at hfindrep
            exact absurd hfindrep (by simp)
          | some old =>
            simp only [hfm] at hfindrep
            by_cases hbid : jBeq id tc.id
            · -- the replaced slot: the kept entry is now tc
              rw [if_pos hbid] at hfindrep
              have heqid : id = tc.id := (jBeq_iff _ _).mp hbid
              have htc : tc' = tc := by simpa using hfindrep.symm
              rw [htc]
              have hfmex : byIdFind m id = some existing := by
                rw [heqid]
                exact hfind
              refine ⟨hrep.1, ?_⟩
              intro u hu hid hargs
              rcases List.mem_append.mp hu with hu | hu
              · have h5 := h4 id existing hfmex ⟨u, hu, hid, hargs⟩
                have hle := h5.2 u hu hid hargs
                rcases hrep.2 with hemp | hlt
                · exact absurd hemp h5.1
                · exact le_of_lt (lt_of_le_of_lt hle hlt)
              · have hut : u = tc := by simpa using hu
                rw [hut]
            · rw [if_neg hbid] at hfindrep
              have hold : tc' = old := by simpa using hfindrep.symm
              have hneq : tc.id ≠ id :=
                fun heq => hbid ((jBeq_iff _ _).mpr heq.symm)
              have hmem : ∀ u, u ∈ done ++ [tc] → u.id = id → u ∈ done := by
                intro u hu heq
                rcases List.mem_append.mp hu with hu | hu
                · exact hu
                · have hut : u = tc := by simpa using hu
                  rw [hut] at heq
                  exact absurd heq hneq
              obtain ⟨u0, hu0, hu0id, hu0args⟩ := hex
              have h5 := h4 id tc' (hold ▸ hfm)
                ⟨u0, hmem u0 hu0 hu0id, hu0id, hu0args⟩
              exact ⟨h5.1, fun u hu heq hargs => h5.2 u (hmem u hu heq) heq hargs⟩
      · -- keep the held entry
        have hstep : dedupByIdStep m tc = m := by
          unfold dedupByIdStep
          rw [if_neg (by simpa using htr)]
          simp only [hfind]
          rw [if_neg hrep]
        rw [DedupInv, hstep]
        push_neg at hrep
        refine ⟨?_, h2, ?_, ?_⟩
        · intro kv hkv
          obtain ⟨ha, hb, hc⟩ := h1 kv hkv
          exact ⟨ha, hb, List.mem_append_left _ hc⟩
        · intro id hid hnone u hu
          have hneq : tc.id ≠ id := by
            intro heq
            rw [heq] at hfind
            rw [hfind] at hnone
            exact absurd hnone (by simp)
          rcases List.mem_append.mp hu with hu | hu
          · exact h3 id hid hnone u hu
          · have hut : u = tc := by simpa using hu
            rw [hut]
            exact hneq
        · intro id tc' hfindm hex
          by_cases heqid : id = tc.id
          · -- the newcomer lost the comparison: the held entry stays best
            have htc' : tc' = existing := by
              rw [heqid] at hfindm
              rw [hfindm] at hfind
              simpa using hfind
            rw [htc']
            have hfmex : byIdFind m id = some existing := by
              rw [heqid]
              exact hfind
            have hcase : tc.arguments = "\x7b\x7d" ∨
                (existing.arguments ≠ "\x7b\x7d" ∧
                  tc.arguments.length ≤ existing.arguments.length) := by
              by_cases hta : tc.arguments = "\x7b\x7d"
              · exact Or.inl hta
              · have hr := hrep hta
                refine Or.inr ⟨hr.1, ?_⟩
                have := hr.2
                omega
            obtain ⟨u0, hu0, hu0id, hu0args⟩ := hex
            rcases List.mem_append.mp hu0 with hu0 | hu0
            · have h5 := h4 id existing hfmex ⟨u0, hu0, hu0id, hu0args⟩
              refine ⟨h5.1, ?_⟩
              intro u hu hid hargs
              rcases List.mem_append.mp hu with hu | hu
              · exact h5.2 u hu hid hargs
              · have hut : u = tc := by simpa using hu
                rw [hut]
                rcases hcase with hc | hc
                · rw [hut] at hargs
                  exact absurd hc hargs
                · exact hc.2
            · have hut : u0 = tc := by simpa using hu0
              rw [hut] at hu0args
              rcases hcase with hc | hc
              · exact absurd hc hu0args
              · refine ⟨hc.1, ?_⟩
                intro u hu hid hargs
                rcases List.mem_append.mp hu with hu | hu
                · exact (h4 id existing hfmex ⟨u, hu, hid, hargs⟩).2 u hu hid hargs
                · have hut2 : u = tc := by simpa using hu
                  rw [hut2]
                  exact hc.2
          · have hmem : ∀ u, u ∈ done ++ [tc] → u.id = id → u ∈ done := by
              intro u hu heq
              rcases List.mem_append.mp hu with hu | hu
              · exact hu
              · have hut : u = tc := by simpa using hu
                rw [hut] at heq
                exact absurd heq.symm heqid
            obtain ⟨u0, hu0, hu0id, hu0args⟩ := hex
            have h5 := h4 id tc' hfindm ⟨u0, hmem u0 hu0 hu0id, hu0id, hu0args⟩
            exact ⟨h5.1, fun u hu heq hargs => h5.2 u (hmem u hu heq) heq hargs⟩

/-- The first-pass fold preserves the dedup invariant along any input
suffix. -/
theorem dedupByIdFrom_inv (l : List ToolCall) :
    ∀ (done : List ToolCall) (m : List (J × ToolCall)), DedupInv done m →
      DedupInv (done ++ l) (dedupByIdFrom m l) := by
  induction l with
  | nil =>
    intro done m h
    simpa [dedupByIdFrom] using h
  | cons tc rest ih =>
    intro done m h
    have h1 := dedupByIdStep_inv done m tc h
    have h2 := ih (done ++ [tc]) (dedupByIdStep m tc) h1
    simpa [dedupByIdFrom, List.append_assoc] using h2

/-- The completed first pass satisfies the dedup invariant over the whole
input. -/
theorem dedupById_inv (tcs : List ToolCall) : DedupInv tcs (dedupById tcs) := by
  have h0 : DedupInv [] [] := by
    refine ⟨by simp, by simp, ?_, ?_⟩
    · intro id _ _ u hu
      exact absurd hu (by simp)
    · intro id tc' hfind
      exact absurd hfind (by simp [byIdFind])
  simpa [dedupById] using dedupByIdFrom_inv tcs [] [] h0

/-- With pairwise-distinct keys, lookup of a member key returns that
member's value. -/
theorem byIdFind_of_mem (m : List (J × ToolCall))
    (hp : m.Pairwise (fun a b => a.1 ≠ b.1)) (kv : J × ToolCall)
    (hm : kv ∈ m) : byIdFind m kv.1 = some kv.2 := by
  induction m with
  | nil => exact absurd hm (by simp)
  | cons a rest ih =>
    rw [byIdFind_cons]
    rcases List.mem_cons.mp hm with hk | hk
    · rw [hk, if_pos (jBeq_refl _)]
    · have hne : a.1 ≠ kv.1 := (List.pairwise_cons.mp hp).1 kv hk
      rw [if_neg (fun hb => hne ((jBeq_iff _ _).mp hb))]
      exact ih (List.pairwise_cons.mp hp).2 hk

/-- The second pass yields a sublist of its input. -/
theorem dedupByKey_sublist : ∀ (xs : List ToolCall) (seen : List String),
    (dedupByKey xs seen).Sublist xs := by
  intro xs
  induction xs with
  | nil =>
    intro seen
    simp [dedupByKey]
  | cons x rest ih =>
    intro seen
    unfold dedupByKey
    by_cases h : seen.contains (dedupKey x) = true
    · rw [if_pos (by simpa using h)]
      exact (ih seen).trans (List.sublist_cons_self x rest)
    · rw [if_neg (by simpa using h)]
      exact List.Sublist.cons₂ x (ih _)

/-- The second pass keeps no key from `seen` and no key twice. -/
theorem dedupByKey_keys : ∀ (xs : List ToolCall) (seen : List String),
    (∀ u ∈ dedupByKey xs seen, dedupKey u ∉ seen) ∧
    (dedupByKey xs seen).Pairwise (fun a b => dedupKey a ≠ dedupKey b) := by
  intro xs
  induction xs with
  | nil =>
    intro seen
    refine ⟨?_, by simp [dedupByKey]⟩
    intro u hu
    exact absurd hu (by simp [dedupByKey])
  | cons x rest ih =>
    intro seen
    unfold dedupByKey
    by_cases h : dedupKey x ∈ seen
    · rw [if_pos (by simp [List.contains, h])]
      exact ih seen
    · rw [if_neg (by simp [List.contains, h])]
      obtain ⟨ih1, ih2⟩ := ih (seen ++ [dedupKey x])
      refine ⟨?_, ?_⟩
      · intro u hu
        rcases List.mem_cons.mp hu with hux | hur
        · rw [hux]
          exact h
        · have hni := ih1 u hur
          intro hmem
          exact hni (List.mem_append_left _ hmem)
      · rw [List.pairwise_cons]
        refine ⟨?_, ih2⟩
        intro b hb heq
        have hni := ih1 b hb
        exact hni (List.mem_append_right _ (by rw [← heq]; simp))

/-- C3: end-of-stream tool-call deduplication: every returned entry comes
from the input; no two returned entries share a truthy (non-empty) id;
a returned entry with a truthy id has non-`"\x7b\x7d"` arguments of maximal
length among the input entries sharing its id, whenever any of those has
non-`"\x7b\x7d"` arguments; and no two returned entries share their
`name`/`arguments` pair. -/
theorem deduplicateToolCalls_spec (tcs : List ToolCall) :
    (∀ v ∈ deduplicateToolCalls tcs, v ∈ tcs) ∧
    (deduplicateToolCalls tcs).Pairwise
      (fun a b => jTruthy a.id = true → jTruthy b.id = true → a.id ≠ b.id) ∧
    (∀ v ∈ deduplicateToolCalls tcs, jTruthy v.id = true →
      (∃ u ∈ tcs, u.id = v.id ∧ u.arguments ≠ "\x7b\x7d") →
        v.arguments ≠ "\x7b\x7d" ∧
        ∀ u ∈ tcs, u.id = v.id → u.arguments ≠ "\x7b\x7d" →
          u.arguments.length ≤ v.arguments.length) ∧
    (deduplicateToolCalls tcs).Pairwise
      (fun a b => ¬ (a.name = b.name ∧ a.arguments = b.arguments)) := by
  obtain ⟨h1, h2, h3, h4⟩ := dedupById_inv tcs
  have hsub : (deduplicateToolCalls tcs).Sublist
      ((dedupById tcs).map (fun kv => kv.2) ++
        tcs.filter (fun tc => ¬ jTruthy tc.id)) := dedupByKey_sublist _ _
  have hfilter : ∀ v ∈ tcs.filter (fun tc => ¬ jTruthy tc.id),
      ¬ jTruthy v.id = true := by
    intro v hv
    have := (List.mem_filter.mp hv).2
    simpa using this
  refine ⟨deduplicateToolCalls_mem tcs, ?_, ?_, ?_⟩
  · refine List.Pairwise.sublist hsub ?_
    rw [List.pairwise_append]
    refine ⟨?_, ?_, ?_⟩
    · rw [List.pairwise_map]
      refine List.Pairwise.imp_of_mem ?_ h2
      intro a b ha hb hne hta htb
      rw [(h1 a ha).1, (h1 b hb).1]
      exact hne
    · refine List.pairwise_of_forall_mem_list ?_
      intro a ha b hb _ htb
      exact absurd htb (hfilter b hb)
    · intro a ha b hb _ htb
      exact absurd htb (hfilter b hb)
  · intro v hv htv hex
    have hvm : v ∈ (dedupById tcs).map (fun kv => kv.2) ++
        tcs.filter (fun tc => ¬ jTruthy tc.id) := hsub.subset hv
    rcases List.mem_append.mp hvm with hvm | hvm
    · rcases List.mem_map.mp hvm with ⟨kv, hkv, heq⟩
      have hfind : byIdFind (dedupById tcs) kv.1 = some kv.2 :=
        byIdFind_of_mem _ h2 kv hkv
      have hid : kv.1 = v.id := by
        rw [← heq]
        exact ((h1 kv hkv).1).symm
      rw [hid] at hfind
      rw [heq] at hfind
      exact h4 v.id v hfind hex
    · exact absurd htv (hfilter v hvm)
  · have hkeys := (dedupByKey_keys ((dedupById tcs).map (fun kv => kv.2) ++
        tcs.filter (fun tc => ¬ jTruthy tc.id)) []).2
    have heqd : deduplicateToolCalls tcs =
        dedupByKey ((dedupById tcs).map (fun kv => kv.2) ++
          tcs.filter (fun tc => ¬ jTruthy tc.id)) [] := rfl
    rw [heqd]
    refine List.Pairwise.imp ?_ hkeys
    intro a b hne hc
    apply hne
    unfold dedupKey
    rw [hc.1, hc.2]

theorem deduplicateToolCalls_spec_witness :
    ¬ ("\x7b\"x\":1\x7d" : String) = "\x7b\x7d" ∧
    (∀ u ∈ [ToolCall.mk (J.str "a") (J.str "f") "\x7b\x7d" none,
            ToolCall.mk (J.str "a") (J.str "f") "\x7b\"x\":1\x7d" none],
      u.id = J.str "a" → u.arguments ≠ "\x7b\x7d" →
        u.arguments.length ≤ ("\x7b\"x\":1\x7d" : String).length) := by
  have h := (deduplicateToolCalls_spec
      [ToolCall.mk (J.str "a") (J.str "f") "\x7b\x7d" none,
       ToolCall.mk (J.str "a") (J.str "f") "\x7b\"x\":1\x7d" none]).2.2.1
  have hm : deduplicateToolCalls
      [ToolCall.mk (J.str "a") (J.str "f") "\x7b\x7d" none,
       ToolCall.mk (J.str "a") (J.str "f") "\x7b\"x\":1\x7d" none] =
      [ToolCall.mk (J.str "a") (J.str "f") "\x7b\"x\":1\x7d" none] := rfl
  exact h (ToolCall.mk (J.str "a") (J.str "f") "\x7b\"x\":1\x7d" none)
    (by rw [hm]; exact List.mem_cons_self _ _)
    rfl
    ⟨ToolCall.mk (J.str "a") (J.str "f") "\x7b\"x\":1\x7d" none,
      List.mem_cons_of_mem _ (List.mem_cons_self _ _), rfl, by decide⟩

/-! ### Lemmas about dash-splitting and the segment character classes -/

theorem splitC_ne_nil (sep : Char) (s : List Char) : splitC sep s ≠ [] := by
  cases s with
  | nil => simp [splitC]
  | cons c rest =>
    by_cases hc : c = sep
    · simp [splitC, hc]
    · cases hm : splitC sep rest with
      | nil => simp [splitC, hc, hm]
      | cons a ss => simp [splitC, hc, hm]

theorem splitC_nosep (sep : Char) (s : List Char) (h : sep ∉ s) :
    splitC sep s = [s] := by
  induction s with
  | nil => rfl
  | cons c rest ih =>
    have hc : ¬ c = sep := fun he => h (he ▸ List.mem_cons_self c rest)
    have ih2 := ih (fun hm => h (List.mem_cons_of_mem _ hm))
    simp [splitC, hc, ih2]

theorem splitC_append (sep : Char) (s t : List Char) (h : sep ∉ s) :
    splitC sep (s ++ sep :: t) = s :: splitC sep t := by
  induction s with
  | nil => simp [splitC]
  | cons c rest ih =>
    have hc : ¬ c = sep := fun he => h (he ▸ List.mem_cons_self c rest)
    have ih2 := ih (fun hm => h (List.mem_cons_of_mem _ hm))
    simp [splitC, hc, ih2]

theorem splitC_join (sep : Char) (s : List Char) : joinC sep (splitC sep s) = s := by
  induction s with
  | nil => rfl
  | cons c rest ih =>
    by_cases hc : c = sep
    · rw [hc]
      cases hm : splitC sep rest with
      | nil => exact absurd hm (splitC_ne_nil sep rest)
      | cons a ss =>
        rw [hm] at ih
        have h1 : splitC sep (sep :: rest) = [] :: a :: ss := by simp [splitC, hm]
        rw [h1]
        rw [show joinC sep ([] :: a :: ss) = [] ++ sep :: joinC sep (a :: ss) from rfl]
        rw [ih]
        rfl
    · cases hm : splitC sep rest with
      | nil => exact absurd hm (splitC_ne_nil sep rest)
      | cons a ss =>
        rw [hm] at ih
        cases ss with
        | nil =>
          simp [joinC] at ih
          simp [splitC, hc, hm, joinC, ih]
        | cons b ss2 =>
          simp [joinC] at ih
          simp [splitC, hc, hm, joinC, ih]

theorem splitC_pieces (sep : Char) (s : List Char) :
    ∀ p ∈ splitC sep s, sep ∉ p := by
  induction s with
  | nil =>
    intro p hp
    have : p = [] := by simpa [splitC] using hp
    simp [this]
  | cons c rest ih =>
    by_cases hc : c = sep
    · intro p hp
      rw [hc] at hp
      simp only [splitC, if_pos rfl] at hp
      rcases List.mem_cons.mp hp with hp | hp
      · simp [hp]
      · exact ih p hp
    · cases hm : splitC sep rest with
      | nil => exact absurd hm (splitC_ne_nil sep rest)
      | cons a ss =>
        intro p hp
        simp only [splitC, hc, if_neg hc, hm] at hp
        rcases List.mem_cons.mp hp with hp | hp
        · rw [hp]
          intro hmem
          rcases List.mem_cons.mp hmem with he | he
          · exact hc he.symm
          · exact ih a (hm ▸ List.mem_cons_self a ss) he
        · exact ih p (hm ▸ List.mem_cons_of_mem _ hp)

theorem isDD_parts (s : List Char) (h : isDD s = true) :
    ∃ a b, digits1 a = true ∧ digits1 b = true ∧ s = a ++ '.' :: b := by
  unfold isDD at h
  cases hsp : splitC '.' s with
  | nil => exact absurd hsp (splitC_ne_nil '.' s)
  | cons a ss =>
    cases ss with
    | nil =>
      rw [hsp] at h
      exact absurd h (by simp)
    | cons b ss2 =>
      cases ss2 with
      | nil =>
        rw [hsp] at h
        simp only [Bool.and_eq_true] at h
        refine ⟨a, b, h.1, h.2, ?_⟩
        have hj := splitC_join '.' s
        rw [hsp] at hj
        simpa [joinC] using hj.symm
      | cons d ss3 =>
        rw [hsp] at h
        exact absurd h (by simp)

theorem isDigitC_char (c : Char) (h : isDigitC c = true) :
    c ≠ '-' ∧ c ≠ '.' ∧ c ≠ '\n' ∧ c.toLower = c := by
  refine ⟨?_, ?_, ?_, ?_⟩
  · intro he; rw [he] at h; exact absurd h (by decide)
  · intro he; rw [he] at h; exact absurd h (by decide)
  · intro he; rw [he] at h; exact absurd h (by decide)
  · simp only [isDigitC, decide_eq_true_eq] at h
    obtain ⟨h1, h2⟩ := h
    unfold Char.toLower
    rw [if_neg]
    intro hcon
    obtain ⟨hc1, hc2⟩ := hcon
    rw [Char.le_def, UInt32.le_def, BitVec.le_def] at h1 h2
    have e1 : ('0' : Char).val.toBitVec.toNat = 48 := rfl
    have e2 : ('9' : Char).val.toBitVec.toNat = 57 := rfl
    have e3 : c.toNat = c.val.toBitVec.toNat := rfl
    rw [e1] at h1
    rw [e2] at h2
    rw [e3] at hc1
    omega

theorem digits1_chars (d : List Char) (h : digits1 d = true) :
    ∀ c ∈ d, isDigitC c = true := by
  intro c hc
  simp only [digits1, Bool.and_eq_true, List.all_eq_true] at h
  exact h.2 c hc

theorem digits1_facts (d : List Char) (h : digits1 d = true) :
    '-' ∉ d ∧ '.' ∉ d ∧ '\n' ∉ d ∧ d.map Char.toLower = d := by
  have hall := digits1_chars d h
  refine ⟨?_, ?_, ?_, ?_⟩
  · intro hm; exact absurd (hall _ hm) (by decide)
  · intro hm; exact absurd (hall _ hm) (by decide)
  · intro hm; exact absurd (hall _ hm) (by decide)
  · have : d.map Char.toLower = d.map id :=
      List.map_congr_left (fun c hc => (isDigitC_char c (hall c hc)).2.2.2)
    simpa using this

theorem digits1_false_of_mem (s : List Char) (c : Char) (hc : c ∈ s)
    (hnd : isDigitC c = false) : digits1 s = false := by
  cases h : digits1 s with
  | false => rfl
  | true => exact absurd (digits1_chars s h c hc) (by simp [hnd])

theorem isDate8_false_of_mem (s : List Char) (c : Char) (hc : c ∈ s)
    (hnd : isDigitC c = false) : isDate8 s = false := by
  cases h : isDate8 s with
  | false => rfl
  | true =>
    simp only [isDate8, Bool.and_eq_true, List.all_eq_true] at h
    exact absurd (h.2 c hc) (by simp [hnd])

theorem isFam_false_of_dot (s : List Char) (hdot : '.' ∈ s) :
    isFam s = false := by
  cases h : isFam s with
  | false => rfl
  | true =>
    simp only [isFam, Bool.or_eq_true, beq_iff_eq] at h
    rcases h with (rfl | rfl) | rfl <;> exact absurd hdot (by decide)

theorem isFam_cases (f : List Char) (h : isFam f = true) :
    f = "haiku".data ∨ f = "sonnet".data ∨ f = "opus".data := by
  simpa only [isFam, Bool.or_eq_true, beq_iff_eq, or_assoc] using h

theorem isFam_facts (f : List Char) (h : isFam f = true) :
    '-' ∉ f ∧ '\n' ∉ f ∧ f.map Char.toLower = f ∧ digits1 f = false := by
  rcases isFam_cases f h with rfl | rfl | rfl <;>
    exact ⟨by decide, by decide, by decide, by decide⟩

theorem mem_of_getLast_char : ∀ (l : List Char) (a : Char),
    l.getLast? = some a → a ∈ l := by
  intro l
  induction l with
  | nil => intro a h; exact absurd h (by simp)
  | cons x xs ih =>
    intro a h
    cases xs with
    | nil =>
      have : x = a := by simpa using h
      simp [this]
    | cons y ys =>
      rw [List.getLast?_cons_cons] at h
      exact List.mem_cons_of_mem _ (ih a h)

theorem nmSegs_clean (s : List Char) (hmap : s.map Char.toLower = s)
    (hnl : '\n' ∉ s) : nmSegs s = splitC '-' s := by
  unfold nmSegs
  simp only [hmap]
  rw [if_neg]
  intro hlast
  exact hnl (mem_of_getLast_char s '\n' hlast)

theorem mapLower_dash (x y : List Char) (hx : x.map Char.toLower = x)
    (hy : y.map Char.toLower = y) :
    (x ++ '-' :: y).map Char.toLower = x ++ '-' :: y := by
  rw [List.map_append, hx, List.map_cons, hy]
  have hd : Char.toLower '-' = '-' := by decide
  rw [hd]

theorem nl_notmem_dash (x y : List Char) (hx : '\n' ∉ x) (hy : '\n' ∉ y) :
    '\n' ∉ x ++ '-' :: y := by
  intro h
  rcases List.mem_append.mp h with h | h
  · exact hx h
  · rcases List.mem_cons.mp h with h | h
    · exact absurd h (by decide)
    · exact hy h

theorem dash_notmem_dot (x y : List Char) (hx : '-' ∉ x) (hy : '-' ∉ y) :
    '-' ∉ x ++ '.' :: y := by
  intro h
  rcases List.mem_append.mp h with h | h
  · exact hx h
  · rcases List.mem_cons.mp h with h | h
    · exact absurd h (by decide)
    · exact hy h

theorem splitC2 (x y : List Char) (hx : '-' ∉ x) (hy : '-' ∉ y) :
    splitC '-' (x ++ '-' :: y) = [x, y] := by
  rw [splitC_append '-' x _ hx, splitC_nosep '-' y hy]

theorem splitC3 (x y z : List Char) (hx : '-' ∉ x) (hy : '-' ∉ y)
    (hz : '-' ∉ z) :
    splitC '-' (x ++ '-' :: (y ++ '-' :: z)) = [x, y, z] := by
  rw [splitC_append '-' x _ hx, splitC2 y z hy hz]

theorem splitC4 (w x y z : List Char) (hw : '-' ∉ w) (hx : '-' ∉ x)
    (hy : '-' ∉ y) (hz : '-' ∉ z) :
    splitC '-' (w ++ '-' :: (x ++ '-' :: (y ++ '-' :: z))) = [w, x, y, z] := by
  rw [splitC_append '-' w _ hw, splitC3 x y z hx hy hz]

/-- A segment fit for the `nmSegs` computation: dashless, newline-free and
lowercase-stable. -/
theorem segOk_digits (d : List Char) (h : digits1 d = true) :
    '-' ∉ d ∧ '\n' ∉ d ∧ d.map Char.toLower = d := by
  obtain ⟨h1, h2, h3, h4⟩ := digits1_facts d h
  exact ⟨h1, h3, h4⟩

theorem segOk_fam (f : List Char) (h : isFam f = true) :
    '-' ∉ f ∧ '\n' ∉ f ∧ f.map Char.toLower = f := by
  obtain ⟨h1, h2, h3, h4⟩ := isFam_facts f h
  exact ⟨h1, h2, h3⟩

theorem segOk_dd (a b : List Char) (ha : digits1 a = true)
    (hb : digits1 b = true) :
    '-' ∉ a ++ '.' :: b ∧ '\n' ∉ a ++ '.' :: b ∧
      (a ++ '.' :: b).map Char.toLower = a ++ '.' :: b := by
  obtain ⟨ha1, ha2, ha3, ha4⟩ := digits1_facts a ha
  obtain ⟨hb1, hb2, hb3, hb4⟩ := digits1_facts b hb
  refine ⟨dash_notmem_dot a b ha1 hb1, ?_, ?_⟩
  · intro h
    rcases List.mem_append.mp h with h | h
    · exact ha3 h
    · rcases List.mem_cons.mp h with h | h
      · exact absurd h (by decide)
      · exact hb3 h
  · rw [List.map_append, ha4, List.map_cons, hb4]
    have hd : Char.toLower '.' = '.' := by decide
    rw [hd]

theorem segOk_claude :
    '-' ∉ "claude".data ∧ '\n' ∉ "claude".data ∧
      "claude".data.map Char.toLower = "claude".data := by
  refine ⟨by decide, by decide, by decide⟩

theorem segOk_1m :
    '-' ∉ ['1', 'm'] ∧ '\n' ∉ ['1', 'm'] ∧
      (['1', 'm'] : List Char).map Char.toLower = ['1', 'm'] := by
  refine ⟨by decide, by decide, by decide⟩

theorem nmSegs_dash2 (x y : List Char)
    (hx : '-' ∉ x ∧ '\n' ∉ x ∧ x.map Char.toLower = x)
    (hy : '-' ∉ y ∧ '\n' ∉ y ∧ y.map Char.toLower = y) :
    nmSegs (x ++ '-' :: y) = [x, y] := by
  rw [nmSegs_clean _ (mapLower_dash x y hx.2.2 hy.2.2)
    (nl_notmem_dash x y hx.2.1 hy.2.1)]
  exact splitC2 x y hx.1 hy.1

theorem nmSegs_dash3 (x y z : List Char)
    (hx : '-' ∉ x ∧ '\n' ∉ x ∧ x.map Char.toLower = x)
    (hy : '-' ∉ y ∧ '\n' ∉ y ∧ y.map Char.toLower = y)
    (hz : '-' ∉ z ∧ '\n' ∉ z ∧ z.map Char.toLower = z) :
    nmSegs (x ++ '-' :: (y ++ '-' :: z)) = [x, y, z] := by
  rw [nmSegs_clean _
    (mapLower_dash x _ hx.2.2 (mapLower_dash y z hy.2.2 hz.2.2))
    (nl_notmem_dash x _ hx.2.1 (nl_notmem_dash y z hy.2.1 hz.2.1))]
  exact splitC3 x y z hx.1 hy.1 hz.1

theorem nmSegs_dash4 (w x y z : List Char)
    (hw : '-' ∉ w ∧ '\n' ∉ w ∧ w.map Char.toLower = w)
    (hx : '-' ∉ x ∧ '\n' ∉ x ∧ x.map Char.toLower = x)
    (hy : '-' ∉ y ∧ '\n' ∉ y ∧ y.map Char.toLower = y)
    (hz : '-' ∉ z ∧ '\n' ∉ z ∧ z.map Char.toLower = z) :
    nmSegs (w ++ '-' :: (x ++ '-' :: (y ++ '-' :: z))) = [w, x, y, z] := by
  rw [nmSegs_clean _
    (mapLower_dash w _ hw.2.2
      (mapLower_dash x _ hx.2.2 (mapLower_dash y z hy.2.2 hz.2.2)))
    (nl_notmem_dash w _ hw.2.1
      (nl_notmem_dash x _ hx.2.1 (nl_notmem_dash y z hy.2.1 hz.2.1)))]
  exact splitC4 w x y z hw.1 hx.1 hy.1 hz.1

theorem normalizeModelName_eq_self (n : List Char) (hne : n.isEmpty = false)
    (k1 : nmP1 (nmSegs n) = none) (k2 : nmP2 (nmSegs n) = none)
    (k3 : nmP3 (nmSegs n) = none) (k4 : nmP4 (nmSegs n) = none)
    (k5 : nmP5 (nmSegs n) = none) : normalizeModelName n = n := by
  simp [normalizeModelName, hne, k1, k2, k3, k4, k5]

/-- `claude-fam-X.Y` only re-enters pattern 5, so it is a fixed point when
pattern 5 rejects it. -/
theorem nmFix_fam_dd (f a b : List Char) (hf : isFam f = true)
    (ha : digits1 a = true) (hb : digits1 b = true)
    (h5 : nmP5 (nmSegs ("claude".data ++
      '-' :: (f ++ '-' :: (a ++ '.' :: b)))) = none) :
    normalizeModelName ("claude".data ++ '-' :: (f ++ '-' :: (a ++ '.' :: b))) =
      "claude".data ++ '-' :: (f ++ '-' :: (a ++ '.' :: b)) := by
  have hsegs := nmSegs_dash3 "claude".data f (a ++ '.' :: b)
    segOk_claude (segOk_fam f hf) (segOk_dd a b ha hb)
  have hddf : digits1 (a ++ '.' :: b) = false :=
    digits1_false_of_mem _ '.' (by simp) (by decide)
  have hd8f : isDate8 (a ++ '.' :: b) = false :=
    isDate8_false_of_mem _ '.' (by simp) (by decide)
  apply normalizeModelName_eq_self
  · rfl
  · rw [hsegs]; rfl
  · rw [hsegs]; simp [nmP2, hddf]
  · rw [hsegs]; rfl
  · rw [hsegs]; simp [nmP4, hd8f]
  · exact h5

/-- `claude-fam-X.Y-1m` matches nothing, so it is a fixed point when
pattern 5 rejects it. -/
theorem nmFix_fam_dd_1m (f a b : List Char) (hf : isFam f = true)
    (ha : digits1 a = true) (hb : digits1 b = true)
    (h5 : nmP5 (nmSegs ("claude".data ++ '-' :: (f ++
      '-' :: ((a ++ '.' :: b) ++ '-' :: '1' :: 'm' :: [])))) = none) :
    normalizeModelName ("claude".data ++ '-' :: (f ++
        '-' :: ((a ++ '.' :: b) ++ '-' :: '1' :: 'm' :: []))) =
      "claude".data ++ '-' :: (f ++
        '-' :: ((a ++ '.' :: b) ++ '-' :: '1' :: 'm' :: [])) := by
  have hsegs := nmSegs_dash4 "claude".data f (a ++ '.' :: b) ['1', 'm']
    segOk_claude (segOk_fam f hf) (segOk_dd a b ha hb) segOk_1m
  have hddf : digits1 (a ++ '.' :: b) = false :=
    digits1_false_of_mem _ '.' (by simp) (by decide)
  have hfd : digits1 f = false := (isFam_facts f hf).2.2.2
  have h1m : isDate8 ['1', 'm'] = false := rfl
  apply normalizeModelName_eq_self
  · rfl
  · rw [hsegs]; simp [nmP1, hddf]
  · rw [hsegs]; simp [nmP2, hddf]
  · rw [hsegs]; simp [nmP3, hfd]
  · rw [hsegs]; simp [nmP4, h1m]
  · exact h5

/-- `claude-X.Y-fam` matches nothing, so it is a fixed point when pattern 5
rejects it. -/
theorem nmFix_dd_fam (a b f : List Char) (ha : digits1 a = true)
    (hb : digits1 b = true) (hf : isFam f = true)
    (h5 : nmP5 (nmSegs ("claude".data ++
      '-' :: ((a ++ '.' :: b) ++ '-' :: f))) = none) :
    normalizeModelName ("claude".data ++ '-' :: ((a ++ '.' :: b) ++ '-' :: f)) =
      "claude".data ++ '-' :: ((a ++ '.' :: b) ++ '-' :: f) := by
  have hsegs := nmSegs_dash3 "claude".data (a ++ '.' :: b) f
    segOk_claude (segOk_dd a b ha hb) (segOk_fam f hf)
  have hfamf : isFam (a ++ '.' :: b) = false := isFam_false_of_dot _ (by simp)
  apply normalizeModelName_eq_self
  · rfl
  · rw [hsegs]; rfl
  · rw [hsegs]; simp [nmP2, hfamf]
  · rw [hsegs]; rfl
  · rw [hsegs]; simp [nmP4, hfamf]
  · exact h5

/-- `claude-fam` matches nothing at all. -/
theorem nmFix_fam_only (f : List Char) (hf : isFam f = true) :
    normalizeModelName ("claude".data ++ '-' :: f) =
      "claude".data ++ '-' :: f := by
  have hsegs := nmSegs_dash2 "claude".data f segOk_claude (segOk_fam f hf)
  apply normalizeModelName_eq_self
  · rfl
  · rw [hsegs]; rfl
  · rw [hsegs]; rfl
  · rw [hsegs]; rfl
  · rw [hsegs]; rfl
  · rw [hsegs]; rfl

/-- `claude-X.Y-fam-Z.W` is rejected by patterns 1-4; only pattern 5 (to be
excluded by hypothesis) can touch it. -/
theorem nmFix_dd_fam_dd (a b f u v : List Char) (ha : digits1 a = true)
    (hb : digits1 b = true) (hf : isFam f = true) (hu : digits1 u = true)
    (hv : digits1 v = true)
    (h5 : nmP5 (nmSegs ("claude".data ++ '-' :: ((a ++ '.' :: b) ++
      '-' :: (f ++ '-' :: (u ++ '.' :: v))))) = none) :
    normalizeModelName ("claude".data ++ '-' :: ((a ++ '.' :: b) ++
        '-' :: (f ++ '-' :: (u ++ '.' :: v)))) =
      "claude".data ++ '-' :: ((a ++ '.' :: b) ++
        '-' :: (f ++ '-' :: (u ++ '.' :: v))) := by
  have hsegs := nmSegs_dash4 "claude".data (a ++ '.' :: b) f (u ++ '.' :: v)
    segOk_claude (segOk_dd a b ha hb) (segOk_fam f hf) (segOk_dd u v hu hv)
  have hfam1 : isFam (a ++ '.' :: b) = false := isFam_false_of_dot _ (by simp)
  have hdig1 : digits1 (a ++ '.' :: b) = false :=
    digits1_false_of_mem _ '.' (by simp) (by decide)
  have hd82 : isDate8 (u ++ '.' :: v) = false :=
    isDate8_false_of_mem _ '.' (by simp) (by decide)
  apply normalizeModelName_eq_self
  · rfl
  · rw [hsegs]; simp [nmP1, hfam1]
  · rw [hsegs]; simp [nmP2, hfam1]
  · rw [hsegs]; simp [nmP3, hdig1]
  · rw [hsegs]; simp [nmP4, hd82]
  · exact h5

/-- `claude-fam-N` re-matches pattern 2 and is returned unchanged. -/
theorem nmFix_fam_d1 (f d1 : List Char) (hf : isFam f = true)
    (hd1 : digits1 d1 = true) :
    normalizeModelName ("claude".data ++ '-' :: (f ++ '-' :: d1)) =
      "claude".data ++ '-' :: (f ++ '-' :: d1) := by
  have hsegs := nmSegs_dash3 "claude".data f d1
    segOk_claude (segOk_fam f hf) (segOk_digits d1 hd1)
  have hne : ¬ ("claude".data ++ '-' :: (f ++ '-' :: d1)).isEmpty = true := by
    intro h
    exact absurd h (by simp)
  have h1 : nmP1 [("claude".data : List Char), f, d1] = none := rfl
  have h2 : nmP2 [("claude".data : List Char), f, d1] =
      some ("claude".data ++ '-' :: (f ++ '-' :: d1)) := by
    simp [nmP2, hf, hd1]
  unfold normalizeModelName
  rw [if_neg hne, hsegs, h1, h2]

theorem nmP1_some (segs : List (List Char)) (r : List Char)
    (h : nmP1 segs = some r) :
    ∃ f d1 d2, isFam f = true ∧ digits1 d1 = true ∧ digits1 d2 = true ∧
      (r = "claude".data ++ '-' :: (f ++ '-' :: (d1 ++ '.' :: d2)) ∨
       r = "claude".data ++
         '-' :: (f ++ '-' :: ((d1 ++ '.' :: d2) ++ '-' :: '1' :: 'm' :: []))) := by
  rcases segs with _ | ⟨s1, _ | ⟨s2, _ | ⟨s3, _ | ⟨s4, _ | ⟨s5, _ | ⟨s6, _ | ⟨s7, rest⟩⟩⟩⟩⟩⟩⟩
  · simp [nmP1] at h
  · simp [nmP1] at h
  · simp [nmP1] at h
  · simp [nmP1] at h
  · simp only [nmP1] at h
    split_ifs at h with hg
    · simp only [Bool.and_eq_true, beq_iff_eq, decide_eq_true_eq] at hg
      obtain ⟨⟨⟨⟨hc, hf⟩, hd1⟩, hd2⟩, hlen⟩ := hg
      exact ⟨s2, s3, s4, hf, hd1, hd2, Or.inl (Option.some.inj h).symm⟩
  · simp only [nmP1] at h
    split_ifs at h with hg hx hdx
    · simp only [Bool.and_eq_true, beq_iff_eq, decide_eq_true_eq] at hg
      obtain ⟨⟨⟨⟨hc, hf⟩, hd1⟩, hd2⟩, hlen⟩ := hg
      exact ⟨s2, s3, s4, hf, hd1, hd2, Or.inr (Option.some.inj h).symm⟩
    · simp only [Bool.and_eq_true, beq_iff_eq, decide_eq_true_eq] at hg
      obtain ⟨⟨⟨⟨hc, hf⟩, hd1⟩, hd2⟩, hlen⟩ := hg
      exact ⟨s2, s3, s4, hf, hd1, hd2, Or.inl (Option.some.inj h).symm⟩
  · simp only [nmP1] at h
    split_ifs at h with hg
    · simp only [Bool.and_eq_true, beq_iff_eq, decide_eq_true_eq] at hg
      obtain ⟨⟨⟨⟨⟨⟨hc, hf⟩, hd1⟩, hd2⟩, hlen⟩, hx⟩, hy⟩ := hg
      exact ⟨s2, s3, s4, hf, hd1, hd2, Or.inr (Option.some.inj h).symm⟩
  · simp [nmP1] at h

theorem nmP2_some (segs : List (List Char)) (r : List Char)
    (h : nmP2 segs = some r) :
    ∃ f d1, isFam f = true ∧ digits1 d1 = true ∧
      r = "claude".data ++ '-' :: (f ++ '-' :: d1) := by
  rcases segs with _ | ⟨s1, _ | ⟨s2, _ | ⟨s3, _ | ⟨s4, _ | ⟨s5, rest⟩⟩⟩⟩⟩
  · simp [nmP2] at h
  · simp [nmP2] at h
  · simp [nmP2] at h
  · simp only [nmP2] at h
    split_ifs at h with hg
    · simp only [Bool.and_eq_true, beq_iff_eq] at hg
      obtain ⟨⟨hc, hf⟩, hd1⟩ := hg
      exact ⟨s2, s3, hf, hd1, (Option.some.inj h).symm⟩
  · simp only [nmP2] at h
    split_ifs at h with hg
    · simp only [Bool.and_eq_true, beq_iff_eq] at hg
      obtain ⟨⟨⟨hc, hf⟩, hd1⟩, hdt⟩ := hg
      exact ⟨s2, s3, hf, hd1, (Option.some.inj h).symm⟩
  · simp [nmP2] at h

theorem nmP3_some (segs : List (List Char)) (r : List Char)
    (h : nmP3 segs = some r) :
    ∃ ma mi f, digits1 ma = true ∧ digits1 mi = true ∧ isFam f = true ∧
      r = "claude".data ++ '-' :: ((ma ++ '.' :: mi) ++ '-' :: f) := by
  rcases segs with _ | ⟨s1, _ | ⟨s2, _ | ⟨s3, _ | ⟨s4, _ | ⟨s5, _ | ⟨s6, rest⟩⟩⟩⟩⟩⟩
  · simp [nmP3] at h
  · simp [nmP3] at h
  · simp [nmP3] at h
  · simp [nmP3] at h
  · simp only [nmP3] at h
    split_ifs at h with hg
    · simp only [Bool.and_eq_true, beq_iff_eq] at hg
      obtain ⟨⟨⟨hc, hma⟩, hmi⟩, hf⟩ := hg
      exact ⟨s2, s3, s4, hma, hmi, hf, (Option.some.inj h).symm⟩
  · simp only [nmP3] at h
    split_ifs at h with hg
    · simp only [Bool.and_eq_true, beq_iff_eq] at hg
      obtain ⟨⟨⟨⟨hc, hma⟩, hmi⟩, hf⟩, hx⟩ := hg
      exact ⟨s2, s3, s4, hma, hmi, hf, (Option.some.inj h).symm⟩
  · simp [nmP3] at h

theorem nmP4_some (segs : List (List Char)) (r : List Char)
    (h : nmP4 segs = some r) :
    (∃ f, isFam f = true ∧ r = "claude".data ++ '-' :: f) ∨
    (∃ x y, r = "claude".data ++ '-' :: (x ++ '-' :: y) ∧
      ((isDD x = true ∧ isFam y = true) ∨ (isFam x = true ∧ isDD y = true))) ∨
    (∃ x f y, isDD x = true ∧ isFam f = true ∧ isDD y = true ∧
      r = "claude".data ++ '-' :: (x ++ '-' :: (f ++ '-' :: y))) := by
  rcases segs with _ | ⟨s1, _ | ⟨s2, _ | ⟨s3, _ | ⟨s4, _ | ⟨s5, _ | ⟨s6, rest⟩⟩⟩⟩⟩⟩
  · simp [nmP4] at h
  · simp [nmP4] at h
  · simp [nmP4] at h
  · simp only [nmP4] at h
    split_ifs at h with hg
    · simp only [Bool.and_eq_true, beq_iff_eq] at hg
      obtain ⟨⟨hc, hf⟩, hdt⟩ := hg
      exact Or.inl ⟨s2, hf, (Option.some.inj h).symm⟩
  · simp only [nmP4] at h
    split_ifs at h with hg
    · simp only [Bool.and_eq_true, Bool.or_eq_true, beq_iff_eq] at hg
      obtain ⟨⟨hc, hdt⟩, hor⟩ := hg
      refine Or.inr (Or.inl ⟨s2, s3, (Option.some.inj h).symm, ?_⟩)
      rcases hor with ⟨h1, h2⟩ | ⟨h1, h2⟩
      · exact Or.inl ⟨h1, h2⟩
      · exact Or.inr ⟨h1, h2⟩
  · simp only [nmP4] at h
    split_ifs at h with hg
    · simp only [Bool.and_eq_true, beq_iff_eq] at hg
      obtain ⟨⟨⟨⟨hc, ha⟩, hf⟩, hb⟩, hdt⟩ := hg
      exact Or.inr (Or.inr ⟨s2, s3, s4, ha, hf, hb, (Option.some.inj h).symm⟩)
  · simp [nmP4] at h

theorem nmP5_some (segs : List (List Char)) (r : List Char)
    (h : nmP5 segs = some r) :
    ∃ dd f, isDD dd = true ∧ isFam f = true ∧
      r = "claude".data ++ '-' :: (f ++ '-' :: dd) := by
  rcases segs with _ | ⟨s1, _ | ⟨s2, _ | ⟨s3, rest⟩⟩⟩
  · simp [nmP5] at h
  · simp [nmP5] at h
  · simp [nmP5] at h
  · simp only [nmP5] at h
    split_ifs at h with hg
    · simp only [Bool.and_eq_true, beq_iff_eq] at hg
      obtain ⟨⟨⟨⟨hc, hdd⟩, hf⟩, hj1⟩, hj2⟩ := hg
      exact ⟨s2, s3, hdd, hf, (Option.some.inj h).symm⟩

/-- Normalization is idempotent at every name whose normal form is not
matched by the inverted-format pattern 5. -/
theorem normalizeModelName_idem (name : List Char)
    (h5 : nmP5 (nmSegs (normalizeModelName name)) = none) :
    normalizeModelName (normalizeModelName name) = normalizeModelName name := by
  cases hemp : name.isEmpty with
  | true =>
    have h0 : normalizeModelName name = name := by
      simp [normalizeModelName, hemp]
    rw [h0]
    exact h0
  | false =>
  cases hp1 : nmP1 (nmSegs name) with
  | some r =>
    have hn : normalizeModelName name = r := by
      simp [normalizeModelName, hemp, hp1]
    rw [hn] at h5 ⊢
    obtain ⟨f, d1, d2, hf, hd1, hd2, hout⟩ := nmP1_some _ _ hp1
    rcases hout with rfl | rfl
    · exact nmFix_fam_dd f d1 d2 hf hd1 hd2 h5
    · exact nmFix_fam_dd_1m f d1 d2 hf hd1 hd2 h5
  | none =>
  cases hp2 : nmP2 (nmSegs name) with
  | some r =>
    have hn : normalizeModelName name = r := by
      simp [normalizeModelName, hemp, hp1, hp2]
    rw [hn]
    obtain ⟨f, d1, hf, hd1, rfl⟩ := nmP2_some _ _ hp2
    exact nmFix_fam_d1 f d1 hf hd1
  | none =>
  cases hp3 : nmP3 (nmSegs name) with
  | some r =>
    have hn : normalizeModelName name = r := by
      simp [normalizeModelName, hemp, hp1, hp2, hp3]
    rw [hn] at h5 ⊢
    obtain ⟨ma, mi, f, hma, hmi, hf, rfl⟩ := nmP3_some _ _ hp3
    exact nmFix_dd_fam ma mi f hma hmi hf h5
  | none =>
  cases hp4 : nmP4 (nmSegs name) with
  | some r =>
    have hn : normalizeModelName name = r := by
      simp [normalizeModelName, hemp, hp1, hp2, hp3, hp4]
    rw [hn] at h5 ⊢
    rcases nmP4_some _ _ hp4 with ⟨f, hf, rfl⟩ | ⟨x, y, rfl, hxy⟩ | ⟨x, f, y, hx, hf, hy, rfl⟩
    · exact nmFix_fam_only f hf
    · rcases hxy with ⟨hx, hy⟩ | ⟨hx, hy⟩
      · obtain ⟨a, b, ha, hb, rfl⟩ := isDD_parts x hx
        exact nmFix_dd_fam a b y ha hb hy h5
      · obtain ⟨a, b, ha, hb, rfl⟩ := isDD_parts y hy
        exact nmFix_fam_dd x a b hx ha hb h5
    · obtain ⟨a, b, ha, hb, rfl⟩ := isDD_parts x hx
      obtain ⟨u, v, hu, hv, rfl⟩ := isDD_parts y hy
      exact nmFix_dd_fam_dd a b f u v ha hb hf hu hv h5
  | none =>
  cases hp5 : nmP5 (nmSegs name) with
  | some r =>
    have hn : normalizeModelName name = r := by
      simp [normalizeModelName, hemp, hp1, hp2, hp3, hp4, hp5]
    rw [hn] at h5 ⊢
    obtain ⟨dd, f, hdd, hf, rfl⟩ := nmP5_some _ _ hp5
    obtain ⟨a, b, ha, hb, rfl⟩ := isDD_parts dd hdd
    exact nmFix_fam_dd f a b hf ha hb h5
  | none =>
    have hn : normalizeModelName name = name := by
      simp [normalizeModelName, hemp, hp1, hp2, hp3, hp4, hp5]
    rw [hn]
    exact hn

/-- Every branch of `resolve` reports the same `normalized` field: the
normalization of the alias-resolved request. -/
theorem resolve_normalized (aliases hidden : List (List Char × List Char))
    (cacheValid : List Char → Bool) (x : List Char) :
    (resolve aliases hidden cacheValid x).normalized =
      normalizeModelName
        (match dictGet aliases x with | some v => v | none => x) := by
  simp only [resolve]
  split
  · rfl
  · split
    · rfl
    · rfl

/-- C7 counterexample: with no aliases, no hidden models and an empty
cache, resolving `claude-3.7-sonnet-4.5-20250219` normalizes by the
date-stripping pattern 4 to `claude-3.7-sonnet-4.5`; resolving that
normalized name again matches the inverted-format pattern 5 and yields
`claude-sonnet-3.7`, so `resolve(resolve(m).normalized).normalized`
differs from `resolve(m).normalized`. -/
theorem resolve_normalized_not_idempotent :
    ¬ ((resolve [] [] (fun _ => false)
          ((resolve [] [] (fun _ => false)
              "claude-3.7-sonnet-4.5-20250219".data).normalized)).normalized =
        (resolve [] [] (fun _ => false)
            "claude-3.7-sonnet-4.5-20250219".data).normalized) := by
  decide

/-- C7 amended: `resolve(resolve(m).normalized).normalized ==
resolve(m).normalized` holds whenever the first resolution's normalized
name is not remapped by an alias and is not matched by the
inverted-format pattern 5 (`claude-X.Y-fam-suffix`); without the second
proviso the date-stripping pattern 4 can emit `claude-X.Y-fam-Z.W`,
which pattern 5 then rewrites, and without the first an alias can remap
the normalized name arbitrarily. -/
theorem resolve_normalized_idempotent
    (aliases hidden : List (List Char × List Char))
    (cacheValid : List Char → Bool) (m : List Char)
    (h1 : dictGet aliases ((resolve aliases hidden cacheValid m).normalized) =
      none)
    (h5 : nmP5 (nmSegs ((resolve aliases hidden cacheValid m).normalized)) =
      none) :
    (resolve aliases hidden cacheValid
        ((resolve aliases hidden cacheValid m).normalized)).normalized =
      (resolve aliases hidden cacheValid m).normalized := by
  rw [resolve_normalized aliases hidden cacheValid
    ((resolve aliases hidden cacheValid m).normalized)]
  simp only [h1]
  have hinner := resolve_normalized aliases hidden cacheValid m
  rw [hinner] at h5 ⊢
  exact normalizeModelName_idem _ h5

theorem resolve_normalized_idempotent_witness :
    dictGet [] ((resolve [] [] (fun _ => false)
        "claude-sonnet-4-5".data).normalized) = none ∧
    nmP5 (nmSegs ((resolve [] [] (fun _ => false)
        "claude-sonnet-4-5".data).normalized)) = none ∧
    (resolve [] [] (fun _ => false)
        ((resolve [] [] (fun _ => false)
            "claude-sonnet-4-5".data).normalized)).normalized =
      (resolve [] [] (fun _ => false) "claude-sonnet-4-5".data).normalized :=
  ⟨rfl, rfl,
    resolve_normalized_idempotent [] [] (fun _ => false)
      "claude-sonnet-4-5".data rfl rfl⟩

/-! ### Chunk-boundary invariance of the extraction loop -/

theorem listBegins_take : ∀ (p s : List Char),
    listBegins s p = true ↔ s.take p.length = p := by
  intro p
  induction p with
  | nil => intro s; simp [listBegins]
  | cons d ps ih =>
    intro s
    cases s with
    | nil => simp [listBegins]
    | cons c cs => simp [listBegins, ih cs]

theorem listBegins_len (s p : List Char) (h : listBegins s p = true) :
    p.length ≤ s.length := by
  have ht := (listBegins_take p s).mp h
  have : (s.take p.length).length = p.length := by rw [ht]
  simpa using this

theorem listBegins_append_right (s e p : List Char)
    (h : listBegins s p = true) : listBegins (s ++ e) p = true := by
  have hlen := listBegins_len s p h
  rw [listBegins_take] at h ⊢
  rw [List.take_append_of_le_length hlen, h]

theorem listBegins_of_append (s e p : List Char)
    (h : listBegins (s ++ e) p = true) (hlen : p.length ≤ s.length) :
    listBegins s p = true := by
  rw [listBegins_take] at h ⊢
  rw [List.take_append_of_le_length hlen] at h
  exact h

theorem listBegins_getElem (s p : List Char) (h : listBegins s p = true)
    (k : ℕ) (hk : k < p.length) : s[k]? = p[k]? := by
  have ht := (listBegins_take p s).mp h
  rw [← ht, List.getElem?_take, if_pos hk]

theorem firstOccAux_none_iff (p : List Char) (hp : p ≠ []) :
    ∀ (s : List Char) (i : ℕ), firstOccAux p s i = none ↔
      ∀ k, listBegins (s.drop k) p = false := by
  intro s
  induction s with
  | nil =>
    intro i
    constructor
    · intro _ k
      cases p with
      | nil => exact absurd rfl hp
      | cons d ps => simp [listBegins]
    · intro _
      simp [firstOccAux, List.isEmpty_iff, hp]
  | cons c rest ih =>
    intro i
    by_cases hb : listBegins (c :: rest) p = true
    · constructor
      · intro h
        rw [firstOccAux, if_pos hb] at h
        exact absurd h (by simp)
      · intro h
        have := h 0
        rw [List.drop_zero] at this
        rw [this] at hb
        exact absurd hb (by simp)
    · have hb2 : listBegins (c :: rest) p = false := by
        cases hx : listBegins (c :: rest) p
        · rfl
        · exact absurd hx hb
      constructor
      · intro h k
        rw [firstOccAux, if_neg hb] at h
        cases k with
        | zero => simpa using hb2
        | succ k2 =>
          have := (ih (i + 1)).mp h k2
          simpa using this
      · intro h
        rw [firstOccAux, if_neg hb]
        refine (ih (i + 1)).mpr ?_
        intro k
        have := h (k + 1)
        simpa using this

theorem firstOccAux_some_iff (p : List Char) (hp : p ≠ []) :
    ∀ (s : List Char) (i j : ℕ), firstOccAux p s i = some j ↔
      (i ≤ j ∧ listBegins (s.drop (j - i)) p = true ∧
        ∀ k < j - i, listBegins (s.drop k) p = false) := by
  intro s
  induction s with
  | nil =>
    intro i j
    constructor
    · intro h
      simp [firstOccAux, List.isEmpty_iff, hp] at h
    · intro ⟨h1, h2, h3⟩
      cases p with
      | nil => exact absurd rfl hp
      | cons d ps => simp [listBegins] at h2
  | cons c rest ih =>
    intro i j
    by_cases hb : listBegins (c :: rest) p = true
    · rw [firstOccAux, if_pos hb]
      constructor
      · intro h
        have hij : i = j := by simpa using h
        subst hij
        refine ⟨le_refl i, by simpa using hb, ?_⟩
        intro k hk
        omega
      · intro ⟨h1, h2, h3⟩
        by_cases hij : j = i
        · rw [hij]
        · have hpos : 0 < j - i := by omega
          have := h3 0 hpos
          rw [List.drop_zero] at this
          rw [this] at hb
          exact absurd hb (by simp)
    · have hb2 : listBegins (c :: rest) p = false := by
        cases hx : listBegins (c :: rest) p
        · rfl
        · exact absurd hx hb
      rw [firstOccAux, if_neg hb]
      rw [ih (i + 1) j]
      constructor
      · intro ⟨h1, h2, h3⟩
        refine ⟨by omega, ?_, ?_⟩
        · have he : j - i = (j - (i + 1)) + 1 := by omega
          rw [he]
          simpa using h2
        · intro k hk
          cases k with
          | zero => simpa using hb2
          | succ k2 =>
            have := h3 k2 (by omega)
            simpa using this
      · intro ⟨h1, h2, h3⟩
        have hij : i ≠ j := by
          intro he
          rw [← he] at h2
          simp at h2
          rw [h2] at hb
          exact absurd hb (by simp)
        refine ⟨by omega, ?_, ?_⟩
        · have he : j - i = (j - (i + 1)) + 1 := by omega
          rw [he] at h2
          simpa using h2
        · intro k hk
          have := h3 (k + 1) (by omega)
          simpa using this

theorem firstOcc_none_iff (p : List Char) (hp : p ≠ []) (s : List Char) :
    firstOcc p s = none ↔ ∀ k, listBegins (s.drop k) p = false :=
  firstOccAux_none_iff p hp s 0

theorem firstOcc_some_iff (p : List Char) (hp : p ≠ []) (s : List Char)
    (j : ℕ) :
    firstOcc p s = some j ↔
      (listBegins (s.drop j) p = true ∧
        ∀ k < j, listBegins (s.drop k) p = false) := by
  rw [firstOcc, firstOccAux_some_iff p hp s 0 j]
  simp

theorem eventPatterns_ne_nil : ∀ pt ∈ eventPatterns, pt.1 ≠ [] := by decide

theorem eventPatterns_head : ∀ pt ∈ eventPatterns, pt.1[0]? = some '\x7b' := by
  decide

theorem eventPatterns_brace : ∀ pt ∈ eventPatterns, '\x7b' ∉ pt.1.drop 1 := by
  decide

theorem eventPatterns_nonprefix : ∀ a ∈ eventPatterns, ∀ b ∈ eventPatterns,
    a.1 ≠ b.1 → ¬ (b.1.take a.1.length = a.1) := by decide

theorem fpStep_no_occ (s : List Char) (acc : Option (ℕ × EvType))
    (e : List Char × EvType) (h : firstOcc e.1 s = none) :
    fpStep s acc e = acc := by
  unfold fpStep
  rw [h]

theorem fpStep_occ_none (s : List Char) (e : List Char × EvType) (q : ℕ)
    (h : firstOcc e.1 s = some q) : fpStep s none e = some (q, e.2) := by
  unfold fpStep
  rw [h]

theorem fpStep_occ_some (s : List Char) (e : List Char × EvType) (q best : ℕ)
    (u : EvType) (h : firstOcc e.1 s = some q) :
    fpStep s (some (best, u)) e =
      if q < best then some (q, e.2) else some (best, u) := by
  unfold fpStep
  rw [h]

theorem fpFold_some (s : List Char) :
    ∀ (l : List (List Char × EvType)) (acc : Option (ℕ × EvType)) (pos : ℕ)
      (ty : EvType),
    List.foldl (fpStep s) acc l = some (pos, ty) →
    acc = some (pos, ty) ∨ ∃ p, (p, ty) ∈ l ∧ firstOcc p s = some pos := by
  intro l
  induction l with
  | nil =>
    intro acc pos ty h
    exact Or.inl (by simpa using h)
  | cons e l ih =>
    intro acc pos ty h
    rw [List.foldl_cons] at h
    rcases ih _ pos ty h with hacc | ⟨p, hp, hocc⟩
    · cases hfo : firstOcc e.1 s with
      | none =>
        rw [fpStep_no_occ s acc e hfo] at hacc
        exact Or.inl hacc
      | some q =>
        cases acc with
        | none =>
          rw [fpStep_occ_none s e q hfo] at hacc
          have hq : q = pos ∧ e.2 = ty := by simpa using hacc
          refine Or.inr ⟨e.1, ?_, ?_⟩
          · rw [← hq.2]
            exact List.mem_cons_self _ _
          · rw [hfo, hq.1]
        | some b =>
          obtain ⟨best, u⟩ := b
          rw [fpStep_occ_some s e q best u hfo] at hacc
          by_cases hlt : q < best
          · rw [if_pos hlt] at hacc
            have hq : q = pos ∧ e.2 = ty := by simpa using hacc
            refine Or.inr ⟨e.1, ?_, ?_⟩
            · rw [← hq.2]
              exact List.mem_cons_self _ _
            · rw [hfo, hq.1]
          · rw [if_neg hlt] at hacc
            exact Or.inl hacc
    · exact Or.inr ⟨p, List.mem_cons_of_mem _ hp, hocc⟩

theorem fpFold_mono (s : List Char) :
    ∀ (l : List (List Char × EvType)) (best : ℕ) (u : EvType) (pos : ℕ)
      (ty : EvType),
    List.foldl (fpStep s) (some (best, u)) l = some (pos, ty) →
    pos ≤ best := by
  intro l
  induction l with
  | nil =>
    intro best u pos ty h
    have : best = pos ∧ u = ty := by simpa using h
    omega
  | cons e l ih =>
    intro best u pos ty h
    rw [List.foldl_cons] at h
    cases hfo : firstOcc e.1 s with
    | none =>
      rw [fpStep_no_occ s _ e hfo] at h
      exact ih best u pos ty h
    | some q =>
      rw [fpStep_occ_some s e q best u hfo] at h
      by_cases hlt : q < best
      · rw [if_pos hlt] at h
        have := ih q e.2 pos ty h
        omega
      · rw [if_neg hlt] at h
        exact ih best u pos ty h

theorem fpFold_min (s : List Char) :
    ∀ (l : List (List Char × EvType)) (acc : Option (ℕ × EvType)) (pos : ℕ)
      (ty : EvType),
    List.foldl (fpStep s) acc l = some (pos, ty) →
    ∀ pt ∈ l, ∀ j, firstOcc pt.1 s = some j → pos ≤ j := by
  intro l
  induction l with
  | nil =>
    intro acc pos ty h pt hpt
    exact absurd hpt (by simp)
  | cons e l ih =>
    intro acc pos ty h pt hpt j hj
    rw [List.foldl_cons] at h
    rcases List.mem_cons.mp hpt with hpe | hpl
    · rw [hpe] at hj
      cases acc with
      | none =>
        rw [fpStep_occ_none s e j hj] at h
        exact fpFold_mono s l j e.2 pos ty h
      | some b =>
        obtain ⟨best, u⟩ := b
        rw [fpStep_occ_some s e j best u hj] at h
        by_cases hlt : j < best
        · rw [if_pos hlt] at h
          exact fpFold_mono s l j e.2 pos ty h
        · rw [if_neg hlt] at h
          have := fpFold_mono s l best u pos ty h
          omega
    · exact ih _ pos ty h pt hpl j hj

theorem fpFold_stable (s w : List Char) (pos : ℕ) :
    ∀ (l : List (List Char × EvType)),
    (∀ pt ∈ l, firstOcc pt.1 w = firstOcc pt.1 s ∨
      (firstOcc pt.1 s = none ∧ ∀ i, firstOcc pt.1 w = some i → pos < i)) →
    (∀ pt ∈ l, ∀ j, firstOcc pt.1 s = some j → pos ≤ j) →
    ∀ (accB accW : Option (ℕ × EvType)),
    ((∃ t, accB = some (pos, t) ∧ accW = some (pos, t)) ∨
     ((accB = none ∨ ∃ j u, accB = some (j, u) ∧ pos < j) ∧
      (accW = none ∨ ∃ i v, accW = some (i, v) ∧ pos < i))) →
    ∀ ty, List.foldl (fpStep s) accB l = some (pos, ty) →
      List.foldl (fpStep w) accW l = some (pos, ty) := by
  intro l
  induction l with
  | nil =>
    intro hG hM accB accW hinv ty h
    simp only [List.foldl_nil] at h ⊢
    rcases hinv with ⟨t, hB, hW⟩ | ⟨hB, hW⟩
    · rw [hB] at h
      rw [hW]
      exact h
    · rcases hB with hB | ⟨j, u, hB, hj⟩
      · rw [hB] at h
        exact absurd h (by simp)
      · rw [hB] at h
        have : j = pos ∧ u = ty := by simpa using h
        omega
  | cons e l ih =>
    intro hG hM accB accW hinv ty h
    rw [List.foldl_cons] at h ⊢
    have hGl : ∀ pt ∈ l, firstOcc pt.1 w = firstOcc pt.1 s ∨
        (firstOcc pt.1 s = none ∧ ∀ i, firstOcc pt.1 w = some i → pos < i) :=
      fun pt hpt => hG pt (List.mem_cons_of_mem _ hpt)
    have hMl : ∀ pt ∈ l, ∀ j, firstOcc pt.1 s = some j → pos ≤ j :=
      fun pt hpt => hM pt (List.mem_cons_of_mem _ hpt)
    refine ih hGl hMl _ _ ?_ ty h
    rcases hG e (List.mem_cons_self _ _) with heq | ⟨hnone, hbig⟩
    · cases hfs : firstOcc e.1 s with
      | none =>
        rw [hfs] at heq
        rw [fpStep_no_occ s accB e hfs, fpStep_no_occ w accW e heq]
        exact hinv
      | some q =>
        have hq : pos ≤ q := hM e (List.mem_cons_self _ _) q hfs
        rw [hfs] at heq
        rcases hinv with ⟨t, hB, hW⟩ | ⟨hB, hW⟩
        · rw [hB, hW, fpStep_occ_some s e q pos t hfs,
            fpStep_occ_some w e q pos t heq]
          have hnlt : ¬ q < pos := by omega
          rw [if_neg hnlt]
          exact Or.inl ⟨t, rfl, rfl⟩
        · by_cases hqpos : q = pos
          · refine Or.inl ⟨e.2, ?_, ?_⟩
            · rcases hB with hB | ⟨j, u, hB, hj⟩
              · rw [hB, fpStep_occ_none s e q hfs, hqpos]
              · rw [hB, fpStep_occ_some s e q j u hfs]
                have : q < j := by omega
                rw [if_pos this, hqpos]
            · rcases hW with hW | ⟨i, v, hW, hi⟩
              · rw [hW, fpStep_occ_none w e q heq, hqpos]
              · rw [hW, fpStep_occ_some w e q i v heq]
                have : q < i := by omega
                rw [if_pos this, hqpos]
          · have hqgt : pos < q := by omega
            refine Or.inr ⟨?_, ?_⟩
            · rcases hB with hB | ⟨j, u, hB, hj⟩
              · rw [hB, fpStep_occ_none s e q hfs]
                exact Or.inr ⟨q, e.2, rfl, hqgt⟩
              · rw [hB, fpStep_occ_some s e q j u hfs]
                by_cases hlt : q < j
                · rw [if_pos hlt]
                  exact Or.inr ⟨q, e.2, rfl, hqgt⟩
                · rw [if_neg hlt]
                  exact Or.inr ⟨j, u, rfl, hj⟩
            · rcases hW with hW | ⟨i, v, hW, hi⟩
              · rw [hW, fpStep_occ_none w e q heq]
                exact Or.inr ⟨q, e.2, rfl, hqgt⟩
              · rw [hW, fpStep_occ_some w e q i v heq]
                by_cases hlt : q < i
                · rw [if_pos hlt]
                  exact Or.inr ⟨q, e.2, rfl, hqgt⟩
                · rw [if_neg hlt]
                  exact Or.inr ⟨i, v, rfl, hi⟩
    · rw [fpStep_no_occ s accB e hnone]
      cases hfw : firstOcc e.1 w with
      | none =>
        rw [fpStep_no_occ w accW e hfw]
        exact hinv
      | some i =>
        have hi : pos < i := hbig i hfw
        rcases hinv with ⟨t, hB, hW⟩ | ⟨hB, hW⟩
        · rw [hW, fpStep_occ_some w e i pos t hfw]
          have hnlt : ¬ i < pos := by omega
          rw [if_neg hnlt]
          exact Or.inl ⟨t, hB, rfl⟩
        · refine Or.inr ⟨hB, ?_⟩
          rcases hW with hW | ⟨k, v, hW, hk⟩
          · rw [hW, fpStep_occ_none w e i hfw]
            exact Or.inr ⟨i, e.2, rfl, hi⟩
          · rw [hW, fpStep_occ_some w e i k v hfw]
            by_cases hlt : i < k
            · rw [if_pos hlt]
              exact Or.inr ⟨i, e.2, rfl, hi⟩
            · rw [if_neg hlt]
              exact Or.inr ⟨k, v, rfl, hk⟩

/-- Appending data never changes the earliest-pattern result while one is
present: old occurrences persist, and any occurrence created by the new
data lies past the winner (it would otherwise have to place the winner's
opening brace, and every pattern opens with its only brace). -/
theorem findPattern_append (buf extra : List Char) (pos : ℕ) (ty : EvType)
    (h : findPattern buf = some (pos, ty)) :
    findPattern (buf ++ extra) = some (pos, ty) := by
  have h0 : List.foldl (fpStep buf) none eventPatterns = some (pos, ty) := h
  have hM : ∀ pt ∈ eventPatterns, ∀ j, firstOcc pt.1 buf = some j → pos ≤ j :=
    fpFold_min buf eventPatterns none pos ty h0
  rcases fpFold_some buf eventPatterns none pos ty h0 with hacc | ⟨pw, hpwm, hpwo⟩
  · exact absurd hacc (by simp)
  have hpwne : pw ≠ [] := eventPatterns_ne_nil (pw, ty) hpwm
  obtain ⟨hoccb, hminb⟩ := (firstOcc_some_iff pw hpwne buf pos).mp hpwo
  have hpwlen : pw.length ≤ buf.length - pos := by
    have := listBegins_len _ _ hoccb
    simpa using this
  have hpwpos : 0 < pw.length := by
    cases pw with
    | nil => exact absurd rfl hpwne
    | cons c cs => simp
  have hposlt : pos < buf.length := by omega
  have hbrace : buf[pos]? = some '\x7b' := by
    have h1 := listBegins_getElem _ _ hoccb 0 hpwpos
    rw [List.getElem?_drop] at h1
    rw [show pos + 0 = pos by omega] at h1
    rw [h1]
    exact eventPatterns_head (pw, ty) hpwm
  have hG : ∀ pt ∈ eventPatterns,
      firstOcc pt.1 (buf ++ extra) = firstOcc pt.1 buf ∨
      (firstOcc pt.1 buf = none ∧
        ∀ i, firstOcc pt.1 (buf ++ extra) = some i → pos < i) := by
    intro pt hpt
    have hne : pt.1 ≠ [] := eventPatterns_ne_nil pt hpt
    cases hfs : firstOcc pt.1 buf with
    | some o =>
      left
      obtain ⟨ho1, ho2⟩ := (firstOcc_some_iff _ hne buf o).mp hfs
      have holen : pt.1.length ≤ buf.length - o := by
        have := listBegins_len _ _ ho1
        simpa using this
      have hopos : 0 < pt.1.length := by
        cases hx : pt.1 with
        | nil => exact absurd hx hne
        | cons c cs => simp
      have hole : o ≤ buf.length := by omega
      rw [firstOcc_some_iff _ hne]
      refine ⟨?_, ?_⟩
      · rw [List.drop_append_of_le_length hole]
        exact listBegins_append_right _ extra _ ho1
      · intro k hk
        have hkle : k ≤ buf.length := by omega
        cases hx : listBegins ((buf ++ extra).drop k) pt.1 with
        | false => rfl
        | true =>
          exfalso
          rw [List.drop_append_of_le_length hkle] at hx
          by_cases hfit : pt.1.length ≤ buf.length - k
          · have hb : listBegins (buf.drop k) pt.1 = true :=
              listBegins_of_append _ extra _ hx (by simpa using hfit)
            have := ho2 k hk
            rw [this] at hb
            exact absurd hb (by simp)
          · omega
    | none =>
      right
      refine ⟨rfl, ?_⟩
      intro i hi
      obtain ⟨hi1, hi2⟩ := (firstOcc_some_iff _ hne _ i).mp hi
      by_contra hle
      push_neg at hle
      have hile : i ≤ buf.length := by omega
      rw [List.drop_append_of_le_length hile] at hi1
      by_cases hfit : pt.1.length ≤ buf.length - i
      · have hb : listBegins (buf.drop i) pt.1 = true :=
          listBegins_of_append _ extra _ hi1 (by simpa using hfit)
        have := (firstOcc_none_iff _ hne buf).mp hfs i
        rw [this] at hb
        exact absurd hb (by simp)
      · push_neg at hfit
        have hoff : pos - i < pt.1.length := by omega
        have hchar : pt.1[pos - i]? = some '\x7b' := by
          have h1 := listBegins_getElem _ _ hi1 (pos - i) hoff
          rw [List.getElem?_append] at h1
          rw [if_pos (by simp only [List.length_drop]; omega)] at h1
          rw [List.getElem?_drop] at h1
          rw [show i + (pos - i) = pos by omega] at h1
          rw [← h1]
          exact hbrace
        by_cases hk0 : pos - i = 0
        · -- two distinct patterns would begin at the same position
          have hipos : i = pos := by omega
          have hne2 : pt.1 ≠ pw := by
            intro he
            rw [he] at hfs
            rw [hfs] at hpwo
            exact absurd hpwo (by simp)
          have hw_pw : listBegins ((buf ++ extra).drop pos) pw = true := by
            rw [List.drop_append_of_le_length (le_of_lt hposlt)]
            exact listBegins_append_right _ _ _ hoccb
          have hw_pt : listBegins ((buf ++ extra).drop pos) pt.1 = true := by
            rw [List.drop_append_of_le_length (le_of_lt hposlt)]
            rw [hipos] at hi1
            exact hi1
          have ht_pw := (listBegins_take _ _).mp hw_pw
          have ht_pt := (listBegins_take _ _).mp hw_pt
          rcases le_total pt.1.length pw.length with hlen | hlen
          · have : pw.take pt.1.length = pt.1 := by
              rw [← ht_pw, List.take_take, min_eq_left hlen]
              exact ht_pt
            exact eventPatterns_nonprefix pt hpt (pw, ty) hpwm hne2 this
          · have : pt.1.take pw.length = pw := by
              rw [← ht_pt, List.take_take, min_eq_left hlen]
              exact ht_pw
            exact eventPatterns_nonprefix (pw, ty) hpwm pt hpt
              (fun he => hne2 he.symm) this
        · have hmem : '\x7b' ∈ pt.1.drop 1 := by
            have h2 : (pt.1.drop 1)[pos - i - 1]? = some '\x7b' := by
              rw [List.getElem?_drop]
              rw [show 1 + (pos - i - 1) = pos - i by omega]
              exact hchar
            exact List.getElem?_mem h2
          exact absurd hmem (eventPatterns_brace pt hpt)
  exact fpFold_stable buf (buf ++ extra) pos eventPatterns hG hM none none
    (Or.inr ⟨Or.inl rfl, Or.inl rfl⟩) ty h0

theorem fmbAux_append : ∀ (s e : List Char) (i : ℕ) (depth : ℤ)
    (instr esc : Bool) (j : ℕ),
    fmbAux s i depth instr esc = some j →
    fmbAux (s ++ e) i depth instr esc = some j := by
  intro s
  induction s with
  | nil =>
    intro e i depth instr esc j h
    exact absurd h (by simp [fmbAux])
  | cons c rest ih =>
    intro e i depth instr esc j h
    rw [List.cons_append]
    rw [fmbAux] at h ⊢
    split_ifs at h ⊢ with h1 h2 h3 h4 h5 h6
    · exact ih e _ _ _ _ j h
    · exact ih e _ _ _ _ j h
    · exact ih e _ _ _ _ j h
    · exact ih e _ _ _ _ j h
    · exact h
    · exact ih e _ _ _ _ j h
    · exact ih e _ _ _ _ j h

theorem fmbAux_bounds : ∀ (s : List Char) (i : ℕ) (depth : ℤ)
    (instr esc : Bool) (j : ℕ),
    fmbAux s i depth instr esc = some j → i ≤ j ∧ j < i + s.length := by
  intro s
  induction s with
  | nil =>
    intro i depth instr esc j h
    exact absurd h (by simp [fmbAux])
  | cons c rest ih =>
    intro i depth instr esc j h
    rw [fmbAux] at h
    split_ifs at h with h1 h2 h3 h4 h5 h6
    · have := ih _ _ _ _ j h
      constructor
      · omega
      · simp only [List.length_cons]
        omega
    · have := ih _ _ _ _ j h
      exact ⟨by omega, by simp only [List.length_cons]; omega⟩
    · have := ih _ _ _ _ j h
      exact ⟨by omega, by simp only [List.length_cons]; omega⟩
    · have := ih _ _ _ _ j h
      exact ⟨by omega, by simp only [List.length_cons]; omega⟩
    · have : i = j := by simpa using h
      exact ⟨by omega, by simp only [List.length_cons]; omega⟩
    · have := ih _ _ _ _ j h
      exact ⟨by omega, by simp only [List.length_cons]; omega⟩
    · have := ih _ _ _ _ j h
      exact ⟨by omega, by simp only [List.length_cons]; omega⟩

theorem findMatchingBrace_append (text e : List Char) (pos j : ℕ)
    (h : findMatchingBrace text pos = some j) :
    findMatchingBrace (text ++ e) pos = some j := by
  unfold findMatchingBrace at h ⊢
  cases hd : text.drop pos with
  | nil =>
    rw [hd] at h
    exact absurd h (by simp)
  | cons c rest =>
    rw [hd] at h
    have hposle : pos ≤ text.length := by
      by_contra hgt
      push_neg at hgt
      rw [List.drop_eq_nil_of_le (le_of_lt hgt)] at hd
      exact absurd hd (by simp)
    rw [List.drop_append_of_le_length hposle, hd, List.cons_append]
    have h2 : (if c ≠ '\x7b' then none
        else fmbAux (c :: rest) pos 0 false false) = some j := h
    show (if c ≠ '\x7b' then none
      else fmbAux (c :: (rest ++ e)) pos 0 false false) = some j
    by_cases hc : c ≠ '\x7b'
    · rw [if_pos hc] at h2
      exact absurd h2 (by simp)
    · rw [if_neg hc] at h2 ⊢
      rw [show (c :: (rest ++ e) : List Char) = (c :: rest) ++ e from rfl]
      exact fmbAux_append _ e _ _ _ _ j h2

theorem findMatchingBrace_lt (text : List Char) (pos j : ℕ)
    (h : findMatchingBrace text pos = some j) : pos ≤ j ∧ j < text.length := by
  unfold findMatchingBrace at h
  cases hd : text.drop pos with
  | nil =>
    rw [hd] at h
    exact absurd h (by simp)
  | cons c rest =>
    rw [hd] at h
    have h2 : (if c ≠ '\x7b' then none
        else fmbAux (c :: rest) pos 0 false false) = some j := h
    by_cases hc : c ≠ '\x7b'
    · rw [if_pos hc] at h2
      exact absurd h2 (by simp)
    · rw [if_neg hc] at h2
      have hb := fmbAux_bounds _ _ _ _ _ j h2
      have hlen : (c :: rest).length = text.length - pos := by
        rw [← hd]
        simp
      have hposle : pos ≤ text.length := by
        by_contra hgt
        push_neg at hgt
        rw [List.drop_eq_nil_of_le (le_of_lt hgt)] at hd
        exact absurd hd (by simp)
      omega

theorem findPattern_nil : findPattern [] = none := rfl

theorem processBufferF_irrel : ∀ (n : ℕ) (buf : List Char) (ts : ToolSt)
    (f1 f2 : ℕ), buf.length ≤ n → buf.length < f1 → buf.length < f2 →
    processBufferF f1 buf ts = processBufferF f2 buf ts := by
  intro n
  induction n with
  | zero =>
    intro buf ts f1 f2 hn h1 h2
    have hbuf : buf = [] := List.length_eq_zero.mp (Nat.le_zero.mp hn)
    subst hbuf
    cases f1 with
    | zero => omega
    | succ f1 =>
      cases f2 with
      | zero => omega
      | succ f2 => simp only [processBufferF, findPattern_nil]
  | succ n ih =>
    intro buf ts f1 f2 hn h1 h2
    cases f1 with
    | zero => omega
    | succ f1 =>
      cases f2 with
      | zero => omega
      | succ f2 =>
        simp only [processBufferF]
        cases hfp : findPattern buf with
        | none => simp only [hfp]
        | some pt =>
          obtain ⟨pos, ty⟩ := pt
          simp only [hfp]
          cases hfm : findMatchingBrace buf pos with
          | none => simp only [hfm]
          | some jend =>
            simp only [hfm]
            have hj := findMatchingBrace_lt buf pos jend hfm
            rw [ih (buf.drop (jend + 1)) _ f1 f2
              (by simp only [List.length_drop]; omega)
              (by simp only [List.length_drop]; omega)
              (by simp only [List.length_drop]; omega)]

theorem processBufferF_eq (buf : List Char) (ts : ToolSt) (fuel : ℕ)
    (h : buf.length < fuel) : processBufferF fuel buf ts = processBuffer buf ts :=
  processBufferF_irrel buf.length buf ts fuel (buf.length + 1) (le_refl _) h
    (by omega)

/-- The `while` loop of `feed`, one iteration at a time. -/
theorem processBuffer_step (buf : List Char) (ts : ToolSt) :
    processBuffer buf ts =
      match findPattern buf with
      | none => ([], buf, ts)
      | some (pos, ty) =>
        match findMatchingBrace buf pos with
        | none => ([], buf, ts)
        | some jsonEnd =>
          let jsonStr := (buf.drop pos).take (jsonEnd + 1 - pos)
          let buf1 := buf.drop (jsonEnd + 1)
          let step : Option PEvent × ToolSt :=
            match jsonLoads (String.mk jsonStr) with
            | none => (none, ts)
            | some data => processEvent ts data ty
          let rest := processBuffer buf1 step.2
          (step.1.toList ++ rest.1, rest.2.1, rest.2.2) := by
  rw [processBuffer]
  simp only [processBufferF]
  cases hfp : findPattern buf with
  | none => simp only [hfp]
  | some pt =>
    obtain ⟨pos, ty⟩ := pt
    simp only [hfp]
    cases hfm : findMatchingBrace buf pos with
    | none => simp only [hfm]
    | some jend =>
      simp only [hfm]
      have hj := findMatchingBrace_lt buf pos jend hfm
      rw [processBufferF_eq _ _ buf.length
        (by simp only [List.length_drop]; omega)]

theorem processBuffer_quiescent : ∀ (n : ℕ) (buf : List Char) (ts : ToolSt),
    buf.length ≤ n →
    processBuffer (processBuffer buf ts).2.1 (processBuffer buf ts).2.2 =
      ([], (processBuffer buf ts).2.1, (processBuffer buf ts).2.2) := by
  intro n
  induction n with
  | zero =>
    intro buf ts hn
    have hbuf : buf = [] := List.length_eq_zero.mp (Nat.le_zero.mp hn)
    subst hbuf
    have h0 : processBuffer [] ts = ([], [], ts) := by
      rw [processBuffer_step]
      simp only [findPattern_nil]
    rw [h0]
    exact h0
  | succ n ih =>
    intro buf ts hn
    rw [processBuffer_step buf ts]
    cases hfp : findPattern buf with
    | none =>
      simp only [hfp]
      rw [processBuffer_step buf ts]
      simp only [hfp]
    | some pt =>
      obtain ⟨pos, ty⟩ := pt
      simp only [hfp]
      cases hfm : findMatchingBrace buf pos with
      | none =>
        simp only [hfm]
        rw [processBuffer_step buf ts]
        simp only [hfp, hfm]
      | some jend =>
        simp only [hfm]
        have hj := findMatchingBrace_lt buf pos jend hfm
        exact ih (buf.drop (jend + 1)) _
          (by simp only [List.length_drop]; omega)

/-- Extraction over `buf ++ extra` factors as extraction over `buf`
followed by extraction over the leftover plus `extra`. -/
theorem processBuffer_append : ∀ (n : ℕ) (buf : List Char) (ts : ToolSt)
    (extra : List Char), buf.length ≤ n →
    processBuffer (buf ++ extra) ts =
      ((processBuffer buf ts).1 ++
        (processBuffer ((processBuffer buf ts).2.1 ++ extra)
          (processBuffer buf ts).2.2).1,
       (processBuffer ((processBuffer buf ts).2.1 ++ extra)
          (processBuffer buf ts).2.2).2) := by
  intro n
  induction n with
  | zero =>
    intro buf ts extra hn
    have hbuf : buf = [] := List.length_eq_zero.mp (Nat.le_zero.mp hn)
    subst hbuf
    have h0 : processBuffer [] ts = ([], [], ts) := by
      rw [processBuffer_step]
      simp only [findPattern_nil]
    rw [h0]
    simp
  | succ n ih =>
    intro buf ts extra hn
    rw [processBuffer_step buf ts]
    cases hfp : findPattern buf with
    | none =>
      simp only [hfp]
      simp
    | some pt =>
      obtain ⟨pos, ty⟩ := pt
      simp only [hfp]
      cases hfm : findMatchingBrace buf pos with
      | none =>
        simp only [hfm]
        simp
      | some jend =>
        simp only [hfm]
        have hj := findMatchingBrace_lt buf pos jend hfm
        have hfp2 := findPattern_append buf extra pos ty hfp
        have hfm2 := findMatchingBrace_append buf extra pos jend hfm
        rw [processBuffer_step (buf ++ extra) ts]
        simp only [hfp2, hfm2]
        have hjs : ((buf ++ extra).drop pos).take (jend + 1 - pos) =
            (buf.drop pos).take (jend + 1 - pos) := by
          rw [List.drop_append_of_le_length (by omega)]
          rw [List.take_append_of_le_length
            (by simp only [List.length_drop]; omega)]
        have hb1 : (buf ++ extra).drop (jend + 1) =
            buf.drop (jend + 1) ++ extra :=
          List.drop_append_of_le_length (by omega)
        rw [hjs, hb1]
        rw [ih (buf.drop (jend + 1)) _ extra
          (by simp only [List.length_drop]; omega)]
        simp [List.append_assoc]

/-- Feeding any chunk sequence from a quiescent buffer state equals one
feed of the concatenation: same events, same leftover, same state. -/
theorem feedStrAll_join : ∀ (cs : List (List Char)) (buf : List Char)
    (ts : ToolSt), processBuffer buf ts = ([], buf, ts) →
    feedStrAll buf ts cs =
      ((processBuffer (buf ++ cs.flatten) ts).1,
       (processBuffer (buf ++ cs.flatten) ts).2.1,
       (processBuffer (buf ++ cs.flatten) ts).2.2) := by
  intro cs
  induction cs with
  | nil =>
    intro buf ts hq
    simp [feedStrAll, hq]
  | cons c cs ih =>
    intro buf ts hq
    have hqr := processBuffer_quiescent (buf ++ c).length (buf ++ c) ts
      (le_refl _)
    have hih := ih (processBuffer (buf ++ c) ts).2.1
      (processBuffer (buf ++ c) ts).2.2 hqr
    have hcomp := processBuffer_append (buf ++ c).length (buf ++ c) ts
      cs.flatten (le_refl _)
    simp only [feedStrAll, feedStr]
    rw [hih]
    have hflat : buf ++ (c :: cs).flatten = (buf ++ c) ++ cs.flatten := by
      simp [List.append_assoc]
    rw [hflat, hcomp]

/-- C8 counterexample: the bytes of `{"content":"é"}` split inside the
two-byte UTF-8 sequence of `é` (`0xC3 | 0xA9`).  Each chunk is decoded
separately with `errors='ignore'`, so both halves of the character are
dropped and the chunked parse emits a `content` event with the empty
string, while the single feed emits `é`. -/
theorem feed_chunk_invariance_counterexample :
    (feedBytesAll [] initToolSt
        [[123, 34, 99, 111, 110, 116, 101, 110, 116, 34, 58, 34, 195],
         [169, 34, 125]]).1 = [PEvent.content (J.str "")] ∧
    (processBuffer (utf8DecodeIgnore
        ([[123, 34, 99, 111, 110, 116, 101, 110, 116, 34, 58, 34, 195],
          [169, 34, 125]] : List (List ℕ)).flatten) initToolSt).1 =
      [PEvent.content (J.str "é")] ∧
    jBeq (J.str "") (J.str "é") = false :=
  ⟨rfl, rfl, rfl⟩

/-- C8 amended: feeding a byte partition chunk-by-chunk equals one feed of
the whole sequence — same concatenated events, same leftover buffer, same
final state and tool-call list — provided no chunk boundary splits a
multi-byte UTF-8 sequence (the per-chunk `errors='ignore'` decodes must
concatenate to the whole sequence's decode); `feed` itself never raises.
Without that proviso the bytes a boundary splits are silently dropped. -/
theorem feed_chunk_invariance (chunks : List (List ℕ))
    (hdec : utf8DecodeIgnore chunks.flatten =
      (chunks.map utf8DecodeIgnore).flatten) :
    feedBytesAll [] initToolSt chunks =
      ((processBuffer (utf8DecodeIgnore chunks.flatten) initToolSt).1,
       (processBuffer (utf8DecodeIgnore chunks.flatten) initToolSt).2.1,
       (processBuffer (utf8DecodeIgnore chunks.flatten) initToolSt).2.2) ∧
    getToolCalls (feedBytesAll [] initToolSt chunks).2.2 =
      getToolCalls
        (processBuffer (utf8DecodeIgnore chunks.flatten) initToolSt).2.2 := by
  have hq : processBuffer [] initToolSt = ([], [], initToolSt) := by
    rw [processBuffer_step]
    simp only [findPattern_nil]
  have h := feedStrAll_join (chunks.map utf8DecodeIgnore) [] initToolSt hq
  have h1 : feedBytesAll [] initToolSt chunks =
      ((processBuffer (utf8DecodeIgnore chunks.flatten) initToolSt).1,
       (processBuffer (utf8DecodeIgnore chunks.flatten) initToolSt).2.1,
       (processBuffer (utf8DecodeIgnore chunks.flatten) initToolSt).2.2) := by
    unfold feedBytesAll
    rw [h, List.nil_append, ← hdec]
  refine ⟨h1, ?_⟩
  rw [h1]

theorem feed_chunk_invariance_witness :
    utf8DecodeIgnore
        ([[123, 34, 117, 115, 97, 103, 101, 34, 58], [53, 125]] :
          List (List ℕ)).flatten =
      (([[123, 34, 117, 115, 97, 103, 101, 34, 58], [53, 125]] :
          List (List ℕ)).map utf8DecodeIgnore).flatten ∧
    feedBytesAll [] initToolSt
        [[123, 34, 117, 115, 97, 103, 101, 34, 58], [53, 125]] =
      ((processBuffer (utf8DecodeIgnore
          ([[123, 34, 117, 115, 97, 103, 101, 34, 58], [53, 125]] :
            List (List ℕ)).flatten) initToolSt).1,
       (processBuffer (utf8DecodeIgnore
          ([[123, 34, 117, 115, 97, 103, 101, 34, 58], [53, 125]] :
            List (List ℕ)).flatten) initToolSt).2.1,
       (processBuffer (utf8DecodeIgnore
          ([[123, 34, 117, 115, 97, 103, 101, 34, 58], [53, 125]] :
            List (List ℕ)).flatten) initToolSt).2.2) ∧
    getToolCalls (feedBytesAll [] initToolSt
        [[123, 34, 117, 115, 97, 103, 101, 34, 58], [53, 125]]).2.2 =
      getToolCalls (processBuffer (utf8DecodeIgnore
          ([[123, 34, 117, 115, 97, 103, 101, 34, 58], [53, 125]] :
            List (List ℕ)).flatten) initToolSt).2.2 :=
  ⟨rfl,
    (feed_chunk_invariance
      [[123, 34, 117, 115, 97, 103, 101, 34, 58], [53, 125]] rfl).1,
    (feed_chunk_invariance
      [[123, 34, 117, 115, 97, 103, 101, 34, 58], [53, 125]] rfl).2⟩

end KiroGateway
